import Mathlib

/-!
A verification development for the core of the broot directory-tree explorer:
the tree builder (`src/tree_build/builder.rs`), the browser state machine
(`src/browser/browser_state.rs`) and the content pattern
(`src/pattern/content_pattern.rs`).

The Rust code is shallowly embedded: external collaborators that are not part
of the sources (the scoring pattern dispatch, the git ignorer, the special-path
table, the line-status computer, the filesystem, wall-clock time and the dam)
are abstracted as explicit oracle parameters, and every stateful loop is made
an explicit state-passing function. Machine integers are modelled as `Int` or
`Nat` (none of the quantities involved can overflow in the modelled runs).
-/

namespace Broot

/-! ## Display-side data model -/

/-- The tags of `CmdResult` that the browser state returns from intents. -/
inductive CmdResultM where
  | keep
  | popState
  | quit
  | newState
  | closePanel
  | handleInApp
  | error (msg : String)
deriving DecidableEq, Repr

/-- `ComputationResult` for the tree git status (from `task_sync.rs`). -/
inductive GStatus where
  | notAsked
  | notComputed
  | done
  | failed
deriving DecidableEq, Repr

/-- A displayed tree line: the fields of `TreeLine` the claims touch. Paths are
modelled as the list of file names from the root directory. -/
structure LineM where
  path : List String
  name : String
  depth : Nat
  score : Int
  direct_match : Bool
deriving DecidableEq, Repr

instance : Inhabited LineM := ⟨⟨[], "", 0, 0, false⟩⟩

/-- The `Tree` value: ordered lines plus cursor state, the `total_search` flag,
the pattern snapshot from its build options and the git-status slot. -/
structure TreeM where
  lines : List LineM
  selection : Nat
  scroll : Int
  total_search : Bool
  pattern : Option String
  git_status : GStatus
deriving DecidableEq, Repr

/-- The browser `Mode` (modal-mode support). -/
inductive ModeM where
  | input
  | command
deriving DecidableEq, Repr

/-- `BrowserState`: base tree, optional filtered overlay, pending pattern
(`Option String`, `none` standing for `InputPattern::none()`), and the
total-search-required flag. -/
structure BrowserStateM where
  tree : TreeM
  filtered_tree : Option TreeM
  pending_pattern : Option String
  total_search_required : Bool
  mode : ModeM
deriving DecidableEq, Repr

/-- `Tree::selected_line`: the line under the selection index. -/
def TreeM.selected_line (t : TreeM) : LineM := t.lines.getD t.selection default

/-- The index of the first line carrying the given path. -/
def idxOfPath (p : List String) : List LineM → Option Nat
  | [] => none
  | l :: rest => if l.path = p then some 0 else (idxOfPath p rest).map (· + 1)

/-- Modelled from the spec: `Tree::try_select_path` (tree.rs is not among the
sources). Re-selects the line with the given path if present and reports
whether it was found; on absence the tree is unchanged. -/
def TreeM.try_select_path (t : TreeM) (p : List String) : TreeM × Bool :=
  match idxOfPath p t.lines with
  | some i => ({ t with selection := i }, true)
  | none => (t, false)

/-- Modelled from the spec: `Tree::make_selection_visible` (tree.rs is not
among the sources): a bounded scroll adjustment that brings the selected line
inside the current page. -/
def TreeM.make_selection_visible (t : TreeM) (page_height : Int) : TreeM :=
  if (t.selection : Int) < t.scroll then { t with scroll := (t.selection : Int) }
  else if t.scroll + page_height ≤ (t.selection : Int) then
    { t with scroll := (t.selection : Int) - page_height + 1 }
  else t

/-- Modelled from the spec: `Tree::try_select_best_match` (tree.rs is not among
the sources): select the best match of the freshly built filtered tree. -/
def TreeM.try_select_best_match (t : TreeM) : TreeM :=
  match t.lines.findIdx? (fun l => l.direct_match) with
  | some i => { t with selection := i }
  | none => t

/-- `BrowserState::displayed_tree`: the filtered tree when present, else the
base tree. -/
def BrowserStateM.displayed_tree (s : BrowserStateM) : TreeM :=
  s.filtered_tree.getD s.tree

/-- Writing back through `BrowserState::displayed_tree_mut`. -/
def BrowserStateM.set_displayed (s : BrowserStateM) (t : TreeM) : BrowserStateM :=
  match s.filtered_tree with
  | some _ => { s with filtered_tree := some t }
  | none => { s with tree := t }

/-! ## Browser intents (browser_state.rs) -/

/-- `BrowserState::on_pattern`: drop the overlay when the submitted pattern is
empty, store the pattern as pending either way, answer `Keep`. -/
def on_pattern (s : BrowserStateM) (pat : Option String) : BrowserStateM × CmdResultM :=
  let s1 := if pat.isNone then { s with filtered_tree := none } else s
  ({ s1 with pending_pattern := pat }, CmdResultM.keep)

/-- `BrowserState::on_internal`, case `Internal::back`. -/
def on_back (s : BrowserStateM) (page_height : Int) : BrowserStateM × CmdResultM :=
  match s.filtered_tree with
  | some ft =>
      let filtered_selection := ft.selected_line.path
      let sel := s.tree.try_select_path filtered_selection
      let t := if sel.2 then sel.1.make_selection_visible page_height else sel.1
      ({ s with tree := t, filtered_tree := none }, CmdResultM.keep)
  | none =>
      if s.tree.selection > 0 then
        ({ s with tree := { s.tree with selection := 0 } }, CmdResultM.keep)
      else (s, CmdResultM.popState)

/-- `BrowserState::on_internal`, case `Internal::total_search`. -/
def on_total_search (s : BrowserStateM) : BrowserStateM × CmdResultM :=
  match s.filtered_tree with
  | some ft =>
      if ft.total_search then
        (s, CmdResultM.error "search was already total - all children have been rated")
      else
        ({ s with pending_pattern := ft.pattern, total_search_required := true },
          CmdResultM.keep)
  | none => (s, CmdResultM.error "this verb can be used only after a search")

/-- `BrowserState::do_pending_task`. The builder construction and the build run
are abstracted: `builder_ok` stands for `TreeBuilder::from` succeeding, and
`buildResult` for the value of `builder.build(total_search_required, dam)`
(`none` when the dam fired and the build was cancelled). `gitResult` abstracts
`git::get_tree_status` and `sumStep` abstracts
`Tree::fetch_some_missing_dir_sum`, which live outside the sources. -/
def do_pending_task (s : BrowserStateM) (page_height : Int) (builder_ok : Bool)
    (buildResult : Option TreeM) (gitResult : GStatus) (sumStep : TreeM → TreeM) :
    BrowserStateM :=
  if s.pending_pattern.isSome then
    let s1 := { s with pending_pattern := none }
    if builder_ok = false then s1
    else
      let s2 := { s1 with total_search_required := false }
      match buildResult with
      | some ft =>
          let ft2 := (ft.try_select_best_match).make_selection_visible page_height
          { s2 with filtered_tree := some ft2 }
      | none => s2
  else if s.displayed_tree.git_status = GStatus.notComputed then
    s.set_displayed { s.displayed_tree with git_status := gitResult }
  else
    s.set_displayed (sumStep s.displayed_tree)

/-! ## Tree builder data model (tree_build/builder.rs) -/

/-- File types, as distinguished by the builder. -/
inductive FType where
  | dir
  | file
  | symlink
deriving DecidableEq, Repr

/-- `SpecialHandling` (path.rs, a collaborator of the builder). -/
inductive SpecialHandling where
  | normal
  | hide
  | noEnter
  | enterDontExpand
deriving DecidableEq, Repr

/-- The filesystem, as the builder observes it: a finite tree of named
entries. The `children` list order models the enumeration order of
`fs::read_dir`. -/
inductive FSNode where
  | node (name : String) (ftype : FType) (children : List FSNode)

def FSNode.name : FSNode → String
  | FSNode.node n _ _ => n

def FSNode.ftype : FSNode → FType
  | FSNode.node _ t _ => t

def FSNode.children : FSNode → List FSNode
  | FSNode.node _ _ cs => cs

/-- Look a node up by its path from the root. -/
def FSNode.find : FSNode → List String → Option FSNode
  | n, [] => some n
  | n, name :: rest =>
      match n.children.find? (fun c => c.name == name) with
      | some c => FSNode.find c rest
      | none => none

/-- The external collaborators of the builder, abstracted as oracles keyed by
path: the scoring pattern (`Pattern::score_of`, `is_some`, `has_real_scores`),
the line-status computer (`is_interesting`, and whether one was constructed),
the git ignorer (`accepts`), the special-path table (`find`), and the
fallibility of `fs::read_dir` and `DirEntry::file_type`. -/
structure BuildEnv where
  score_of : List String → Bool → Option Int
  pattern_some : Bool
  has_real_scores : Bool
  is_interesting : List String → Bool
  has_status_computer : Bool
  git_accepts : List String → Bool → Bool
  special_find : List String → SpecialHandling
  read_dir_ok : List String → Bool
  file_type_ok : List String → Bool

/-- The `TreeOptions` flags that shape the scan. -/
structure TreeOptionsM where
  show_hidden : Bool
  respect_git_ignore : Bool
  filter_by_git_status : Bool
  only_folders : Bool
  sort_some : Bool
  trim_root : Bool
deriving DecidableEq, Repr

/-- The builder's `trim_root` field, computed in `TreeBuilder::from`. -/
def trimRoot (env : BuildEnv) (opts : TreeOptionsM) : Bool :=
  env.pattern_some || (opts.trim_root && !opts.sort_some)

/-- `BLine`: the transient build node held in the arena. -/
structure BLine where
  parent_id : Option Nat
  path : List String
  depth : Nat
  name : String
  ftype : FType
  children : Option (List Nat)
  next_child_idx : Nat
  has_error : Bool
  has_match : Bool
  direct_match : Bool
  score : Int
  nb_kept_children : Nat
  special_handling : SpecialHandling
deriving DecidableEq, Repr

instance : Inhabited BLine :=
  ⟨{ parent_id := none, path := [], depth := 0, name := "", ftype := FType.file,
     children := none, next_child_idx := 0, has_error := false, has_match := false,
     direct_match := false, score := 0, nb_kept_children := 0,
     special_handling := SpecialHandling.normal }⟩

/-- Arena read (ids are indices into the arena list). -/
def aget (arena : List BLine) (i : Nat) : BLine := arena.getD i default

/-- Arena update in place. -/
def upd (arena : List BLine) (i : Nat) (f : BLine → BLine) : List BLine :=
  arena.set i (f (aget arena i))

/-- Modelled from the spec: `BLine::from_root` (bline.rs is not among the
sources). The root build line: depth 0, no parent, matching. -/
def rootBLine (fs : FSNode) : BLine :=
  { parent_id := none, path := [], depth := 0, name := fs.name, ftype := FType.dir,
    children := none, next_child_idx := 0, has_error := false, has_match := true,
    direct_match := false, score := 0, nb_kept_children := 0,
    special_handling := SpecialHandling.normal }

/-- `TreeBuilder::make_line`: returns a candidate BLine iff the entry directly
passes the options; mirrors the check order of the source. -/
def make_line (env : BuildEnv) (opts : TreeOptionsM) (arena : List BLine)
    (parent_id : Nat) (e : FSNode) (depth : Nat) : Option BLine :=
  let name := e.name
  if name = "" then none
  else if !opts.show_hidden && name.data.head? = some (Char.ofNat 46) then none
  else
    let path := (aget arena parent_id).path ++ [name]
    if !env.file_type_ok path then none
    else
      let score0 : Int := 10000 - (depth : Int)
      let md :=
        match env.score_of path (e.ftype = FType.file) with
        | some pattern_score => (true, true, score0 + pattern_score + 10)
        | none => (false, false, score0)
      let has_match :=
        if md.1 && opts.filter_by_git_status && env.has_status_computer
            && !env.is_interesting path then false
        else md.1
      if (e.ftype = FType.file || e.ftype = FType.symlink) && !has_match then none
      else if (e.ftype = FType.file || e.ftype = FType.symlink) && opts.only_folders then
        none
      else
        let special := env.special_find path
        if special = SpecialHandling.hide then none
        else if opts.respect_git_ignore && !env.git_accepts path (e.ftype = FType.dir) then
          none
        else
          some { parent_id := some parent_id, path := path, depth := depth,
                 name := name, ftype := e.ftype, children := none,
                 next_child_idx := 0, has_error := false, has_match := has_match,
                 direct_match := md.2.1, score := md.2.2, nb_kept_children := 0,
                 special_handling := special }

/-- The allocation loop inside `load_children`: for each produced BLine, mark
the parent on a match, then allocate into the arena and record the id. Returns
the new arena, the child ids in production order, and `has_child_match`. -/
def alloc_children (bid : Nat) (arena : List BLine) :
    List BLine → List BLine × List Nat × Bool
  | [] => (arena, [], false)
  | bl :: rest =>
      let arena1 :=
        if bl.has_match then upd arena bid (fun p => { p with has_match := true })
        else arena
      let id := arena1.length
      let arena2 := arena1 ++ [bl]
      let r := alloc_children bid arena2 rest
      (r.1, id :: r.2.1, bl.has_match || r.2.2)

/-- A stable insertion used to model `Vec::sort_by` (a stable sort). -/
def insertLe (le : Nat → Nat → Bool) (x : Nat) : List Nat → List Nat
  | [] => [x]
  | y :: ys => if le x y then x :: y :: ys else y :: insertLe le x ys

/-- A stable sort modelling `Vec::sort_by`. -/
def stableSort (le : Nat → Nat → Bool) (l : List Nat) : List Nat :=
  l.foldr (insertLe le) []

/-- Lowercasing of one character (`str::to_lowercase`, modelled on ASCII). -/
def lowerChar (c : Char) : Char :=
  if c.isUpper then Char.ofNat (c.toNat + 32) else c

/-- The lowercased key of a name, as a character list. -/
def lowerKey (s : String) : List Char := s.data.map lowerChar

/-- Lexicographic comparison of character lists (`Ord`-style `cmp ≠ Greater`). -/
def charListLe : List Char → List Char → Bool
  | [], _ => true
  | _ :: _, [] => false
  | a :: as, b :: bs =>
      if a.toNat < b.toNat then true
      else if b.toNat < a.toNat then false
      else charListLe as bs

/-- The comparator of `load_children`: case-insensitive name order. -/
def nameLe (arena : List BLine) (a b : Nat) : Bool :=
  charListLe (lowerKey (aget arena a).name) (lowerKey (aget arena b).name)

/-- `TreeBuilder::load_children`: read the directory, build candidate lines
(against the pre-allocation arena, as the parallel map does), allocate them,
sort the ids by case-insensitive name, and store them on the parent; on a
read error set `has_error` and an empty child list. Returns the new arena and
`has_child_match`. -/
def load_children (env : BuildEnv) (opts : TreeOptionsM) (fs : FSNode)
    (arena : List BLine) (bid : Nat) : List BLine × Bool :=
  let b := aget arena bid
  match (if env.read_dir_ok b.path then fs.find b.path else none) with
  | some node =>
      let child_depth := b.depth + 1
      let lines := node.children.filterMap
        (fun e => make_line env opts arena bid e child_depth)
      let r := alloc_children bid arena lines
      let sorted := stableSort (nameLe r.1) r.2.1
      (upd r.1 bid (fun p => { p with children := some sorted }), r.2.2)
  | none =>
      (upd arena bid (fun p => { p with has_error := true, children := some [] }), false)

/-- `TreeBuilder::next_child`: take one child from the cursor. -/
def next_child (arena : List BLine) (bid : Nat) : List BLine × Option Nat :=
  let b := aget arena bid
  match b.children with
  | some cs =>
      if b.next_child_idx < cs.length then
        (upd arena bid (fun p => { p with next_child_idx := p.next_child_idx + 1 }),
          some (cs.getD b.next_child_idx 0))
      else (arena, none)
  | none => (arena, none)

/-- Modelled from the spec: `BLine::can_enter` (bline.rs is not among the
sources): a directory not marked Hide/NoEnter by special handling. -/
def can_enter (b : BLine) : Bool :=
  b.ftype = FType.dir && b.special_handling ≠ SpecialHandling.noEnter
    && b.special_handling ≠ SpecialHandling.hide

/-- The ancestor-marking loop of `gather_lines` (run when loading a deeper
directory found matching children): walk parents upward, setting `has_match`
and counting each toggle into `nb_lines_ok`. The fuel is the depth of the
start node plus one, which reaches the root. -/
def promote : Nat → List BLine → Nat → Nat → List BLine × Nat
  | 0, arena, nb, _ => (arena, nb)
  | fuel + 1, arena, nb, id =>
      let b := aget arena id
      let step :=
        if !b.has_match then
          (upd arena id (fun x => { x with has_match := true }), nb + 1)
        else (arena, nb)
      match b.parent_id with
      | some pid => promote fuel step.1 step.2 pid
      | none => step

/-- The mutable state of the `gather_lines` loop. `iter` counts loop
iterations and `polls` counts dam polls, to index the time and dam oracles. -/
structure GatherState where
  arena : List BLine
  out : List Nat
  nb_lines_ok : Nat
  open_dirs : List Nat
  next_level_dirs : List Nat
  flag : Bool
  iter : Nat
  polls : Nat
deriving Repr

/-- The time and cancellation oracles of a gather run: `not_long i` is the
value of `start.elapsed() > NOT_LONG` at loop iteration `i`; `limit_hit i` is
whether `BrootSearchLimit` is set and exceeded at iteration `i`; `dam i` is
`dam.has_event()` at the i-th poll. -/
structure TimeOracle where
  not_long : Nat → Bool
  limit_hit : Nat → Bool
  dam : Nat → Bool

/-- The inner batch of the deepening step: for each directory of
`next_level_dirs`, poll the dam (returning `none`, i.e. cancellation, if it
fired), load its children, and on a child match promote the ancestors; the
directory then joins `open_dirs`. -/
def deepen (env : BuildEnv) (opts : TreeOptionsM) (fs : FSNode) (tko : TimeOracle) :
    List Nat → GatherState → Option GatherState
  | [], s => some s
  | d :: rest, s =>
      if tko.dam s.polls then none
      else
        let s1 := { s with polls := s.polls + 1 }
        let lc := load_children env opts fs s1.arena d
        let pr :=
          if lc.2 then promote ((aget lc.1 d).depth + 1) lc.1 s1.nb_lines_ok d
          else (lc.1, s1.nb_lines_ok)
        deepen env opts fs tko rest
          { s1 with arena := pr.1, nb_lines_ok := pr.2,
                    open_dirs := s1.open_dirs ++ [d] }

/-- One run of the main loop of `gather_lines`, fuel-indexed. The result is
`none` when the fuel runs out, `some none` on dam cancellation, and
`some (some s)` when the loop breaks. -/
def gatherLoop (env : BuildEnv) (opts : TreeOptionsM) (fs : FSNode)
    (targeted optimal : Nat) (total_search : Bool) (tko : TimeOracle) :
    Nat → GatherState → Option (Option GatherState)
  | 0, _ => none
  | fuel + 1, s =>
      if !total_search && (decide (s.nb_lines_ok > optimal)
          || (decide (s.nb_lines_ok ≥ targeted) && tko.not_long s.iter)) then
        some (some { s with flag := false })
      else
        match s.open_dirs with
        | od :: odrest =>
            let nc := next_child s.arena od
            match nc.2 with
            | some child_id =>
                let s1 := { s with arena := nc.1, open_dirs := odrest ++ [od] }
                let c := aget s1.arena child_id
                let nb := if c.has_match then s1.nb_lines_ok + 1 else s1.nb_lines_ok
                let nld :=
                  if can_enter c then s1.next_level_dirs ++ [child_id]
                  else s1.next_level_dirs
                gatherLoop env opts fs targeted optimal total_search tko fuel
                  { s1 with nb_lines_ok := nb, next_level_dirs := nld,
                            out := s1.out ++ [child_id], iter := s1.iter + 1 }
            | none =>
                gatherLoop env opts fs targeted optimal total_search tko fuel
                  { s with arena := nc.1, open_dirs := odrest, iter := s.iter + 1 }
        | [] =>
            if opts.sort_some then some (some s)
            else if s.next_level_dirs.isEmpty then some (some s)
            else if tko.limit_hit s.iter then some (some s)
            else
              match deepen env opts fs tko s.next_level_dirs
                  { s with next_level_dirs := [] } with
              | none => some none
              | some s2 =>
                  gatherLoop env opts fs targeted optimal total_search tko fuel
                    { s2 with iter := s2.iter + 1 }

/-- The final `while let` of `gather_lines`: when `trim_root` is off, drain the
remaining children of the root into `out` unconditionally. -/
def drain_loop : Nat → GatherState → GatherState
  | 0, s => s
  | fuel + 1, s =>
      let nc := next_child s.arena 0
      match nc.2 with
      | some cid => drain_loop fuel { s with arena := nc.1, out := s.out ++ [cid] }
      | none => { s with arena := nc.1 }

def drainRoot (s : GatherState) : GatherState :=
  drain_loop (((aget s.arena 0).children.getD []).length) s

/-- `optimal_size`: oversample tenfold when the pattern yields real scores. -/
def optimalSize (env : BuildEnv) (targeted : Nat) : Nat :=
  if env.has_real_scores then 10 * targeted else targeted

/-- `TreeBuilder::gather_lines`: seed the root, load its children, then run the
main loop; after a normal break, drain the root when `trim_root` is off. -/
def gather_lines (env : BuildEnv) (opts : TreeOptionsM) (fs : FSNode)
    (targeted : Nat) (total_search : Bool) (tko : TimeOracle) (fuel : Nat) :
    Option (Option GatherState) :=
  let arena0 : List BLine := [rootBLine fs]
  let lc := load_children env opts fs arena0 0
  let s0 : GatherState :=
    { arena := lc.1, out := [0], nb_lines_ok := 1, open_dirs := [0],
      next_level_dirs := [], flag := true, iter := 0, polls := 0 }
  match gatherLoop env opts fs targeted (optimalSize env targeted) total_search tko
      fuel s0 with
  | none => none
  | some none => some none
  | some (some s) =>
      some (some (if !trimRoot env opts then drainRoot s else s))

/-! ## Trim phase (TreeBuilder::trim_excess) -/

/-- The first pass of `trim_excess`: count the matching lines and increment
each matching non-root line's parent's `nb_kept_children`. -/
def trim_pass1 (arena : List BLine) : List Nat → Nat → List BLine × Nat
  | [], count => (arena, count)
  | id :: rest, count =>
      if (aget arena id).has_match then
        let parent_id := (aget arena id).parent_id.getD 0
        trim_pass1 (upd arena parent_id
          (fun p => { p with nb_kept_children := p.nb_kept_children + 1 })) rest
          (count + 1)
      else trim_pass1 arena rest count

/-- The seeding pass of `trim_excess`: every matching line with no kept child,
at depth > 1 (or any depth when `trim_root`), enters the removal queue. -/
def trim_seed (arena : List BLine) (trim_root : Bool) (out_tail : List Nat) :
    List (Nat × Int) :=
  out_tail.filterMap (fun id =>
    let b := aget arena id
    if b.has_match && b.nb_kept_children = 0 && (decide (b.depth > 1) || trim_root)
    then some (id, b.score) else none)

/-- Modelled from the spec: the removal priority queue (`BinaryHeap` of
`SortableBId`; bid.rs is not among the sources) pops the worst, i.e. lowest,
score; ties are resolved in favour of the earliest pushed element. -/
def popWorst : List (Nat × Int) → Option ((Nat × Int) × List (Nat × Int))
  | [] => none
  | x :: xs =>
      match popWorst xs with
      | none => some (x, [])
      | some (m, rest) => if x.2 ≤ m.2 then some (x, xs) else some (m, x :: rest)

/-- The body of one removal of `trim_excess`: clear the popped line's match,
decrement the parent's `nb_kept_children` and `next_child_idx`, and push the
parent onto the queue when its kept-children count reaches zero. -/
def trim_step (arena : List BLine) (sli : Nat × Int) (q1 : List (Nat × Int)) :
    List BLine × List (Nat × Int) :=
  let arena1 := upd arena sli.1 (fun b => { b with has_match := false })
  let parent_id := (aget arena1 sli.1).parent_id.getD 0
  let arena2 := upd arena1 parent_id
    (fun p => { p with nb_kept_children := p.nb_kept_children - 1,
                       next_child_idx := p.next_child_idx - 1 })
  let q2 :=
    if (aget arena2 parent_id).nb_kept_children = 0 then
      q1 ++ [(parent_id, (aget arena2 parent_id).score)]
    else q1
  (arena2, q2)

/-- The removal loop of `trim_excess`: while the count exceeds the target, pop
the worst line and run one removal step. -/
def trim_loop (targeted : Nat) : Nat → List BLine → Nat → List (Nat × Int) →
    List BLine
  | 0, arena, _, _ => arena
  | fuel + 1, arena, count, queue =>
      if count > targeted then
        match popWorst queue with
        | some (sli, q1) =>
            trim_loop targeted fuel (trim_step arena sli q1).1 (count - 1)
              (trim_step arena sli q1).2
        | none => arena
      else arena

/-- `TreeBuilder::trim_excess`. -/
def trim_excess (targeted : Nat) (trim_root : Bool) (arena : List BLine)
    (out : List Nat) : List BLine :=
  let p1 := trim_pass1 arena (out.drop 1) 1
  let queue := trim_seed p1.1 trim_root (out.drop 1)
  trim_loop targeted (p1.2 + 1) p1.1 p1.2 queue

/-! ## Finalization (TreeBuilder::take) -/

/-- Modelled from the spec: `BLine::to_tree_line` (bline.rs is not among the
sources): carry the display fields over. -/
def to_tree_line (b : BLine) : LineM :=
  { path := b.path, name := b.name, depth := b.depth, score := b.score,
    direct_match := b.direct_match }

/-- `TreeBuilder::take`: keep the matching gathered lines, in order. The
reload of not-yet-loaded kept directories only feeds the unlisted-children
display count and is not modelled; per the spec, finalization
(`Tree::after_lines_changed`, tree.rs is not among the sources) preserves the
relative order of the kept lines, so the line sequence is the filtered `out`
sequence. -/
def take_tree (env : BuildEnv) (pattern : Option String) (arena : List BLine)
    (out : List Nat) (flag : Bool) : TreeM :=
  let lines := out.filterMap (fun id =>
    let b := aget arena id
    if b.has_match then some (to_tree_line b) else none)
  { lines := lines, selection := 0, scroll := 0, total_search := flag,
    pattern := pattern,
    git_status := if env.has_status_computer then GStatus.notComputed
                  else GStatus.notAsked }

/-- `TreeBuilder::build`: gather, then trim, then take. `none` models fuel
exhaustion (impossible with enough fuel), `some none` a cancelled build. -/
def build (env : BuildEnv) (opts : TreeOptionsM) (fs : FSNode) (targeted : Nat)
    (pattern : Option String) (total_search : Bool) (tko : TimeOracle)
    (fuel : Nat) : Option (Option TreeM) :=
  match gather_lines env opts fs targeted total_search tko fuel with
  | none => none
  | some none => some none
  | some (some s) =>
      let arena1 := trim_excess targeted (trimRoot env opts) s.arena s.out
      some (some (take_tree env pattern arena1 s.out s.flag))

/-- The number of matching lines among the gathered ids. -/
def countMatching (arena : List BLine) (out : List Nat) : Nat :=
  (out.filter (fun id => (aget arena id).has_match)).length

/-- Well-formedness of the modelled filesystem: sibling names are distinct at
every node (as they are on a real filesystem). -/
inductive FSWF : FSNode → Prop
  | mk (name : String) (t : FType) (children : List FSNode) :
      (children.map FSNode.name).Nodup →
      (∀ c ∈ children, FSWF c) →
      FSWF (FSNode.node name t children)

/-- The chain of ancestors read through `parent_id`, fuel-bounded (the fuel
`depth + 1` reaches the root). This is the set of lines the promote loop of
`gather_lines` walks. -/
def pchain : Nat → List BLine → Nat → List Nat
  | 0, _, _ => []
  | fuel + 1, arena, id =>
      id :: (match (aget arena id).parent_id with
             | some p => pchain fuel arena p
             | none => [])

/-- Two build lines that agree on everything except `has_match` (the effect of
the promote loop on a touched line before the flip). -/
def eqExceptMatch (a b : BLine) : Prop :=
  a.parent_id = b.parent_id ∧ a.path = b.path ∧ a.depth = b.depth ∧
  a.name = b.name ∧ a.ftype = b.ftype ∧ a.children = b.children ∧
  a.next_child_idx = b.next_child_idx ∧ a.has_error = b.has_error ∧
  a.direct_match = b.direct_match ∧ a.score = b.score ∧
  a.nb_kept_children = b.nb_kept_children ∧ a.special_handling = b.special_handling

/-- Two build lines that agree on the fields the trim phase never writes. -/
def eqStatic (a b : BLine) : Prop :=
  a.parent_id = b.parent_id ∧ a.path = b.path ∧ a.depth = b.depth ∧
  a.name = b.name ∧ a.ftype = b.ftype ∧ a.children = b.children ∧
  a.has_error = b.has_error ∧ a.direct_match = b.direct_match ∧
  a.score = b.score ∧ a.special_handling = b.special_handling

/-- The arena/out part of the gather invariant: validity of the gathered ids,
positional parent closure, structural well-formedness of the arena, match
closure, the emitted-prefix property and path injectivity. -/
structure AInv (fs : FSNode) (arena : List BLine) (out : List Nat) : Prop where
  outv : ∀ id ∈ out, id < arena.length
  zeroout : 0 ∈ out
  pclosed : ∀ (j id : Nat), out[j]? = some id → ∀ p,
    (aget arena id).parent_id = some p → ∃ i, i < j ∧ out[i]? = some p
  rootlt : 0 < arena.length
  rootwf : (aget arena 0).parent_id = none ∧ (aget arena 0).path = [] ∧
    (aget arena 0).depth = 0
  parent_wf : ∀ i, i < arena.length → ∀ p, (aget arena i).parent_id = some p →
    p < arena.length ∧ (aget arena i).depth = (aget arena p).depth + 1 ∧
    (aget arena i).path = (aget arena p).path ++ [(aget arena i).name]
  parent_none : ∀ i, i < arena.length → (aget arena i).parent_id = none → i = 0
  cwf : ∀ i, i < arena.length → ∀ cs, (aget arena i).children = some cs →
    cs.Nodup ∧ ∀ c ∈ cs, c < arena.length ∧ (aget arena c).parent_id = some i
  conv : ∀ x, x < arena.length → ∀ p, (aget arena x).parent_id = some p →
    ∃ cs, (aget arena p).children = some cs ∧ x ∈ cs
  mc : ∀ i, i < arena.length → (aget arena i).has_match = true →
    ∀ p, (aget arena i).parent_id = some p → (aget arena p).has_match = true
  nb0 : ∀ i, i < arena.length → (aget arena i).nb_kept_children = 0
  inone : ∀ i, i < arena.length → (aget arena i).children = none →
    (aget arena i).next_child_idx = 0
  fp : ∀ i, i < arena.length → ∀ cs, (aget arena i).children = some cs →
    (aget arena i).next_child_idx ≤ cs.length ∧
    out.filter (fun x => (aget arena x).parent_id == some i)
      = cs.take (aget arena i).next_child_idx
  sorted : ∀ i, i < arena.length → ∀ cs, (aget arena i).children = some cs →
    List.Pairwise (fun a b => nameLe arena a b = true) cs
  nodup : out.Nodup
  unloaded : ∀ c, c < arena.length → c ∉ out → (aget arena c).children = none
  pathinj : FSWF fs → ∀ i j, i < arena.length → j < arena.length →
    (aget arena i).path = (aget arena j).path → i = j
  rootm : (aget arena 0).has_match = true

/-- The invariant of the gather loop: the arena/out invariant plus the facts
about the work queues and the running match count. -/
structure GInv (fs : FSNode) (s : GatherState) : Prop where
  ainv : AInv fs s.arena s.out
  opensub : ∀ id ∈ s.open_dirs, id ∈ s.out
  nextsub : ∀ id ∈ s.next_level_dirs, id ∈ s.out
  nlnodup : s.next_level_dirs.Nodup
  nlnone : ∀ id ∈ s.next_level_dirs, (aget s.arena id).children = none
  openloaded : ∀ id ∈ s.open_dirs, (aget s.arena id).children ≠ none
  nble : s.nb_lines_ok ≤ countMatching s.arena s.out

/-! ## Content pattern (content_pattern.rs) -/

/-- The outcome of `Needle::search` (the content_search module is not among the
sources): found, not found, not suitable for search, or an I/O error. -/
inductive ContentSearchResultM where
  | found
  | notFound
  | notSuitable
  | err
deriving DecidableEq, Repr

/-- The scoring `Candidate`, restricted to the fields `score_of` reads. -/
structure CandidateM where
  path : List String
  regular_file : Bool
deriving DecidableEq, Repr

/-- `ContentExactPattern::score_of`; the needle search is abstracted as the
oracle `search` giving the outcome of `self.needle.search(candidate.path)`. -/
def contentScoreOf (search : List String → ContentSearchResultM) (c : CandidateM) :
    Option Int :=
  if !c.regular_file then none
  else
    match search c.path with
    | ContentSearchResultM.found => some 1
    | ContentSearchResultM.notFound => none
    | ContentSearchResultM.notSuitable => none
    | ContentSearchResultM.err => none

/-! ## Concrete fixtures used by witnesses and counterexamples -/

/-- A build environment with an empty pattern (every candidate scores `Some 0`,
per the spec: `has_match = pattern.is_empty() ∨ pattern matched`), no git
filtering, and no failing I/O. -/
def buildEnvA : BuildEnv :=
  { score_of := fun _ _ => some 0, pattern_some := false, has_real_scores := false,
    is_interesting := fun _ => true, has_status_computer := false,
    git_accepts := fun _ _ => true, special_find := fun _ => SpecialHandling.normal,
    read_dir_ok := fun _ => true, file_type_ok := fun _ => true }

/-- Default options: nothing hidden, no filters, no sort, `trim_root` off. -/
def buildOptsA : TreeOptionsM :=
  { show_hidden := false, respect_git_ignore := false, filter_by_git_status := false,
    only_folders := false, sort_some := false, trim_root := false }

/-- The fixture `r/{a/{b.txt}}`. -/
def fsA : FSNode :=
  FSNode.node "r" FType.dir
    [FSNode.node "a" FType.dir [FSNode.node "b.txt" FType.file []]]

/-- A time oracle where `BrootSearchLimit` is set and exceeded from the start,
while the 900 ms deadline never fires and the dam stays silent. -/
def tkoLimit : TimeOracle :=
  { not_long := fun _ => false, limit_hit := fun _ => true, dam := fun _ => false }

/-- A time oracle where no deadline ever fires and the dam stays silent. -/
def tkoFree : TimeOracle :=
  { not_long := fun _ => false, limit_hit := fun _ => false, dam := fun _ => false }

/-- A build environment with an empty pattern but `filter_by_git_status` git
filtering in effect (a line-status computer exists): only the depth-3 files of
`fsB` are "interesting", so the intermediate directories are retained without
a match until a deep match promotes them. -/
def buildEnvB : BuildEnv :=
  { score_of := fun _ _ => some 0, pattern_some := false, has_real_scores := false,
    is_interesting := fun p => p.length == 3, has_status_computer := true,
    git_accepts := fun _ _ => true, special_find := fun _ => SpecialHandling.normal,
    read_dir_ok := fun _ => true, file_type_ok := fun _ => true }

/-- Options with `filter_by_git_status` on and `trim_root` off. -/
def buildOptsB : TreeOptionsM :=
  { show_hidden := false, respect_git_ignore := false, filter_by_git_status := true,
    only_folders := false, sort_some := false, trim_root := false }

/-- The fixture `r/{A/{P/{fp}}, B/{S/{fs1}}}`: two depth-1 directories whose
only matches sit at depth 3. -/
def fsB : FSNode :=
  FSNode.node "r" FType.dir
    [FSNode.node "A" FType.dir
       [FSNode.node "P" FType.dir [FSNode.node "fp" FType.file []]],
     FSNode.node "B" FType.dir
       [FSNode.node "S" FType.dir [FSNode.node "fs1" FType.file []]]]

/-- A small concrete tree (a bare root line). -/
def treeA : TreeM :=
  { lines := [⟨[], "r", 0, 10000, false⟩], selection := 0, scroll := 0,
    total_search := true, pattern := none, git_status := GStatus.notAsked }

/-- A small concrete filtered tree (bounded search, with a pattern). -/
def treeB : TreeM :=
  { lines := [⟨[], "r", 0, 10000, false⟩, ⟨["sub"], "sub", 1, 9999, false⟩,
              ⟨["sub", "c.txt"], "c.txt", 2, 10008, true⟩],
    selection := 2, scroll := 0, total_search := false, pattern := some "c",
    git_status := GStatus.notAsked }

/-- A base tree containing the path selected in `treeB`. -/
def treeC : TreeM :=
  { lines := [⟨[], "r", 0, 10000, false⟩, ⟨["a.txt"], "a.txt", 1, 9999, false⟩,
              ⟨["sub"], "sub", 1, 9999, false⟩, ⟨["sub", "c.txt"], "c.txt", 2, 9998, false⟩],
    selection := 0, scroll := 0, total_search := true, pattern := none,
    git_status := GStatus.notAsked }

/-- A two-line arena: a root with one kept child, and that child (a matching
leaf at depth 1). -/
def trimArenaW : List BLine :=
  [{ rootBLine fsA with nb_kept_children := 1 },
   { parent_id := some 0, path := ["x"], depth := 1, name := "x",
     ftype := FType.file, children := none, next_child_idx := 0,
     has_error := false, has_match := true, direct_match := true, score := 10009,
     nb_kept_children := 0, special_handling := SpecialHandling.normal }]

/-- A browser state with an overlay. -/
def stateA : BrowserStateM :=
  { tree := treeC, filtered_tree := some treeB, pending_pattern := none,
    total_search_required := false, mode := ModeM.input }

/-- A browser state without overlay, selection away from the root. -/
def stateB : BrowserStateM :=
  { tree := { treeC with selection := 2 }, filtered_tree := none,
    pending_pattern := none, total_search_required := false, mode := ModeM.input }

/-- A browser state without overlay, selection on the root. -/
def stateC : BrowserStateM :=
  { tree := treeC, filtered_tree := none, pending_pattern := none,
    total_search_required := false, mode := ModeM.input }

/-- A browser state with a pending pattern and `total_search_required` set:
the pre-state of a cancelled build. -/
def stateD : BrowserStateM :=
  { tree := treeC, filtered_tree := none, pending_pattern := some "ab",
    total_search_required := true, mode := ModeM.input }

/-- The index, in `l.filterMap F`, of the image of the element at position `n`
of `l` (the number of kept elements among the first `n`). -/
def posIdx {α β : Type} (F : α → Option β) (l : List α) (n : Nat) : Nat :=
  ((l.take n).filterMap F).length

/-- The invariant of the removal loop of `trim_excess`, stated against the
arena `arena0` that came out of the gather phase: the trim phase never touches
the static fields, only removes matches, keeps the match set closed under
parents among the gathered lines, keeps `count` equal to the number of
matching gathered lines, keeps `nb_kept_children` equal to the number of
matching non-root gathered children, keeps the queue filled with matching
childless lines, and leaves every removed line with no kept children. -/
structure TInv (arena0 : List BLine) (out : List Nat) (arena : List BLine)
    (count : Nat) (queue : List (Nat × Int)) : Prop where
  len : arena.length = arena0.length
  static : ∀ i, eqStatic (aget arena i) (aget arena0 i)
  mono : ∀ i, (aget arena i).has_match = true → (aget arena0 i).has_match = true
  mcO : ∀ i ∈ out, (aget arena i).has_match = true →
    ∀ p, (aget arena i).parent_id = some p → (aget arena p).has_match = true
  count_eq : count = countMatching arena out
  acc : ∀ p, p < arena.length → (aget arena p).nb_kept_children =
    (out.drop 1).countP
      (fun id => (aget arena id).has_match && ((aget arena id).parent_id == some p))
  qmem : ∀ ql ∈ queue, ql.1 ∈ out ∧ (aget arena ql.1).has_match = true ∧
    (aget arena ql.1).nb_kept_children = 0
  qnodup : (queue.map Prod.fst).Nodup
  rm0 : ∀ i, i < arena.length → (aget arena0 i).has_match = true →
    (aget arena i).has_match = false → (aget arena i).nb_kept_children = 0

/-- A time oracle on which the 900 ms deadline has always passed. -/
def tko900 : TimeOracle :=
  { not_long := fun _ => true, limit_hit := fun _ => false, dam := fun _ => false }

/-- The gather state of a bounded search on `fsA` stopped by the deadline. -/
def gsC5 : GatherState :=
  match gather_lines buildEnvA buildOptsA fsA 1 false tko900 30 with
  | some (some s) => s
  | _ => { arena := [], out := [], nb_lines_ok := 0, open_dirs := [],
           next_level_dirs := [], flag := true, iter := 0, polls := 0 }

/-- The tree of an unlimited build on `fsA`. -/
def treeC4 : TreeM :=
  match build buildEnvA buildOptsA fsA 10 none false tkoFree 30 with
  | some (some t) => t
  | _ => { lines := [], selection := 0, scroll := 0, total_search := true,
           pattern := none, git_status := GStatus.notAsked }

/-- The deepest line of `treeC4`. -/
def ljC4 : LineM := treeC4.lines.getD 2 default

/-- The tree of an unlimited build on `fsB` with the all-matching environment:
its depth-1 siblings A and B are both kept. -/
def treeC9 : TreeM :=
  match build buildEnvA buildOptsA fsB 10 none false tkoFree 40 with
  | some (some t) => t
  | _ => { lines := [], selection := 0, scroll := 0, total_search := true,
           pattern := none, git_status := GStatus.notAsked }

/-- The first depth-1 line of `treeC9`. -/
def liC9 : LineM := treeC9.lines.getD 1 default

/-- The second depth-1 line of `treeC9`. -/
def ljC9 : LineM := treeC9.lines.getD 2 default

end Broot

namespace Broot

/-! # Theorems -/

/-! ## Helper lemmas: the arena -/

theorem upd_length (arena : List BLine) (i : Nat) (f : BLine → BLine) :
    (upd arena i f).length = arena.length := by
  simp [upd]

theorem aget_oob (arena : List BLine) (i : Nat) (h : arena.length ≤ i) :
    aget arena i = default := by
  simp [aget, List.getD_eq_getElem?_getD, List.getElem?_eq_none h]

theorem aget_upd_self (arena : List BLine) (i : Nat) (f : BLine → BLine)
    (h : i < arena.length) : aget (upd arena i f) i = f (aget arena i) := by
  simp [aget, upd, List.getD_eq_getElem?_getD, List.getElem?_set_self h]

theorem aget_upd_ne (arena : List BLine) (i j : Nat) (f : BLine → BLine)
    (h : j ≠ i) : aget (upd arena i f) j = aget arena j := by
  simp [aget, upd, List.getD_eq_getElem?_getD, List.getElem?_set_ne (Ne.symm h)]

theorem upd_oob (arena : List BLine) (i : Nat) (f : BLine → BLine)
    (h : arena.length ≤ i) : upd arena i f = arena := by
  simp [upd, List.set_eq_of_length_le h]

theorem aget_append_lt (a b : List BLine) (i : Nat) (h : i < a.length) :
    aget (a ++ b) i = aget a i := by
  simp [aget, List.getD_eq_getElem?_getD, List.getElem?_append, h]

theorem aget_append_self (a : List BLine) (x : BLine) :
    aget (a ++ [x]) a.length = x := by
  simp [aget, List.getD_eq_getElem?_getD, List.getElem?_concat_length]

theorem aget_upd_field {α : Type} (arena : List BLine) (id i : Nat)
    (f : BLine → BLine) (g : BLine → α) (hf : ∀ x, g (f x) = g x) :
    g (aget (upd arena id f) i) = g (aget arena i) := by
  by_cases hne : i = id
  · rcases Nat.lt_or_ge id arena.length with hlt | hge
    · rw [hne, aget_upd_self _ _ _ hlt, hf]
    · rw [upd_oob _ _ _ hge]
  · rw [aget_upd_ne _ _ _ _ hne]

/-! ## Helper lemmas: counting -/

theorem countMatching_eq_countP (arena : List BLine) (out : List Nat) :
    countMatching arena out = out.countP (fun id => (aget arena id).has_match) :=
  (List.countP_eq_length_filter _ _).symm

theorem countMatching_congr (a b : List BLine) (out : List Nat)
    (h : ∀ id ∈ out, (aget b id).has_match = (aget a id).has_match) :
    countMatching b out = countMatching a out := by
  rw [countMatching_eq_countP, countMatching_eq_countP]
  induction out with
  | nil => rfl
  | cons x xs ih =>
      rw [List.countP_cons, List.countP_cons, h x (List.mem_cons_self x xs),
        ih (fun id hid => h id (List.mem_cons_of_mem _ hid))]

theorem countMatching_mono (a b : List BLine) (out : List Nat)
    (h : ∀ id ∈ out, (aget a id).has_match = true → (aget b id).has_match = true) :
    countMatching a out ≤ countMatching b out := by
  rw [countMatching_eq_countP, countMatching_eq_countP]
  exact List.countP_mono_left h

theorem countMatching_flip (a b : List BLine) (out : List Nat) (x : Nat)
    (hx : x ∈ out) (hfa : (aget a x).has_match = false)
    (hfb : (aget b x).has_match = true)
    (h : ∀ id ∈ out, (aget a id).has_match = true → (aget b id).has_match = true) :
    countMatching a out + 1 ≤ countMatching b out := by
  rw [countMatching_eq_countP, countMatching_eq_countP]
  obtain ⟨s, t, rfl⟩ := List.append_of_mem hx
  rw [List.countP_append, List.countP_append, List.countP_cons, List.countP_cons,
    hfa, hfb]
  have hs : s.countP (fun id => (aget a id).has_match)
      ≤ s.countP (fun id => (aget b id).has_match) :=
    List.countP_mono_left (fun id hid => h id (by simp [hid]))
  have ht : t.countP (fun id => (aget a id).has_match)
      ≤ t.countP (fun id => (aget b id).has_match) :=
    List.countP_mono_left (fun id hid => h id (by simp [hid]))
  simp only [Bool.false_eq_true, if_false, if_true]
  omega

theorem countMatching_append (arena : List BLine) (out : List Nat) (c : Nat) :
    countMatching arena (out ++ [c]) =
      countMatching arena out + (if (aget arena c).has_match then 1 else 0) := by
  rw [countMatching_eq_countP, countMatching_eq_countP, List.countP_append]
  by_cases h : (aget arena c).has_match = true
  · simp [List.countP_cons, h]
  · simp [List.countP_cons, Bool.eq_false_iff.mpr h, h]

/-! ## Helper lemmas: the comparator and the stable sort -/

theorem charListLe_total : ∀ a b : List Char,
    charListLe a b = false → charListLe b a = true := by
  intro a
  induction a with
  | nil => intro b h; simp [charListLe] at h
  | cons x xs ih =>
      intro b h
      cases b with
      | nil => rfl
      | cons y ys =>
          unfold charListLe at h ⊢
          by_cases h1 : x.toNat < y.toNat
          · simp [h1] at h
          · by_cases h2 : y.toNat < x.toNat
            · simp [h2]
            · simp [h1, h2] at h ⊢
              exact ih ys h

theorem charListLe_trans : ∀ a b c : List Char,
    charListLe a b = true → charListLe b c = true → charListLe a c = true := by
  intro a
  induction a with
  | nil => intro b c _ _; rfl
  | cons x xs ih =>
      intro b c hab hbc
      cases b with
      | nil => simp [charListLe] at hab
      | cons y ys =>
          cases c with
          | nil => simp [charListLe] at hbc
          | cons z zs =>
              unfold charListLe at hab hbc ⊢
              by_cases h1 : x.toNat < y.toNat
              · by_cases h2 : y.toNat < z.toNat
                · simp [show x.toNat < z.toNat by omega]
                · by_cases h3 : z.toNat < y.toNat
                  · simp [h2, h3] at hbc
                  · have : y.toNat = z.toNat := by omega
                    simp [show x.toNat < z.toNat by omega]
              · by_cases h4 : y.toNat < x.toNat
                · simp [h1, h4] at hab
                · have hxy : x.toNat = y.toNat := by omega
                  by_cases h2 : y.toNat < z.toNat
                  · simp [show x.toNat < z.toNat by omega]
                  · by_cases h3 : z.toNat < y.toNat
                    · simp [h2, h3] at hbc
                    · simp [h1, h4] at hab
                      simp [h2, h3] at hbc
                      simp [show ¬(x.toNat < z.toNat) by omega,
                        show ¬(z.toNat < x.toNat) by omega]
                      exact ih ys zs hab hbc

theorem nameLe_total (arena : List BLine) (a b : Nat)
    (h : nameLe arena a b = false) : nameLe arena b a = true :=
  charListLe_total _ _ h

theorem nameLe_trans (arena : List BLine) (a b c : Nat)
    (h1 : nameLe arena a b = true) (h2 : nameLe arena b c = true) :
    nameLe arena a c = true :=
  charListLe_trans _ _ _ h1 h2

theorem insertLe_perm (le : Nat → Nat → Bool) (x : Nat) (l : List Nat) :
    (insertLe le x l).Perm (x :: l) := by
  induction l with
  | nil => exact List.Perm.refl _
  | cons y ys ih =>
      unfold insertLe
      by_cases h : le x y = true
      · simp [h]
      · simp only [h, if_false]
        exact (List.Perm.cons y ih).trans (List.Perm.swap x y ys)

theorem stableSort_perm (le : Nat → Nat → Bool) (l : List Nat) :
    (stableSort le l).Perm l := by
  induction l with
  | nil => exact List.Perm.refl _
  | cons x xs ih =>
      have : stableSort le (x :: xs) = insertLe le x (stableSort le xs) := rfl
      rw [this]
      exact (insertLe_perm le x (stableSort le xs)).trans (List.Perm.cons x ih)

theorem mem_stableSort (le : Nat → Nat → Bool) (l : List Nat) (a : Nat) :
    a ∈ stableSort le l ↔ a ∈ l :=
  (stableSort_perm le l).mem_iff

theorem nodup_stableSort (le : Nat → Nat → Bool) (l : List Nat) (h : l.Nodup) :
    (stableSort le l).Nodup :=
  ((stableSort_perm le l).nodup_iff).mpr h

theorem pairwise_insertLe (le : Nat → Nat → Bool)
    (htot : ∀ a b, le a b = false → le b a = true)
    (htrans : ∀ a b c, le a b = true → le b c = true → le a c = true)
    (x : Nat) (l : List Nat) (h : l.Pairwise (fun a b => le a b = true)) :
    (insertLe le x l).Pairwise (fun a b => le a b = true) := by
  induction l with
  | nil => simp [insertLe]
  | cons y ys ih =>
      unfold insertLe
      by_cases hxy : le x y = true
      · simp only [hxy, if_true]
        refine List.Pairwise.cons ?_ h
        intro z hz
        rcases List.mem_cons.mp hz with rfl | hz2
        · exact hxy
        · exact htrans x y z hxy (List.rel_of_pairwise_cons h hz2)
      · simp only [hxy, if_false]
        refine List.Pairwise.cons ?_ (ih (List.Pairwise.sublist (List.sublist_cons_self y ys) h))
        intro z hz
        rcases List.mem_cons.mp ((insertLe_perm le x ys).mem_iff.mp hz) with hzx | hz2
        · rw [hzx]; exact htot x y (Bool.eq_false_iff.mpr hxy)
        · exact List.rel_of_pairwise_cons h hz2

theorem pairwise_stableSort (le : Nat → Nat → Bool)
    (htot : ∀ a b, le a b = false → le b a = true)
    (htrans : ∀ a b c, le a b = true → le b c = true → le a c = true)
    (l : List Nat) : (stableSort le l).Pairwise (fun a b => le a b = true) := by
  induction l with
  | nil => exact List.Pairwise.nil
  | cons x xs ih =>
      have : stableSort le (x :: xs) = insertLe le x (stableSort le xs) := rfl
      rw [this]
      exact pairwise_insertLe le htot htrans x (stableSort le xs) ih

/-! ## Helper lemmas: make_line and alloc_children -/

theorem make_line_shape (env : BuildEnv) (opts : TreeOptionsM) (arena : List BLine)
    (pid : Nat) (e : FSNode) (depth : Nat) (bl : BLine)
    (h : make_line env opts arena pid e depth = some bl) :
    bl.parent_id = some pid ∧ bl.children = none ∧ bl.next_child_idx = 0 ∧
    bl.nb_kept_children = 0 ∧ bl.depth = depth ∧ bl.name = e.name ∧
    bl.path = (aget arena pid).path ++ [e.name] := by
  simp only [make_line] at h
  repeat' split at h
  all_goals first
    | exact Option.noConfusion h
    | (injection h with h9; subst h9; exact ⟨rfl, rfl, rfl, rfl, rfl, rfl, rfl⟩)

theorem range'_succ_one (s n : Nat) :
    List.range' s (n + 1) = s :: List.range' (s + 1) n := by
  simp [List.range']

theorem alloc_children_spec (bid : Nat) :
    ∀ (bls : List BLine) (arena : List BLine), bid < arena.length →
    (alloc_children bid arena bls).1.length = arena.length + bls.length ∧
    (∀ j, j < arena.length → j ≠ bid →
      aget (alloc_children bid arena bls).1 j = aget arena j) ∧
    (aget (alloc_children bid arena bls).1 bid =
      (if bls.any (fun b => b.has_match) then
        { aget arena bid with has_match := true } else aget arena bid)) ∧
    (alloc_children bid arena bls).2.2 = bls.any (fun b => b.has_match) ∧
    (alloc_children bid arena bls).2.1 = List.range' arena.length bls.length ∧
    (∀ k, (hk : k < bls.length) →
      aget (alloc_children bid arena bls).1 (arena.length + k) = bls[k]) := by
  intro bls
  induction bls with
  | nil =>
      intro arena hbid
      refine ⟨by simp [alloc_children], ?_, ?_, rfl, by simp [alloc_children], ?_⟩
      · intro j _ _; rfl
      · simp [alloc_children]
      · intro k hk; simp at hk
  | cons bl rest ih =>
      intro arena hbid
      have harena1 :
          (if bl.has_match then
            upd arena bid (fun p => { p with has_match := true }) else arena).length
          = arena.length := by
        split
        · exact upd_length arena bid _
        · rfl
      set arena1 := (if bl.has_match then
        upd arena bid (fun p => { p with has_match := true }) else arena) with ha1
      have hbid1 : bid < arena1.length := by rw [harena1]; exact hbid
      have hlen2 : (arena1 ++ [bl]).length = arena.length + 1 := by
        simp [harena1]
      have hbid2 : bid < (arena1 ++ [bl]).length := by
        rw [hlen2]; omega
      have hstep : alloc_children bid arena (bl :: rest) =
          ((alloc_children bid (arena1 ++ [bl]) rest).1,
            arena1.length :: (alloc_children bid (arena1 ++ [bl]) rest).2.1,
            bl.has_match || (alloc_children bid (arena1 ++ [bl]) rest).2.2) := by
        rw [alloc_children, ← ha1]
      obtain ⟨ihA, ihB, ihC, ihD, ihE, ihF⟩ := ih (arena1 ++ [bl]) hbid2
      have hget1 : ∀ j, j < arena.length → j ≠ bid → aget arena1 j = aget arena j := by
        intro j hj hne
        rw [ha1]
        split
        · exact aget_upd_ne arena bid j _ hne
        · rfl
      have hget1bid : aget arena1 bid =
          (if bl.has_match then { aget arena bid with has_match := true }
           else aget arena bid) := by
        rw [ha1]
        split
        · exact aget_upd_self arena bid _ hbid
        · rfl
      have hgetapp : ∀ j, j < arena.length → aget (arena1 ++ [bl]) j = aget arena1 j := by
        intro j hj
        exact aget_append_lt arena1 [bl] j (by rw [harena1]; exact hj)
      refine ⟨?_, ?_, ?_, ?_, ?_, ?_⟩
      · rw [hstep]
        simp only at ihA ⊢
        rw [ihA, hlen2]
        simp [List.length_cons]
        omega
      · intro j hj hne
        rw [hstep]
        simp only
        rw [ihB j (by rw [hlen2]; omega) hne, hgetapp j hj, hget1 j hj hne]
      · rw [hstep]
        simp only
        rw [ihC, hgetapp bid hbid, hget1bid]
        by_cases hm : bl.has_match = true
        · by_cases hr : rest.any (fun b => b.has_match) = true
          · simp [hm, hr, List.any_cons]
          · simp [hm, hr, List.any_cons]
        · by_cases hr : rest.any (fun b => b.has_match) = true
          · simp [hm, hr, List.any_cons]
          · simp [hm, hr, List.any_cons]
      · rw [hstep]
        simp only
        rw [ihD, List.any_cons]
      · rw [hstep]
        simp only
        rw [ihE, hlen2, harena1, List.length_cons, range'_succ_one]
      · intro k hk
        rw [hstep]
        simp only
        cases k with
        | zero =>
            have hne : arena.length + 0 ≠ bid := by omega
            rw [ihB (arena.length + 0) (by rw [hlen2]; omega) hne]
            have : arena.length + 0 = arena1.length := by rw [harena1]; omega
            rw [this]
            rw [aget_append_self arena1 bl]
            rfl
        | succ k2 =>
            have hk2 : k2 < rest.length := by simp at hk; omega
            have : arena.length + (k2 + 1) = (arena1 ++ [bl]).length + k2 := by
              rw [hlen2]; omega
            rw [this, ihF k2 hk2]
            rfl

/-! ## Helper lemmas: load_children -/

theorem nameLe_congr (a b : List BLine) (x y : Nat)
    (hx : (aget b x).name = (aget a x).name) (hy : (aget b y).name = (aget a y).name) :
    nameLe b x y = nameLe a x y := by
  unfold nameLe
  rw [hx, hy]

theorem fswf_names (n : FSNode) (h : FSWF n) : (n.children.map FSNode.name).Nodup := by
  cases h with
  | mk name t children hnd hall => exact hnd

theorem fswf_children (n : FSNode) (h : FSWF n) : ∀ c ∈ n.children, FSWF c := by
  cases h with
  | mk name t children hnd hall => exact hall

theorem fswf_find : ∀ (p : List String) (fs : FSNode), FSWF fs →
    ∀ (m : FSNode), FSNode.find fs p = some m → FSWF m := by
  intro p
  induction p with
  | nil =>
      intro fs hwf m hm
      unfold FSNode.find at hm
      rw [← Option.some.inj hm]
      exact hwf
  | cons name rest ih =>
      intro fs hwf m hm
      unfold FSNode.find at hm
      cases hfc : fs.children.find? (fun c => c.name == name) with
      | none => rw [hfc] at hm; exact Option.noConfusion hm
      | some c =>
          rw [hfc] at hm
          have hcmem : c ∈ fs.children := List.mem_of_find?_eq_some hfc
          exact ih c (fswf_children fs hwf c hcmem) m hm

theorem map_filterMap_sublist {α β γ : Type} (g : α → Option β) (h : β → γ)
    (f : α → γ) (hgh : ∀ a b, g a = some b → h b = f a) :
    ∀ l : List α, ((l.filterMap g).map h).Sublist (l.map f) := by
  intro l
  induction l with
  | nil => simp
  | cons x xs ih =>
      rw [List.filterMap_cons, List.map_cons]
      cases hg : g x with
      | none => exact ih.cons (f x)
      | some b =>
          rw [List.map_cons, hgh x b hg]
          exact ih.cons₂ (f x)

theorem load_children_spec (env : BuildEnv) (opts : TreeOptionsM) (fs : FSNode)
    (arena : List BLine) (bid : Nat) (hbid : bid < arena.length)
    (r : List BLine × Bool) (hr : load_children env opts fs arena bid = r) :
    arena.length ≤ r.1.length ∧
    (∀ j, j < arena.length → j ≠ bid → aget r.1 j = aget arena j) ∧
    ((aget r.1 bid).parent_id = (aget arena bid).parent_id ∧
     (aget r.1 bid).path = (aget arena bid).path ∧
     (aget r.1 bid).depth = (aget arena bid).depth ∧
     (aget r.1 bid).name = (aget arena bid).name ∧
     (aget r.1 bid).next_child_idx = (aget arena bid).next_child_idx ∧
     (aget r.1 bid).nb_kept_children = (aget arena bid).nb_kept_children ∧
     (aget r.1 bid).score = (aget arena bid).score) ∧
    ((aget arena bid).has_match = true → (aget r.1 bid).has_match = true) ∧
    (r.2 = false → (aget r.1 bid).has_match = (aget arena bid).has_match) ∧
    (r.2 = true → (aget r.1 bid).has_match = true) ∧
    (∃ cs, (aget r.1 bid).children = some cs ∧ cs.Nodup ∧
      List.Pairwise (fun a b => nameLe r.1 a b = true) cs ∧
      (∀ c ∈ cs, arena.length ≤ c ∧ c < r.1.length) ∧
      (∀ j, arena.length ≤ j → j < r.1.length → j ∈ cs) ∧
      (∀ c ∈ cs,
        (aget r.1 c).parent_id = some bid ∧
        (aget r.1 c).children = none ∧
        (aget r.1 c).next_child_idx = 0 ∧
        (aget r.1 c).nb_kept_children = 0 ∧
        (aget r.1 c).depth = (aget arena bid).depth + 1 ∧
        (aget r.1 c).path = (aget arena bid).path ++ [(aget r.1 c).name] ∧
        ((aget r.1 c).has_match = true → (aget r.1 bid).has_match = true)) ∧
      (FSWF fs → ∀ c1 ∈ cs, ∀ c2 ∈ cs,
        (aget r.1 c1).name = (aget r.1 c2).name → c1 = c2)) := by
  unfold load_children at hr
  dsimp only at hr
  cases hrd : (if env.read_dir_ok (aget arena bid).path then
      fs.find (aget arena bid).path else none) with
  | none =>
      rw [hrd] at hr
      subst hr
      simp only
      have hself := aget_upd_self arena bid
        (fun p => { p with has_error := true, children := some [] }) hbid
      have hlen := upd_length arena bid
        (fun p => { p with has_error := true, children := some [] })
      refine ⟨by rw [hlen], ?_, ?_, ?_, ?_, ?_, ?_⟩
      · intro j hj hne
        exact aget_upd_ne arena bid j _ hne
      · rw [hself]
        exact ⟨rfl, rfl, rfl, rfl, rfl, rfl, rfl⟩
      · intro hm; rw [hself]; exact hm
      · intro _; rw [hself]
      · intro habs; exact Bool.noConfusion habs
      · refine ⟨[], by rw [hself], List.nodup_nil, List.Pairwise.nil, ?_, ?_, ?_, ?_⟩
        · intro c hc; exact absurd hc (List.not_mem_nil c)
        · intro j hj1 hj2; rw [hlen] at hj2; omega
        · intro c hc; exact absurd hc (List.not_mem_nil c)
        · intro _ c1 hc1; exact absurd hc1 (List.not_mem_nil c1)
  | some node =>
      rw [hrd] at hr
      simp only at hr
      subst hr
      simp only
      set lines := node.children.filterMap
        (fun e => make_line env opts arena bid e ((aget arena bid).depth + 1)) with hlines
      obtain ⟨hA1, hA2, hA3, hA4, hA5, hA6⟩ := alloc_children_spec bid lines arena hbid
      set A := alloc_children bid arena lines with hA
      have hbidA : bid < A.1.length := by rw [hA1]; omega
      set sorted := stableSort (nameLe A.1) A.2.1 with hsorted
      have hself := aget_upd_self A.1 bid (fun p => { p with children := some sorted }) hbidA
      have hlen := upd_length A.1 bid (fun p => { p with children := some sorted })
      have hAp : (aget A.1 bid).parent_id = (aget arena bid).parent_id := by
        rw [hA3]; split <;> rfl
      have hApa : (aget A.1 bid).path = (aget arena bid).path := by
        rw [hA3]; split <;> rfl
      have hAd : (aget A.1 bid).depth = (aget arena bid).depth := by
        rw [hA3]; split <;> rfl
      have hAn : (aget A.1 bid).name = (aget arena bid).name := by
        rw [hA3]; split <;> rfl
      have hAi : (aget A.1 bid).next_child_idx = (aget arena bid).next_child_idx := by
        rw [hA3]; split <;> rfl
      have hAb : (aget A.1 bid).nb_kept_children = (aget arena bid).nb_kept_children := by
        rw [hA3]; split <;> rfl
      have hAs : (aget A.1 bid).score = (aget arena bid).score := by
        rw [hA3]; split <;> rfl
      have hmemsorted : ∀ c, c ∈ sorted ↔ (arena.length ≤ c ∧ c < arena.length + lines.length) := by
        intro c
        rw [hsorted, mem_stableSort, hA5, List.mem_range'_1]
      have hnewget : ∀ k, (hk : k < lines.length) →
          aget (upd A.1 bid (fun p => { p with children := some sorted })) (arena.length + k)
            = lines[k] := by
        intro k hk
        rw [aget_upd_ne A.1 bid (arena.length + k) _ (by omega), hA6 k hk]
      refine ⟨?_, ?_, ?_, ?_, ?_, ?_, ?_⟩
      · rw [hlen, hA1]; omega
      · intro j hj hne
        rw [aget_upd_ne A.1 bid j _ hne, hA2 j hj hne]
      · rw [hself]
        exact ⟨hAp, hApa, hAd, hAn, hAi, hAb, hAs⟩
      · intro hm
        rw [hself]
        simp only
        rw [hA3]
        split
        · rfl
        · exact hm
      · intro hfalse
        rw [hself]
        simp only
        rw [hA3, if_neg]
        rw [hA4] at hfalse
        simp [hfalse]
      · intro htrue
        rw [hself]
        simp only
        rw [hA4] at htrue
        rw [hA3, if_pos htrue]
      · refine ⟨sorted, by rw [hself], ?_, ?_, ?_, ?_, ?_, ?_⟩
        · exact nodup_stableSort _ _ (by rw [hA5]; exact List.nodup_range' _ _)
        · have hpw : List.Pairwise (fun a b => nameLe A.1 a b = true) sorted :=
            pairwise_stableSort (nameLe A.1) (nameLe_total A.1) (nameLe_trans A.1) A.2.1
          refine hpw.imp_of_mem ?_
          intro a b ha hb hab
          rw [← hab]
          apply nameLe_congr
          · by_cases hane : a = bid
            · subst hane; rw [hself]
            · rw [aget_upd_ne A.1 bid a _ hane]
          · by_cases hbne : b = bid
            · subst hbne; rw [hself]
            · rw [aget_upd_ne A.1 bid b _ hbne]
        · intro c hc
          rw [hmemsorted c] at hc
          rw [hlen, hA1]
          exact ⟨hc.1, hc.2⟩
        · intro j hj1 hj2
          rw [hlen, hA1] at hj2
          exact (hmemsorted j).mpr ⟨hj1, hj2⟩
        · intro c hc
          rw [hmemsorted c] at hc
          obtain ⟨hc1, hc2⟩ := hc
          obtain ⟨k, hkeq⟩ : ∃ k, c = arena.length + k := ⟨c - arena.length, by omega⟩
          have hk : k < lines.length := by omega
          subst hkeq
          simp only [hnewget k hk]
          have hmem : lines[k] ∈ lines := List.getElem_mem hk
          obtain ⟨e, hemem, hml⟩ := List.mem_filterMap.mp hmem
          obtain ⟨hp1, hp2, hp3, hp4, hp5, hp6, hp7⟩ :=
            make_line_shape env opts arena bid e ((aget arena bid).depth + 1) _ hml
          refine ⟨hp1, hp2, hp3, hp4, hp5, by rw [hp7, hp6], ?_⟩
          intro hcm
          rw [hself]
          simp only
          rw [hA3, if_pos ?_]
          rw [List.any_eq_true]
          exact ⟨lines[k], List.getElem_mem hk, hcm⟩
        · intro hwf c1 hc1 c2 hc2 hname
          rw [hmemsorted c1] at hc1
          rw [hmemsorted c2] at hc2
          obtain ⟨k1, hk1eq⟩ : ∃ k, c1 = arena.length + k :=
            ⟨c1 - arena.length, by omega⟩
          obtain ⟨k2, hk2eq⟩ : ∃ k, c2 = arena.length + k :=
            ⟨c2 - arena.length, by omega⟩
          have hk1 : k1 < lines.length := by omega
          have hk2 : k2 < lines.length := by omega
          subst hk1eq hk2eq
          rw [hnewget k1 hk1, hnewget k2 hk2] at hname
          have hfind : fs.find (aget arena bid).path = some node := by
            by_cases hok : env.read_dir_ok (aget arena bid).path = true
            · rw [if_pos hok] at hrd; exact hrd
            · rw [if_neg hok] at hrd; exact Option.noConfusion hrd
          have hnodes : FSWF node := fswf_find _ fs hwf node hfind
          have hnames : ((node.children).map FSNode.name).Nodup := fswf_names node hnodes
          have hsub : (lines.map BLine.name).Sublist ((node.children).map FSNode.name) := by
            rw [hlines]
            exact map_filterMap_sublist _ BLine.name FSNode.name
              (fun e bl hml =>
                (make_line_shape env opts arena bid e _ bl hml).2.2.2.2.2.1)
              node.children
          have hlnodup : (lines.map BLine.name).Nodup := hnames.sublist hsub
          have hkk : k1 = k2 := by
            have hlk1 : k1 < (lines.map BLine.name).length := by
              rw [List.length_map]; exact hk1
            have hlk2 : k2 < (lines.map BLine.name).length := by
              rw [List.length_map]; exact hk2
            have h1 : (lines.map BLine.name)[k1] = (lines.map BLine.name)[k2] := by
              rw [List.getElem_map, List.getElem_map]
              exact hname
            exact (List.Nodup.getElem_inj_iff hlnodup).mp h1
          omega

/-! ## Helper lemmas: the promote loop -/

theorem eqExceptMatch_refl (a : BLine) : eqExceptMatch a a :=
  ⟨rfl, rfl, rfl, rfl, rfl, rfl, rfl, rfl, rfl, rfl, rfl, rfl⟩

theorem eqExceptMatch_trans (a b c : BLine) (h1 : eqExceptMatch a b)
    (h2 : eqExceptMatch b c) : eqExceptMatch a c := by
  obtain ⟨x1, x2, x3, x4, x5, x6, x7, x8, x9, x10, x11, x12⟩ := h1
  obtain ⟨y1, y2, y3, y4, y5, y6, y7, y8, y9, y10, y11, y12⟩ := h2
  exact ⟨x1.trans y1, x2.trans y2, x3.trans y3, x4.trans y4, x5.trans y5,
    x6.trans y6, x7.trans y7, x8.trans y8, x9.trans y9, x10.trans y10,
    x11.trans y11, x12.trans y12⟩

theorem pchain_congr (a b : List BLine)
    (h : ∀ i, (aget b i).parent_id = (aget a i).parent_id) :
    ∀ fuel id, pchain fuel b id = pchain fuel a id := by
  intro fuel
  induction fuel with
  | zero => intro id; rfl
  | succ n ih =>
      intro id
      unfold pchain
      rw [h id]
      cases (aget a id).parent_id with
      | none => rfl
      | some p => exact congrArg (fun l => id :: l) (ih p)

theorem pchain_head (fuel : Nat) (arena : List BLine) (id : Nat)
    (h : 0 < fuel) : id ∈ pchain fuel arena id := by
  cases fuel with
  | zero => omega
  | succ n => unfold pchain; exact List.mem_cons_self _ _

theorem pchain_closed (fuel : Nat) (arena : List BLine) (id : Nat)
    (hdepth : ∀ i p, (aget arena i).parent_id = some p →
      (aget arena i).depth = (aget arena p).depth + 1)
    (hfuel : (aget arena id).depth + 1 ≤ fuel) :
    ∀ j ∈ pchain fuel arena id, ∀ p, (aget arena j).parent_id = some p →
      p ∈ pchain fuel arena id := by
  induction fuel generalizing id with
  | zero => intro j hj; simp [pchain] at hj
  | succ n ih =>
      intro j hj p hp
      unfold pchain at hj ⊢
      rcases List.mem_cons.mp hj with heq | hj2
      · subst heq
        have hd := hdepth j p hp
        refine List.mem_cons_of_mem _ ?_
        rw [hp]
        exact pchain_head n arena p (by omega)
      · cases hq : (aget arena id).parent_id with
        | none =>
            rw [hq] at hj2
            exact absurd hj2 (List.not_mem_nil j)
        | some q =>
            rw [hq] at hj2
            have hj3 : j ∈ pchain n arena q := hj2
            have hd := hdepth id q hq
            have hq2 : p ∈ pchain n arena q := ih q (by omega) j hj3 p hp
            exact List.mem_cons_of_mem _ hq2

theorem promote_spec (fuel : Nat) :
    ∀ (arena : List BLine) (nb id : Nat),
    (promote fuel arena nb id).1.length = arena.length ∧
    (∀ j, eqExceptMatch (aget (promote fuel arena nb id).1 j) (aget arena j)) ∧
    (∀ j, (aget arena j).has_match = true →
      (aget (promote fuel arena nb id).1 j).has_match = true) ∧
    (∀ j, (aget (promote fuel arena nb id).1 j).has_match = true →
      (aget arena j).has_match = true ∨ j ∈ pchain fuel arena id) := by
  induction fuel with
  | zero =>
      intro arena nb id
      exact ⟨rfl, fun j => eqExceptMatch_refl _, fun j h => h, fun j h => Or.inl h⟩
  | succ n ih =>
      intro arena nb id
      have hstep : ∀ j, (j < arena.length ∨ arena.length ≤ j) := fun j => by omega
      set b := aget arena id with hb
      set st := (if !b.has_match then
        (upd arena id (fun x => { x with has_match := true }), nb + 1)
        else (arena, nb)) with hst
      have hstE : st.1 = (if !b.has_match then
          upd arena id (fun x => { x with has_match := true }) else arena) ∧
          st.2 = (if !b.has_match then nb + 1 else nb) := by
        rw [hst]; split <;> exact ⟨rfl, rfl⟩
      have hstlen : st.1.length = arena.length := by
        rw [hstE.1]; split
        · exact upd_length _ _ _
        · rfl
      have hstget : ∀ j, j ≠ id → aget st.1 j = aget arena j := by
        intro j hne
        rw [hstE.1]; split
        · exact aget_upd_ne _ _ _ _ hne
        · rfl
      have hstid : eqExceptMatch (aget st.1 id) (aget arena id) := by
        rw [hstE.1]
        split
        · by_cases hlt : id < arena.length
          · rw [aget_upd_self _ _ _ hlt]
            exact ⟨rfl, rfl, rfl, rfl, rfl, rfl, rfl, rfl, rfl, rfl, rfl, rfl⟩
          · rw [upd_oob _ _ _ (by omega)]
            exact eqExceptMatch_refl _
        · exact eqExceptMatch_refl _
      have hstmono : ∀ j, (aget arena j).has_match = true →
          (aget st.1 j).has_match = true := by
        intro j hj
        by_cases hne : j = id
        · subst hne
          rw [hstE.1]; split
          · by_cases hlt : j < arena.length
            · rw [aget_upd_self _ _ _ hlt]
            · rw [upd_oob _ _ _ (by omega)]; exact hj
          · exact hj
        · rw [hstget j hne]; exact hj
      have hstflip : ∀ j, (aget st.1 j).has_match = true →
          (aget arena j).has_match = true ∨ j = id := by
        intro j hj
        by_cases hne : j = id
        · exact Or.inr hne
        · rw [hstget j hne] at hj; exact Or.inl hj
      have hchain : pchain (n + 1) arena id =
          id :: (match (aget arena id).parent_id with
                 | some p => pchain n arena p
                 | none => []) := rfl
      have hpch : ∀ i, (aget st.1 i).parent_id = (aget arena i).parent_id := by
        intro i
        by_cases hne : i = id
        · subst hne; exact hstid.1
        · rw [hstget i hne]
      show (match b.parent_id with
            | some p => promote n st.1 st.2 p
            | none => st).1.length = arena.length ∧
          (∀ j, eqExceptMatch
            (aget (match b.parent_id with
              | some p => promote n st.1 st.2 p
              | none => st).1 j) (aget arena j)) ∧
          (∀ j, (aget arena j).has_match = true →
            (aget (match b.parent_id with
              | some p => promote n st.1 st.2 p
              | none => st).1 j).has_match = true) ∧
          (∀ j, (aget (match b.parent_id with
              | some p => promote n st.1 st.2 p
              | none => st).1 j).has_match = true →
            (aget arena j).has_match = true ∨ j ∈ pchain (n + 1) arena id)
      cases hpar : b.parent_id with
      | none =>
          simp only [hpar]
          refine ⟨hstlen, ?_, hstmono, ?_⟩
          · intro j
            by_cases hne : j = id
            · subst hne; exact hstid
            · rw [hstget j hne]; exact eqExceptMatch_refl _
          · intro j hj
            rcases hstflip j hj with h | h
            · exact Or.inl h
            · subst h; rw [hchain]; exact Or.inr (List.mem_cons_self _ _)
      | some p =>
          simp only [hpar]
          obtain ⟨ih1, ih2, ih3, ih4⟩ := ih st.1 st.2 p
          refine ⟨ih1.trans hstlen, ?_, ?_, ?_⟩
          · intro j
            refine eqExceptMatch_trans _ _ _ (ih2 j) ?_
            by_cases hne : j = id
            · subst hne; exact hstid
            · rw [hstget j hne]; exact eqExceptMatch_refl _
          · intro j hj
            exact ih3 j (hstmono j hj)
          · intro j hj
            rcases ih4 j hj with h | h
            · rcases hstflip j h with h2 | h2
              · exact Or.inl h2
              · subst h2; rw [hchain]; exact Or.inr (List.mem_cons_self _ _)
            · rw [pchain_congr arena st.1 hpch n p] at h
              rw [hchain, hb] at *
              rw [hpar]
              exact Or.inr (List.mem_cons_of_mem _ h)

theorem promote_complete (fuel : Nat) :
    ∀ (arena : List BLine) (nb id : Nat),
    (∀ i p, (aget arena i).parent_id = some p →
      (aget arena i).depth = (aget arena p).depth + 1) →
    (aget arena id).depth + 1 ≤ fuel →
    (∀ j ∈ pchain fuel arena id, j < arena.length) →
    ∀ j ∈ pchain fuel arena id,
      (aget (promote fuel arena nb id).1 j).has_match = true := by
  induction fuel with
  | zero => intro arena nb id _ _ _ j hj; simp [pchain] at hj
  | succ n ih =>
      intro arena nb id hdepth hfuel hvalid j hj
      have hidlt : id < arena.length :=
        hvalid id (pchain_head (n + 1) arena id (by omega))
      set b := aget arena id with hb
      set st := (if !b.has_match then
        (upd arena id (fun x => { x with has_match := true }), nb + 1)
        else (arena, nb)) with hst
      have hstE : st.1 = (if !b.has_match then
          upd arena id (fun x => { x with has_match := true }) else arena) ∧
          st.2 = (if !b.has_match then nb + 1 else nb) := by
        rw [hst]; split <;> exact ⟨rfl, rfl⟩
      have hstlen : st.1.length = arena.length := by
        rw [hstE.1]; split
        · exact upd_length _ _ _
        · rfl
      have hpch : ∀ i, (aget st.1 i).parent_id = (aget arena i).parent_id := by
        intro i
        rw [hstE.1]; split
        · exact aget_upd_field arena id i _ BLine.parent_id (fun x => rfl)
        · rfl
      have hdep : ∀ i, (aget st.1 i).depth = (aget arena i).depth := by
        intro i
        rw [hstE.1]; split
        · exact aget_upd_field arena id i _ BLine.depth (fun x => rfl)
        · rfl
      have hstidm : (aget st.1 id).has_match = true := by
        rw [hstE.1]
        by_cases hm : b.has_match = true
        · simp only [hm, Bool.not_true, Bool.false_eq_true, if_false]
          exact hm
        · simp only [Bool.eq_false_iff.mpr hm, Bool.not_false, if_true]
          rw [aget_upd_self _ _ _ hidlt]
      unfold pchain at hj
      show (aget (match b.parent_id with
            | some p => promote n st.1 st.2 p
            | none => st).1 j).has_match = true
      rcases List.mem_cons.mp hj with heq | hj2
      · subst heq
        cases hpar : b.parent_id with
        | none => simp only [hpar]; exact hstidm
        | some p =>
            simp only [hpar]
            exact (promote_spec n st.1 st.2 p).2.2.1 j hstidm
      · cases hpar : (aget arena id).parent_id with
        | none =>
            rw [hpar] at hj2
            exact absurd hj2 (List.not_mem_nil j)
        | some p =>
            rw [hpar] at hj2
            have hj3 : j ∈ pchain n arena p := hj2
            have hgoal : (aget (promote n st.1 st.2 p).1 j).has_match = true := by
              have hdp : b.depth = (aget arena p).depth + 1 := by
                rw [hb]; exact hdepth id p hpar
              have ihh := ih st.1 st.2 p
                (by
                  intro i q hq
                  rw [hdep i, hdep q]
                  exact hdepth i q ((hpch i).symm ▸ hq))
                (by rw [hdep p]; omega)
                (by
                  intro j2 hj4
                  rw [pchain_congr arena st.1 hpch n p] at hj4
                  rw [hstlen]
                  refine hvalid j2 ?_
                  unfold pchain
                  rw [hpar]
                  exact List.mem_cons_of_mem _ hj4)
              rw [pchain_congr arena st.1 hpch n p] at ihh
              exact ihh j hj3
            have hbp : b.parent_id = some p := by rw [hb]; exact hpar
            simp only [hbp]
            exact hgoal

theorem promote_count (fuel : Nat) :
    ∀ (arena : List BLine) (nb id : Nat) (out : List Nat),
    (∀ j ∈ pchain fuel arena id, j ∈ out ∧ j < arena.length) →
    nb ≤ countMatching arena out →
    (promote fuel arena nb id).2 ≤ countMatching (promote fuel arena nb id).1 out := by
  induction fuel with
  | zero => intro arena nb id out _ h; exact h
  | succ n ih =>
      intro arena nb id out hin hnb
      set b := aget arena id with hb
      have hid : id ∈ out ∧ id < arena.length :=
        hin id (pchain_head (n + 1) arena id (by omega))
      set st := (if !b.has_match then
        (upd arena id (fun x => { x with has_match := true }), nb + 1)
        else (arena, nb)) with hst
      have hstE : st.1 = (if !b.has_match then
          upd arena id (fun x => { x with has_match := true }) else arena) ∧
          st.2 = (if !b.has_match then nb + 1 else nb) := by
        rw [hst]; split <;> exact ⟨rfl, rfl⟩
      have hstlen : st.1.length = arena.length := by
        rw [hstE.1]; split
        · exact upd_length _ _ _
        · rfl
      have hstget : ∀ j2, j2 ≠ id → aget st.1 j2 = aget arena j2 := by
        intro j2 hne
        rw [hstE.1]; split
        · exact aget_upd_ne _ _ _ _ hne
        · rfl
      have hpch : ∀ i, (aget st.1 i).parent_id = (aget arena i).parent_id := by
        intro i
        rw [hstE.1]; split
        · exact aget_upd_field arena id i _ BLine.parent_id (fun x => rfl)
        · rfl
      have hstcount : st.2 ≤ countMatching st.1 out := by
        rw [hstE.1, hstE.2]
        by_cases hm : b.has_match = true
        · simp only [hm, Bool.not_true, Bool.false_eq_true, if_false]
          exact hnb
        · simp only [Bool.eq_false_iff.mpr hm, Bool.not_false, if_true]
          refine le_trans (Nat.add_le_add_right hnb 1) ?_
          refine countMatching_flip arena _ out id hid.1 ?_ ?_ ?_
          · rw [hb] at hm; exact Bool.eq_false_iff.mpr hm
          · rw [aget_upd_self _ _ _ hid.2]
          · intro j2 hj2 hm2
            by_cases hne : j2 = id
            · subst hne
              rw [aget_upd_self _ _ _ hid.2]
            · rw [aget_upd_ne _ _ _ _ hne]; exact hm2
      show (match b.parent_id with
            | some p => promote n st.1 st.2 p
            | none => st).2 ≤
          countMatching (match b.parent_id with
            | some p => promote n st.1 st.2 p
            | none => st).1 out
      cases hpar : b.parent_id with
      | none => simp only [hpar]; exact hstcount
      | some p =>
          simp only [hpar]
          refine ih st.1 st.2 p out ?_ hstcount
          intro j hj
          rw [pchain_congr arena st.1 hpch n p] at hj
          have hbp : (aget arena id).parent_id = some p := by
            rw [← hb]; exact hpar
          have := hin j (by
            unfold pchain
            rw [hbp]
            exact List.mem_cons_of_mem _ hj)
          exact ⟨this.1, by rw [hstlen]; exact this.2⟩

/-! ## Helper lemmas: small list facts -/

theorem nodup_concat (l : List Nat) (a : Nat) (h : l.Nodup) (ha : a ∉ l) :
    (l ++ [a]).Nodup := by
  rw [List.nodup_append]
  exact ⟨h, List.nodup_singleton a, by simpa using ha⟩

theorem not_mem_take_self (l : List Nat) (h : l.Nodup) (i : Nat) (hi : i < l.length) :
    l[i] ∉ l.take i := by
  intro hmem
  obtain ⟨j, hj, hval⟩ := List.mem_iff_getElem.mp hmem
  have hjlen : j < l.length := lt_of_lt_of_le hj (by rw [List.length_take]; omega)
  have hjlt : j < i := by
    have := List.length_take i l
    omega
  rw [List.getElem_take] at hval
  have : j = i := (List.Nodup.getElem_inj_iff h).mp hval
  omega

/-! ## Helper lemmas: next_child -/

theorem next_child_some (arena : List BLine) (bid : Nat) (cs : List Nat)
    (hch : (aget arena bid).children = some cs)
    (hlt : (aget arena bid).next_child_idx < cs.length) :
    next_child arena bid =
      (upd arena bid (fun p => { p with next_child_idx := p.next_child_idx + 1 }),
        some (cs.getD (aget arena bid).next_child_idx 0)) := by
  unfold next_child
  dsimp only
  rw [hch]
  simp only [hlt, if_true]

theorem next_child_none (arena : List BLine) (bid : Nat) (cs : List Nat)
    (hch : (aget arena bid).children = some cs)
    (hge : ¬ (aget arena bid).next_child_idx < cs.length) :
    next_child arena bid = (arena, none) := by
  unfold next_child
  dsimp only
  rw [hch]
  simp only [hge, if_false]

/-! ## Helper lemmas: one emission step preserves the arena/out invariant -/

theorem ainv_emit (fs : FSNode) (arena : List BLine) (out : List Nat)
    (hA : AInv fs arena out) (od : Nat) (hod : od ∈ out) (cs : List Nat)
    (hcs : (aget arena od).children = some cs)
    (hidx : (aget arena od).next_child_idx < cs.length) (c : Nat)
    (hc : c = cs.getD (aget arena od).next_child_idx 0) :
    AInv fs (upd arena od (fun p => { p with next_child_idx := p.next_child_idx + 1 }))
      (out ++ [c]) ∧
    c ∉ out ∧ c < arena.length ∧
    (aget arena c).parent_id = some od ∧
    (aget arena c).children = none := by
  have hodlt : od < arena.length := hA.outv od hod
  have hcelem : c = cs[(aget arena od).next_child_idx] := by
    rw [hc, List.getD_eq_getElem cs 0 hidx]
  have hcmem : c ∈ cs := by rw [hcelem]; exact List.getElem_mem hidx
  obtain ⟨hnodupcs, hcsmem⟩ := hA.cwf od hodlt cs hcs
  have hclt : c < arena.length := (hcsmem c hcmem).1
  have hcpar : (aget arena c).parent_id = some od := (hcsmem c hcmem).2
  have hcnotout : c ∉ out := by
    intro hin
    have hfp := (hA.fp od hodlt cs hcs).2
    have hcfil : c ∈ out.filter (fun x => (aget arena x).parent_id == some od) := by
      rw [List.mem_filter]
      exact ⟨hin, by rw [hcpar]; simp⟩
    rw [hfp] at hcfil
    rw [hcelem] at hcfil
    exact not_mem_take_self cs hnodupcs _ hidx hcfil
  have hcchild : (aget arena c).children = none :=
    hA.unloaded c hclt hcnotout
  set arena2 := upd arena od
    (fun p => { p with next_child_idx := p.next_child_idx + 1 }) with ha2
  have hlen2 : arena2.length = arena.length := upd_length _ _ _
  have hpar2 : ∀ i, (aget arena2 i).parent_id = (aget arena i).parent_id :=
    fun i => aget_upd_field arena od i _ BLine.parent_id (fun x => rfl)
  have hpath2 : ∀ i, (aget arena2 i).path = (aget arena i).path :=
    fun i => aget_upd_field arena od i _ BLine.path (fun x => rfl)
  have hdepth2 : ∀ i, (aget arena2 i).depth = (aget arena i).depth :=
    fun i => aget_upd_field arena od i _ BLine.depth (fun x => rfl)
  have hname2 : ∀ i, (aget arena2 i).name = (aget arena i).name :=
    fun i => aget_upd_field arena od i _ BLine.name (fun x => rfl)
  have hch2 : ∀ i, (aget arena2 i).children = (aget arena i).children :=
    fun i => aget_upd_field arena od i _ BLine.children (fun x => rfl)
  have hhm2 : ∀ i, (aget arena2 i).has_match = (aget arena i).has_match :=
    fun i => aget_upd_field arena od i _ BLine.has_match (fun x => rfl)
  have hnb2 : ∀ i, (aget arena2 i).nb_kept_children = (aget arena i).nb_kept_children :=
    fun i => aget_upd_field arena od i _ BLine.nb_kept_children (fun x => rfl)
  have hidx2 : ∀ i, i ≠ od → (aget arena2 i).next_child_idx = (aget arena i).next_child_idx := by
    intro i hne
    rw [aget_upd_ne _ _ _ _ hne]
  have hidxod : (aget arena2 od).next_child_idx = (aget arena od).next_child_idx + 1 := by
    rw [aget_upd_self _ _ _ hodlt]
  have hnmLe2 : ∀ a b, nameLe arena2 a b = nameLe arena a b :=
    fun a b => nameLe_congr arena arena2 a b (hname2 a) (hname2 b)
  have hgetq : ∀ (j : Nat), j < out.length → (out ++ [c])[j]? = out[j]? := by
    intro j hj
    rw [List.getElem?_append, if_pos hj]
  have hgetlast : (out ++ [c])[out.length]? = some c :=
    List.getElem?_concat_length out c
  refine ⟨⟨?_, ?_, ?_, ?_, ?_, ?_, ?_, ?_, ?_, ?_, ?_, ?_, ?_, ?_, ?_, ?_, ?_, ?_⟩,
    hcnotout, hclt, hcpar, hcchild⟩
  · intro id hid
    rw [hlen2]
    rcases List.mem_append.mp hid with h | h
    · exact hA.outv id h
    · rw [List.mem_singleton.mp h]; exact hclt
  · exact List.mem_append_left _ hA.zeroout
  · intro j id hj p hp
    rw [hpar2 id] at hp
    by_cases hjlt : j < out.length
    · rw [hgetq j hjlt] at hj
      obtain ⟨i, hi, hival⟩ := hA.pclosed j id hj p hp
      exact ⟨i, hi, by rw [hgetq i (by omega)]; exact hival⟩
    · have hjlen : j < out.length + 1 := by
        by_contra hge
        rw [List.getElem?_eq_none (by simp; omega)] at hj
        exact Option.noConfusion hj
      have hjeq : j = out.length := by omega
      subst hjeq
      rw [hgetlast] at hj
      have hidc : id = c := by injection hj with h2; exact h2.symm
      subst hidc
      rw [hcpar] at hp
      have hpod : p = od := by injection hp with h2; exact h2.symm
      subst hpod
      obtain ⟨i, hi⟩ := List.mem_iff_getElem?.mp hod
      have hilt : i < out.length := by
        by_contra hge
        rw [List.getElem?_eq_none (by omega)] at hi
        exact Option.noConfusion hi
      exact ⟨i, hilt, by rw [hgetq i hilt]; exact hi⟩
  · rw [hlen2]; exact hA.rootlt
  · rw [hpar2, hpath2, hdepth2]
    exact hA.rootwf
  · intro i hi p hp
    rw [hlen2] at hi ⊢
    rw [hpar2] at hp
    rw [hdepth2, hdepth2, hpath2, hpath2, hname2]
    exact hA.parent_wf i hi p hp
  · intro i hi hp
    rw [hlen2] at hi
    rw [hpar2] at hp
    exact hA.parent_none i hi hp
  · intro i hi cs2 hcs2
    rw [hlen2] at hi
    rw [hch2] at hcs2
    obtain ⟨h1, h2⟩ := hA.cwf i hi cs2 hcs2
    refine ⟨h1, ?_⟩
    intro c2 hc2
    rw [hlen2, hpar2]
    exact h2 c2 hc2
  · intro x hx p hp
    rw [hlen2] at hx
    rw [hpar2] at hp
    rw [hch2]
    exact hA.conv x hx p hp
  · intro i hi hm p hp
    rw [hlen2] at hi
    rw [hhm2] at hm ⊢
    rw [hpar2] at hp
    exact hA.mc i hi hm p hp
  · intro i hi
    rw [hlen2] at hi
    rw [hnb2]
    exact hA.nb0 i hi
  · intro i hi hnone
    rw [hlen2] at hi
    rw [hch2] at hnone
    by_cases hne : i = od
    · subst hne
      rw [hcs] at hnone
      exact Option.noConfusion hnone
    · rw [hidx2 i hne]
      exact hA.inone i hi hnone
  · intro i hi cs2 hcs2
    rw [hlen2] at hi
    rw [hch2] at hcs2
    have hfili : (out ++ [c]).filter (fun x => (aget arena2 x).parent_id == some i)
        = out.filter (fun x => (aget arena x).parent_id == some i)
          ++ (if (aget arena c).parent_id == some i then [c] else []) := by
      rw [List.filter_append]
      congr 1
      · exact List.filter_congr (fun x _ => by rw [hpar2])
      · simp only [List.filter_cons, List.filter_nil, hpar2]
    by_cases hne : i = od
    · subst hne
      have hcseq : cs2 = cs := by
        rw [hcs2] at hcs
        exact Option.some.inj hcs
      subst hcseq
      rw [hidxod]
      refine ⟨by omega, ?_⟩
      rw [hfili]
      rw [(hA.fp i hodlt cs2 hcs2).2]
      rw [hcpar]
      simp only [beq_self_eq_true, if_true]
      rw [List.take_succ]
      congr 1
      rw [List.getElem?_eq_getElem hidx, hcelem]
      rfl
    · rw [hidx2 i hne]
      obtain ⟨h1, h2⟩ := hA.fp i hi cs2 hcs2
      refine ⟨h1, ?_⟩
      rw [hfili, h2, hcpar]
      have hbeq : (some od == some i) = false := by
        simp only [beq_eq_false_iff_ne, ne_eq, Option.some.injEq]
        exact fun h => hne h.symm
      rw [hbeq]
      simp
  · intro i hi cs2 hcs2
    rw [hlen2] at hi
    rw [hch2] at hcs2
    refine (hA.sorted i hi cs2 hcs2).imp ?_
    intro a b hab
    rw [hnmLe2]
    exact hab
  · exact nodup_concat out c hA.nodup hcnotout
  · intro c2 hc2lt hc2out
    rw [hlen2] at hc2lt
    rw [hch2]
    refine hA.unloaded c2 hc2lt ?_
    intro hin
    exact hc2out (List.mem_append_left _ hin)
  · intro hwf i j hi hj hpath
    rw [hlen2] at hi hj
    rw [hpath2, hpath2] at hpath
    exact hA.pathinj hwf i j hi hj hpath
  · rw [hhm2]
    exact hA.rootm

/-! ## Helper lemmas: the gather invariant -/

theorem pchain_sub_out (arena : List BLine) (out : List Nat)
    (houtv : ∀ id ∈ out, id < arena.length)
    (hpc : ∀ (j id : Nat), out[j]? = some id → ∀ p,
      (aget arena id).parent_id = some p → ∃ i, i < j ∧ out[i]? = some p) :
    ∀ fuel id, id ∈ out → ∀ j ∈ pchain fuel arena id, j ∈ out ∧ j < arena.length := by
  intro fuel
  induction fuel with
  | zero => intro id _ j hj; simp [pchain] at hj
  | succ n ih =>
      intro id hid j hj
      unfold pchain at hj
      rcases List.mem_cons.mp hj with heq | hj2
      · subst heq
        exact ⟨hid, houtv j hid⟩
      · cases hq : (aget arena id).parent_id with
        | none =>
            rw [hq] at hj2
            exact absurd hj2 (List.not_mem_nil j)
        | some p =>
            rw [hq] at hj2
            obtain ⟨n2, hn2⟩ := List.mem_iff_getElem?.mp hid
            obtain ⟨i2, _, hival⟩ := hpc n2 id hn2 p hq
            have hpmem : p ∈ out := List.mem_iff_getElem?.mpr ⟨i2, hival⟩
            exact ih p hpmem j hj2

theorem ainv_transfer (fs : FSNode) (a b : List BLine) (out : List Nat)
    (hA : AInv fs a out) (hlen : b.length = a.length)
    (heq : ∀ j, eqExceptMatch (aget b j) (aget a j))
    (hmc : ∀ i, i < b.length → (aget b i).has_match = true →
      ∀ p, (aget b i).parent_id = some p → (aget b p).has_match = true)
    (hrm : (aget b 0).has_match = true) : AInv fs b out := by
  have hp : ∀ j, (aget b j).parent_id = (aget a j).parent_id := fun j => (heq j).1
  have hpa : ∀ j, (aget b j).path = (aget a j).path := fun j => (heq j).2.1
  have hd : ∀ j, (aget b j).depth = (aget a j).depth := fun j => (heq j).2.2.1
  have hn : ∀ j, (aget b j).name = (aget a j).name := fun j => (heq j).2.2.2.1
  have hch : ∀ j, (aget b j).children = (aget a j).children :=
    fun j => (heq j).2.2.2.2.2.1
  have hidx : ∀ j, (aget b j).next_child_idx = (aget a j).next_child_idx :=
    fun j => (heq j).2.2.2.2.2.2.1
  have hnb : ∀ j, (aget b j).nb_kept_children = (aget a j).nb_kept_children :=
    fun j => (heq j).2.2.2.2.2.2.2.2.2.2.1
  refine ⟨?_, hA.zeroout, ?_, ?_, ?_, ?_, ?_, ?_, ?_, hmc, ?_, ?_, ?_, ?_,
    hA.nodup, ?_, ?_, hrm⟩
  · intro id hid; rw [hlen]; exact hA.outv id hid
  · intro j id hj p hpp
    rw [hp] at hpp
    exact hA.pclosed j id hj p hpp
  · rw [hlen]; exact hA.rootlt
  · rw [hp, hpa, hd]; exact hA.rootwf
  · intro i hi p hpp
    rw [hlen] at hi
    rw [hp] at hpp
    rw [hlen, hd, hd, hpa, hpa, hn]
    exact hA.parent_wf i hi p hpp
  · intro i hi hpp
    rw [hlen] at hi
    rw [hp] at hpp
    exact hA.parent_none i hi hpp
  · intro i hi cs hcs
    rw [hlen] at hi
    rw [hch] at hcs
    obtain ⟨h1, h2⟩ := hA.cwf i hi cs hcs
    refine ⟨h1, ?_⟩
    intro c hcm
    rw [hlen, hp]
    exact h2 c hcm
  · intro x hx p hpp
    rw [hlen] at hx
    rw [hp] at hpp
    rw [hch]
    exact hA.conv x hx p hpp
  · intro i hi
    rw [hlen] at hi
    rw [hnb]
    exact hA.nb0 i hi
  · intro i hi hnone
    rw [hlen] at hi
    rw [hch] at hnone
    rw [hidx]
    exact hA.inone i hi hnone
  · intro i hi cs hcs
    rw [hlen] at hi
    rw [hch] at hcs
    obtain ⟨h1, h2⟩ := hA.fp i hi cs hcs
    rw [hidx]
    refine ⟨h1, ?_⟩
    rw [← h2]
    exact List.filter_congr (fun x _ => by rw [hp])
  · intro i hi cs hcs
    rw [hlen] at hi
    rw [hch] at hcs
    refine (hA.sorted i hi cs hcs).imp ?_
    intro x y hxy
    rw [nameLe_congr a b x y (hn x) (hn y)]
    exact hxy
  · intro c hc hc2
    rw [hlen] at hc
    rw [hch]
    exact hA.unloaded c hc hc2
  · intro hwf i j hi hj hpath
    rw [hlen] at hi hj
    rw [hpa, hpa] at hpath
    exact hA.pathinj hwf i j hi hj hpath

theorem promote_root_id (fuel : Nat) (arena : List BLine) (nb id : Nat)
    (hm : (aget arena id).has_match = true) (hp : (aget arena id).parent_id = none) :
    promote (fuel + 1) arena nb id = (arena, nb) := by
  unfold promote
  dsimp only
  rw [hp, hm]
  simp

theorem ainv_init (fs : FSNode) : AInv fs [rootBLine fs] [0] := by
  have hz : aget [rootBLine fs] 0 = rootBLine fs := rfl
  have hone : ∀ i : Nat, i < 1 → i = 0 := by omega
  have hlen : ([rootBLine fs] : List BLine).length = 1 := rfl
  refine ⟨?_, ?_, ?_, ?_, ?_, ?_, ?_, ?_, ?_, ?_, ?_, ?_, ?_, ?_, ?_, ?_, ?_, ?_⟩
  · intro id hid
    rw [List.mem_singleton.mp hid, hlen]
    omega
  · exact List.mem_singleton.mpr rfl
  · intro j id hj p hp
    have hjd : j < 1 := by
      by_contra hge
      rw [List.getElem?_eq_none (by simp; omega)] at hj
      exact Option.noConfusion hj
    have hj0 : j = 0 := by omega
    subst hj0
    have hid : id = 0 := by
      have hq : ([0] : List Nat)[0]? = some 0 := rfl
      rw [hq] at hj
      exact (Option.some.inj hj).symm
    subst hid
    rw [hz] at hp
    exact Option.noConfusion hp
  · rw [hlen]; omega
  · exact ⟨rfl, rfl, rfl⟩
  · intro i hi p hp
    rw [hone i (by rw [hlen] at hi; exact hi)] at hp
    rw [hz] at hp
    exact Option.noConfusion hp
  · intro i hi _
    exact hone i (by rw [hlen] at hi; exact hi)
  · intro i hi cs hcs
    rw [hone i (by rw [hlen] at hi; exact hi)] at hcs
    rw [hz] at hcs
    exact Option.noConfusion hcs
  · intro x hx p hp
    rw [hone x (by rw [hlen] at hx; exact hx)] at hp
    rw [hz] at hp
    exact Option.noConfusion hp
  · intro i hi _ p hp
    rw [hone i (by rw [hlen] at hi; exact hi)] at hp
    rw [hz] at hp
    exact Option.noConfusion hp
  · intro i hi
    rw [hone i (by rw [hlen] at hi; exact hi)]
    rfl
  · intro i hi _
    rw [hone i (by rw [hlen] at hi; exact hi)]
    rfl
  · intro i hi cs hcs
    rw [hone i (by rw [hlen] at hi; exact hi)] at hcs
    rw [hz] at hcs
    exact Option.noConfusion hcs
  · intro i hi cs hcs
    rw [hone i (by rw [hlen] at hi; exact hi)] at hcs
    rw [hz] at hcs
    exact Option.noConfusion hcs
  · exact List.nodup_singleton 0
  · intro c hc hcout
    have hc0 : c = 0 := hone c (by rw [hlen] at hc; exact hc)
    subst hc0
    exact absurd (List.mem_singleton.mpr rfl) hcout
  · intro _ i j hi hj _
    rw [hone i (by rw [hlen] at hi; exact hi),
       hone j (by rw [hlen] at hj; exact hj)]
  · rfl

theorem concat_inj {α : Type} (a b : List α) (x y : α)
    (h : a ++ [x] = b ++ [y]) : a = b ∧ x = y := by
  have hab : a = b := by
    have h2 := congrArg List.dropLast h
    simpa [List.dropLast_concat] using h2
  subst hab
  simp only [List.append_cancel_left_eq, List.cons.injEq, and_true] at h
  exact ⟨rfl, h⟩

theorem ainv_load_promote (env : BuildEnv) (opts : TreeOptionsM) (fs : FSNode)
    (arena : List BLine) (out : List Nat) (d nb : Nat)
    (hA : AInv fs arena out) (hd : d ∈ out)
    (hch : (aget arena d).children = none)
    (hnb : nb ≤ countMatching arena out)
    (lc : List BLine × Bool) (hlc : load_children env opts fs arena d = lc)
    (pr : List BLine × Nat)
    (hpr : pr = if lc.2 = true then
        promote ((aget lc.1 d).depth + 1) lc.1 nb d else (lc.1, nb)) :
    AInv fs pr.1 out ∧ pr.2 ≤ countMatching pr.1 out ∧
    arena.length ≤ pr.1.length ∧
    (∀ j, j < arena.length → j ≠ d → eqExceptMatch (aget pr.1 j) (aget arena j)) ∧
    (aget pr.1 d).children ≠ none := by
  have hdlt : d < arena.length := hA.outv d hd
  obtain ⟨hL1, hL2, hL3, hL4, hL5, hL6, cs, hcs, hcsnd, hcssort, hcsbound,
    hcscompl, hcsfacts, hcsinj⟩ := load_children_spec env opts fs arena d hdlt lc hlc
  set A1 := lc.1 with hA1def
  have hpare : ∀ j, j < arena.length →
      (aget A1 j).parent_id = (aget arena j).parent_id := by
    intro j hj
    by_cases hje : j = d
    · subst hje; exact hL3.1
    · rw [hL2 j hj hje]
  have hpathe : ∀ j, j < arena.length → (aget A1 j).path = (aget arena j).path := by
    intro j hj
    by_cases hje : j = d
    · subst hje; exact hL3.2.1
    · rw [hL2 j hj hje]
  have hdepthe : ∀ j, j < arena.length → (aget A1 j).depth = (aget arena j).depth := by
    intro j hj
    by_cases hje : j = d
    · subst hje; exact hL3.2.2.1
    · rw [hL2 j hj hje]
  have hnamee : ∀ j, j < arena.length → (aget A1 j).name = (aget arena j).name := by
    intro j hj
    by_cases hje : j = d
    · subst hje; exact hL3.2.2.2.1
    · rw [hL2 j hj hje]
  have hidxe : ∀ j, j < arena.length →
      (aget A1 j).next_child_idx = (aget arena j).next_child_idx := by
    intro j hj
    by_cases hje : j = d
    · subst hje; exact hL3.2.2.2.2.1
    · rw [hL2 j hj hje]
  have hnbe : ∀ j, j < arena.length →
      (aget A1 j).nb_kept_children = (aget arena j).nb_kept_children := by
    intro j hj
    by_cases hje : j = d
    · subst hje; exact hL3.2.2.2.2.2.1
    · rw [hL2 j hj hje]
  have hmate : ∀ j, j < arena.length → j ≠ d →
      (aget A1 j).has_match = (aget arena j).has_match := by
    intro j hj hje; rw [hL2 j hj hje]
  have hchilde : ∀ j, j < arena.length → j ≠ d →
      (aget A1 j).children = (aget arena j).children := by
    intro j hj hje; rw [hL2 j hj hje]
  have hclass : ∀ i, i < A1.length → i < arena.length ∨ i ∈ cs := by
    intro i hi
    by_cases h2 : i < arena.length
    · exact Or.inl h2
    · exact Or.inr (hcscompl i (by omega) hi)
  have hnopd : ∀ x, x < arena.length → (aget arena x).parent_id ≠ some d := by
    intro x hx hxp
    obtain ⟨cs2, hcs2, _⟩ := hA.conv x hx d hxp
    rw [hch] at hcs2
    exact Option.noConfusion hcs2
  have houtlt : ∀ id ∈ out, id < arena.length := hA.outv
  have hparot : ∀ id ∈ out, (aget A1 id).parent_id = (aget arena id).parent_id :=
    fun id hid => hpare id (houtlt id hid)
  have hpc1 : ∀ (j id : Nat), out[j]? = some id → ∀ p,
      (aget A1 id).parent_id = some p → ∃ i, i < j ∧ out[i]? = some p := by
    intro j id hj p hp
    have hidm : id ∈ out := List.mem_iff_getElem?.mpr ⟨j, hj⟩
    rw [hparot id hidm] at hp
    exact hA.pclosed j id hj p hp
  have hsub1 := pchain_sub_out A1 out
    (fun id hid => lt_of_lt_of_le (houtlt id hid) hL1) hpc1
  have hmono1 : ∀ id ∈ out, (aget arena id).has_match = true →
      (aget A1 id).has_match = true := by
    intro id hid hm
    by_cases hje : id = d
    · subst hje; exact hL4 hm
    · rw [hmate id (houtlt id hid) hje]; exact hm
  have hcount1 : countMatching arena out ≤ countMatching A1 out :=
    countMatching_mono arena A1 out hmono1
  have hA1rm : (aget A1 0).has_match = true := by
    by_cases h0 : 0 = d
    · rw [← h0] at hL4
      exact hL4 hA.rootm
    · rw [hmate 0 hA.rootlt h0]; exact hA.rootm
  have hdepthA1 : ∀ i p, (aget A1 i).parent_id = some p →
      (aget A1 i).depth = (aget A1 p).depth + 1 := by
    intro i p hp
    by_cases hi : i < A1.length
    · rcases hclass i hi with hio | hin
      · rw [hpare i hio] at hp
        have hpw := hA.parent_wf i hio p hp
        rw [hdepthe i hio, hdepthe p hpw.1]
        exact hpw.2.1
      · have hf := hcsfacts i hin
        rw [hf.1] at hp
        have hpd : p = d := (Option.some.inj hp).symm
        subst hpd
        rw [hf.2.2.2.2.1, hdepthe p hdlt]
    · have hoob : aget A1 i = default := aget_oob A1 i (by omega)
      rw [hoob] at hp
      exact Option.noConfusion hp
  have hmain : ∀ (P1 : List BLine), P1.length = A1.length →
      (∀ j, eqExceptMatch (aget P1 j) (aget A1 j)) →
      (∀ j, (aget A1 j).has_match = true → (aget P1 j).has_match = true) →
      (∀ i, i < P1.length → (aget P1 i).has_match = true →
        ∀ p, (aget P1 i).parent_id = some p → (aget P1 p).has_match = true) →
      AInv fs P1 out := by
    intro P1 hPlen hPeq hPmono hmcP
    have hPp : ∀ j, (aget P1 j).parent_id = (aget A1 j).parent_id :=
      fun j => (hPeq j).1
    have hPpa : ∀ j, (aget P1 j).path = (aget A1 j).path := fun j => (hPeq j).2.1
    have hPd : ∀ j, (aget P1 j).depth = (aget A1 j).depth := fun j => (hPeq j).2.2.1
    have hPn : ∀ j, (aget P1 j).name = (aget A1 j).name := fun j => (hPeq j).2.2.2.1
    have hPch : ∀ j, (aget P1 j).children = (aget A1 j).children :=
      fun j => (hPeq j).2.2.2.2.2.1
    have hPidx : ∀ j, (aget P1 j).next_child_idx = (aget A1 j).next_child_idx :=
      fun j => (hPeq j).2.2.2.2.2.2.1
    have hPnbk : ∀ j, (aget P1 j).nb_kept_children = (aget A1 j).nb_kept_children :=
      fun j => (hPeq j).2.2.2.2.2.2.2.2.2.2.1
    refine ⟨?_, hA.zeroout, ?_, ?_, ?_, ?_, ?_, ?_, ?_, hmcP, ?_, ?_, ?_, ?_,
      hA.nodup, ?_, ?_, hPmono 0 hA1rm⟩
    · intro id hid
      rw [hPlen]
      exact lt_of_lt_of_le (houtlt id hid) hL1
    · intro j id hj p hp
      have hidm : id ∈ out := List.mem_iff_getElem?.mpr ⟨j, hj⟩
      rw [hPp, hparot id hidm] at hp
      exact hA.pclosed j id hj p hp
    · rw [hPlen]
      exact lt_of_lt_of_le hA.rootlt hL1
    · rw [hPp, hPpa, hPd, hpare 0 hA.rootlt, hpathe 0 hA.rootlt,
        hdepthe 0 hA.rootlt]
      exact hA.rootwf
    · intro i hi p hp
      rw [hPlen] at hi
      rw [hPp] at hp
      rcases hclass i hi with hio | hin
      · rw [hpare i hio] at hp
        have hpw := hA.parent_wf i hio p hp
        refine ⟨by rw [hPlen]; exact lt_of_lt_of_le hpw.1 hL1, ?_, ?_⟩
        · rw [hPd, hPd, hdepthe i hio, hdepthe p hpw.1]
          exact hpw.2.1
        · rw [hPpa, hPpa, hPn, hpathe i hio, hpathe p hpw.1, hnamee i hio]
          exact hpw.2.2
      · have hf := hcsfacts i hin
        rw [hf.1] at hp
        have hpd : p = d := (Option.some.inj hp).symm
        subst hpd
        refine ⟨by rw [hPlen]; exact lt_of_lt_of_le hdlt hL1, ?_, ?_⟩
        · rw [hPd, hPd, hf.2.2.2.2.1, hdepthe p hdlt]
        · rw [hPpa, hPpa, hPn, hf.2.2.2.2.2.1, hpathe p hdlt]
    · intro i hi hp
      rw [hPlen] at hi
      rw [hPp] at hp
      rcases hclass i hi with hio | hin
      · rw [hpare i hio] at hp
        exact hA.parent_none i hio hp
      · rw [(hcsfacts i hin).1] at hp
        exact Option.noConfusion hp
    · intro i hi cs2 hcs2
      rw [hPlen] at hi
      rw [hPch] at hcs2
      rcases hclass i hi with hio | hin
      · by_cases hid : i = d
        · subst hid
          rw [hcs] at hcs2
          have hcse : cs = cs2 := Option.some.inj hcs2
          subst hcse
          refine ⟨hcsnd, ?_⟩
          intro c hcm
          refine ⟨by rw [hPlen]; exact (hcsbound c hcm).2, ?_⟩
          rw [hPp]
          exact (hcsfacts c hcm).1
        · rw [hchilde i hio hid] at hcs2
          obtain ⟨h1, h2⟩ := hA.cwf i hio cs2 hcs2
          refine ⟨h1, ?_⟩
          intro c hcm
          have h3 := h2 c hcm
          refine ⟨by rw [hPlen]; exact lt_of_lt_of_le h3.1 hL1, ?_⟩
          rw [hPp, hpare c h3.1]
          exact h3.2
      · rw [(hcsfacts i hin).2.1] at hcs2
        exact Option.noConfusion hcs2
    · intro x hx p hp
      rw [hPlen] at hx
      rw [hPp] at hp
      rcases hclass x hx with hxo | hxn
      · rw [hpare x hxo] at hp
        obtain ⟨cs2, hcs2, hxm⟩ := hA.conv x hxo p hp
        have hplt := (hA.parent_wf x hxo p hp).1
        have hpnd : p ≠ d := by
          intro he
          subst he
          exact hnopd x hxo hp
        refine ⟨cs2, ?_, hxm⟩
        rw [hPch, hchilde p hplt hpnd]
        exact hcs2
      · have hf := hcsfacts x hxn
        rw [hf.1] at hp
        have hpd : p = d := (Option.some.inj hp).symm
        subst hpd
        exact ⟨cs, by rw [hPch]; exact hcs, hxn⟩
    · intro i hi
      rw [hPlen] at hi
      rw [hPnbk]
      rcases hclass i hi with hio | hin
      · rw [hnbe i hio]
        exact hA.nb0 i hio
      · exact (hcsfacts i hin).2.2.2.1
    · intro i hi hn
      rw [hPlen] at hi
      rw [hPch] at hn
      rw [hPidx]
      rcases hclass i hi with hio | hin
      · by_cases hid : i = d
        · subst hid
          rw [hcs] at hn
          exact Option.noConfusion hn
        · rw [hchilde i hio hid] at hn
          rw [hidxe i hio]
          exact hA.inone i hio hn
      · exact (hcsfacts i hin).2.2.1
    · intro i hi cs2 hcs2
      rw [hPlen] at hi
      rw [hPch] at hcs2
      rw [hPidx]
      rcases hclass i hi with hio | hin
      · by_cases hid : i = d
        · subst hid
          rw [hcs] at hcs2
          have hcse : cs = cs2 := Option.some.inj hcs2
          subst hcse
          have h0 : (aget arena i).next_child_idx = 0 := hA.inone i hdlt hch
          rw [hidxe i hdlt, h0]
          refine ⟨Nat.zero_le _, ?_⟩
          rw [List.take_zero]
          rw [List.filter_eq_nil_iff]
          intro a ha
          rw [hPp, hparot a ha]
          simp only [beq_iff_eq]
          exact hnopd a (houtlt a ha)
        · rw [hchilde i hio hid] at hcs2
          obtain ⟨h1, h2⟩ := hA.fp i hio cs2 hcs2
          rw [hidxe i hio]
          refine ⟨h1, ?_⟩
          rw [← h2]
          apply List.filter_congr
          intro x hx
          rw [hPp, hparot x hx]
      · rw [(hcsfacts i hin).2.1] at hcs2
        exact Option.noConfusion hcs2
    · intro i hi cs2 hcs2
      rw [hPlen] at hi
      rw [hPch] at hcs2
      rcases hclass i hi with hio | hin
      · by_cases hid : i = d
        · subst hid
          rw [hcs] at hcs2
          have hcse : cs = cs2 := Option.some.inj hcs2
          subst hcse
          refine hcssort.imp ?_
          intro a b hab
          rw [nameLe_congr A1 P1 a b (hPn a) (hPn b)]
          exact hab
        · rw [hchilde i hio hid] at hcs2
          refine (hA.sorted i hio cs2 hcs2).imp_of_mem ?_
          intro a b ha hb hab
          have halt := ((hA.cwf i hio cs2 hcs2).2 a ha).1
          have hblt := ((hA.cwf i hio cs2 hcs2).2 b hb).1
          rw [nameLe_congr arena P1 a b ((hPn a).trans (hnamee a halt))
            ((hPn b).trans (hnamee b hblt))]
          exact hab
      · rw [(hcsfacts i hin).2.1] at hcs2
        exact Option.noConfusion hcs2
    · intro c hclt hcout
      rw [hPlen] at hclt
      rw [hPch]
      rcases hclass c hclt with hco | hcn
      · have hcd : c ≠ d := fun he => hcout (he ▸ hd)
        rw [hchilde c hco hcd]
        exact hA.unloaded c hco hcout
      · exact (hcsfacts c hcn).2.1
    · intro hwf i j hi hj hpath
      rw [hPlen] at hi hj
      rw [hPpa, hPpa] at hpath
      have himposs : ∀ a b, a < arena.length → b ∈ cs →
          (aget A1 a).path = (aget A1 b).path → False := by
        intro a b halt hbcs hpp
        have hfb := hcsfacts b hbcs
        rw [hpathe a halt, hfb.2.2.2.2.2.1] at hpp
        by_cases ha0 : a = 0
        · subst ha0
          rw [hA.rootwf.2.1] at hpp
          exact absurd hpp.symm (by simp)
        · cases hpq : (aget arena a).parent_id with
          | none => exact ha0 (hA.parent_none a halt hpq)
          | some q =>
              have hpw := hA.parent_wf a halt q hpq
              rw [hpw.2.2] at hpp
              obtain ⟨hqd, _⟩ := concat_inj _ _ _ _ hpp
              have hqde : q = d := hA.pathinj hwf q d hpw.1 hdlt hqd
              subst hqde
              exact hnopd a halt hpq
      rcases hclass i hi with hio | hin <;> rcases hclass j hj with hjo | hjn
      · rw [hpathe i hio, hpathe j hjo] at hpath
        exact hA.pathinj hwf i j hio hjo hpath
      · exact (himposs i j hio hjn hpath).elim
      · exact (himposs j i hjo hin hpath.symm).elim
      · have hfi := hcsfacts i hin
        have hfj := hcsfacts j hjn
        rw [hfi.2.2.2.2.2.1, hfj.2.2.2.2.2.1] at hpath
        obtain ⟨_, hnm⟩ := concat_inj _ _ _ _ hpath
        exact hcsinj hwf i hin j hjn hnm
  by_cases hbr : lc.2 = true
  · rw [if_pos hbr] at hpr
    subst hpr
    obtain ⟨hS1, hS2, hS3, hS4⟩ :=
      promote_spec ((aget A1 d).depth + 1) A1 nb d
    have hvalid : ∀ j ∈ pchain ((aget A1 d).depth + 1) A1 d, j < A1.length :=
      fun j hj => (hsub1 ((aget A1 d).depth + 1) d hd j hj).2
    have hcompl := promote_complete ((aget A1 d).depth + 1) A1 nb d hdepthA1
      (Nat.le_refl _) hvalid
    have hclosed := pchain_closed ((aget A1 d).depth + 1) A1 d hdepthA1
      (Nat.le_refl _)
    refine ⟨hmain _ hS1 hS2 hS3 ?_, ?_, ?_, ?_, ?_⟩
    · intro i hi hm p hp
      rw [(hS2 i).1] at hp
      rw [hS1] at hi
      rcases hS4 i hm with hmA1 | hchain
      · by_cases hid : i = d
        · subst hid
          have hdch : i ∈ pchain ((aget A1 i).depth + 1) A1 i :=
            pchain_head _ A1 i (by omega)
          have hpch := hclosed i hdch p hp
          exact hcompl p hpch
        · rcases hclass i hi with hio | hin
          · have hmar : (aget arena i).has_match = true := by
              rw [← hmate i hio hid]; exact hmA1
            have hpar : (aget arena i).parent_id = some p := by
              rw [← hpare i hio]; exact hp
            have hmp := hA.mc i hio hmar p hpar
            have hplt := (hA.parent_wf i hio p hpar).1
            have hpd : p ≠ d := fun he => hnopd i hio (he ▸ hpar)
            have hmp2 : (aget A1 p).has_match = true := by
              rw [hmate p hplt hpd]; exact hmp
            exact hS3 p hmp2
          · have hf := hcsfacts i hin
            rw [hf.1] at hp
            have hpd : p = d := (Option.some.inj hp).symm
            subst hpd
            exact hS3 p (hf.2.2.2.2.2.2 hmA1)
      · have hpch := hclosed i hchain p hp
        exact hcompl p hpch
    · exact promote_count _ A1 nb d out
        (fun j hj => hsub1 _ d hd j hj) (le_trans hnb hcount1)
    · rw [hS1]; exact hL1
    · intro j hj hjd
      have he := hS2 j
      rw [hL2 j hj hjd] at he
      exact he
    · rw [(hS2 d).2.2.2.2.2.1, hcs]
      simp
  · rw [if_neg hbr] at hpr
    subst hpr
    have hbf : lc.2 = false := Bool.eq_false_iff.mpr hbr
    have hmcF : ∀ i, i < A1.length → (aget A1 i).has_match = true →
        ∀ p, (aget A1 i).parent_id = some p → (aget A1 p).has_match = true := by
      intro i hi hm p hp
      rcases hclass i hi with hio | hin
      · by_cases hid : i = d
        · rw [hid] at hm hp
          have hmar : (aget arena d).has_match = true := by
            rw [← hL5 hbf]; exact hm
          have hpar : (aget arena d).parent_id = some p := by
            rw [← hpare d hdlt]; exact hp
          have hmp := hA.mc d hdlt hmar p hpar
          have hplt := (hA.parent_wf d hdlt p hpar).1
          have hpd : p ≠ d := by
            intro he
            rw [he] at hpar
            have hdd := (hA.parent_wf d hdlt d hpar).2.1
            omega
          rw [hmate p hplt hpd]
          exact hmp
        · have hmar : (aget arena i).has_match = true := by
            rw [← hmate i hio hid]; exact hm
          have hpar : (aget arena i).parent_id = some p := by
            rw [← hpare i hio]; exact hp
          have hmp := hA.mc i hio hmar p hpar
          have hplt := (hA.parent_wf i hio p hpar).1
          have hpd : p ≠ d := fun he => hnopd i hio (he ▸ hpar)
          rw [hmate p hplt hpd]
          exact hmp
      · have hf := hcsfacts i hin
        rw [hf.1] at hp
        have hpd : p = d := (Option.some.inj hp).symm
        subst hpd
        exact hf.2.2.2.2.2.2 hm
    refine ⟨hmain A1 rfl (fun j => eqExceptMatch_refl _) (fun j h => h) hmcF,
      le_trans hnb hcount1, hL1, ?_, ?_⟩
    · intro j hj hjd
      show eqExceptMatch (aget A1 j) (aget arena j)
      rw [hL2 j hj hjd]
      exact eqExceptMatch_refl _
    · show (aget A1 d).children ≠ none
      rw [hcs]
      simp

theorem ginv_emit_step (fs : FSNode) (s : GatherState) (hG : GInv fs s)
    (od : Nat) (odrest : List Nat) (hodr : s.open_dirs = od :: odrest)
    (cs : List Nat) (hcs : (aget s.arena od).children = some cs)
    (hidx : (aget s.arena od).next_child_idx < cs.length) :
    GInv fs
      { arena := upd s.arena od
          (fun p => { p with next_child_idx := p.next_child_idx + 1 }),
        out := s.out ++ [cs.getD (aget s.arena od).next_child_idx 0],
        nb_lines_ok :=
          if (aget (upd s.arena od
              (fun p => { p with next_child_idx := p.next_child_idx + 1 }))
              (cs.getD (aget s.arena od).next_child_idx 0)).has_match = true
          then s.nb_lines_ok + 1 else s.nb_lines_ok,
        open_dirs := odrest ++ [od],
        next_level_dirs :=
          if can_enter (aget (upd s.arena od
              (fun p => { p with next_child_idx := p.next_child_idx + 1 }))
              (cs.getD (aget s.arena od).next_child_idx 0)) = true
          then s.next_level_dirs ++ [cs.getD (aget s.arena od).next_child_idx 0]
          else s.next_level_dirs,
        flag := s.flag, iter := s.iter + 1, polls := s.polls } := by
  have hodm : od ∈ s.open_dirs := by rw [hodr]; exact List.mem_cons_self _ _
  have hodo : od ∈ s.out := hG.opensub od hodm
  obtain ⟨hAI, hcno, hclt, hcpar, hcch⟩ :=
    ainv_emit fs s.arena s.out hG.ainv od hodo cs hcs hidx
      (cs.getD (aget s.arena od).next_child_idx 0) rfl
  set c := cs.getD (aget s.arena od).next_child_idx 0 with hcdef
  set arena2 := upd s.arena od
    (fun p => { p with next_child_idx := p.next_child_idx + 1 }) with ha2
  have hch2 : ∀ i, (aget arena2 i).children = (aget s.arena i).children :=
    fun i => aget_upd_field s.arena od i _ BLine.children (fun x => rfl)
  have hhm2 : ∀ i, (aget arena2 i).has_match = (aget s.arena i).has_match :=
    fun i => aget_upd_field s.arena od i _ BLine.has_match (fun x => rfl)
  refine ⟨hAI, ?_, ?_, ?_, ?_, ?_, ?_⟩
  · intro id hid
    rcases List.mem_append.mp hid with h1 | h1
    · exact List.mem_append_left _
        (hG.opensub id (by rw [hodr]; exact List.mem_cons_of_mem _ h1))
    · rw [List.mem_singleton.mp h1]
      exact List.mem_append_left _ hodo
  · intro id hid
    dsimp only at hid
    split at hid
    · rcases List.mem_append.mp hid with h1 | h1
      · exact List.mem_append_left _ (hG.nextsub id h1)
      · rw [List.mem_singleton.mp h1]
        exact List.mem_append_right _ (List.mem_singleton.mpr rfl)
    · exact List.mem_append_left _ (hG.nextsub id hid)
  · dsimp only
    split
    · refine nodup_concat _ _ hG.nlnodup ?_
      intro hin
      exact hcno (hG.nextsub c hin)
    · exact hG.nlnodup
  · intro id hid
    dsimp only at hid
    rw [hch2]
    split at hid
    · rcases List.mem_append.mp hid with h1 | h1
      · exact hG.nlnone id h1
      · rw [List.mem_singleton.mp h1]
        exact hcch
    · exact hG.nlnone id hid
  · intro id hid
    rw [hch2]
    rcases List.mem_append.mp hid with h1 | h1
    · exact hG.openloaded id (by rw [hodr]; exact List.mem_cons_of_mem _ h1)
    · rw [List.mem_singleton.mp h1]
      exact hG.openloaded od hodm
  · dsimp only
    rw [countMatching_append,
      countMatching_congr s.arena arena2 s.out (fun id _ => hhm2 id)]
    by_cases hm : (aget arena2 c).has_match = true
    · rw [if_pos hm, if_pos hm]
      exact Nat.add_le_add_right hG.nble 1
    · rw [if_neg hm, if_neg hm]
      have := hG.nble
      omega

theorem ginv_drain (fs : FSNode) :
    ∀ (fuel : Nat) (s : GatherState), GInv fs s →
    GInv fs (drain_loop fuel s) ∧
    (drain_loop fuel s).nb_lines_ok = s.nb_lines_ok ∧
    (drain_loop fuel s).flag = s.flag := by
  intro fuel
  induction fuel with
  | zero => intro s hG; exact ⟨hG, rfl, rfl⟩
  | succ n ih =>
      intro s hG
      cases hcsx : (aget s.arena 0).children with
      | none =>
          have hnc : next_child s.arena 0 = (s.arena, none) := by
            unfold next_child
            dsimp only
            rw [hcsx]
          have heq : drain_loop (n + 1) s = { s with arena := s.arena } := by
            unfold drain_loop
            rw [hnc]
          rw [heq]
          exact ⟨hG, rfl, rfl⟩
      | some cs =>
          by_cases hidx : (aget s.arena 0).next_child_idx < cs.length
          · have hnc := next_child_some s.arena 0 cs hcsx hidx
            have heq : drain_loop (n + 1) s = drain_loop n
                { s with
                    out := s.out ++ [cs.getD (aget s.arena 0).next_child_idx 0],
                    arena := upd s.arena 0 (fun p => { p with next_child_idx := p.next_child_idx + 1 }) } := by
              conv_lhs => unfold drain_loop
              rw [hnc]
            rw [heq]
            obtain ⟨hAI, hcno, hclt, hcpar, hcch⟩ :=
              ainv_emit fs s.arena s.out hG.ainv 0 hG.ainv.zeroout cs hcsx hidx
                (cs.getD (aget s.arena 0).next_child_idx 0) rfl
            have hch2 : ∀ i, (aget (upd s.arena 0
                (fun p => { p with next_child_idx := p.next_child_idx + 1 })) i).children
                = (aget s.arena i).children :=
              fun i => aget_upd_field s.arena 0 i _ BLine.children (fun x => rfl)
            have hhm2 : ∀ i, (aget (upd s.arena 0
                (fun p => { p with next_child_idx := p.next_child_idx + 1 })) i).has_match
                = (aget s.arena i).has_match :=
              fun i => aget_upd_field s.arena 0 i _ BLine.has_match (fun x => rfl)
            have hGmid : GInv fs
                { s with
                    out := s.out ++ [cs.getD (aget s.arena 0).next_child_idx 0],
                    arena := upd s.arena 0 (fun p => { p with next_child_idx := p.next_child_idx + 1 }) } := by
              refine ⟨hAI, ?_, ?_, hG.nlnodup, ?_, ?_, ?_⟩
              · intro id hid
                exact List.mem_append_left _ (hG.opensub id hid)
              · intro id hid
                exact List.mem_append_left _ (hG.nextsub id hid)
              · intro id hid
                rw [hch2]
                exact hG.nlnone id hid
              · intro id hid
                rw [hch2]
                exact hG.openloaded id hid
              · dsimp only
                rw [countMatching_append,
                  countMatching_congr s.arena _ s.out (fun id _ => hhm2 id)]
                have := hG.nble
                split <;> omega
            obtain ⟨h1, h2, h3⟩ := ih _ hGmid
            exact ⟨h1, h2, h3⟩
          · have hnc := next_child_none s.arena 0 cs hcsx hidx
            have heq : drain_loop (n + 1) s = { s with arena := s.arena } := by
              unfold drain_loop
              rw [hnc]
            rw [heq]
            exact ⟨hG, rfl, rfl⟩

theorem ginv_deepen (env : BuildEnv) (opts : TreeOptionsM) (fs : FSNode)
    (tko : TimeOracle) :
    ∀ (ds : List Nat) (s : GatherState), GInv fs s →
    s.next_level_dirs = [] →
    (∀ d ∈ ds, d ∈ s.out ∧ (aget s.arena d).children = none) →
    ds.Nodup →
    ∀ s2, deepen env opts fs tko ds s = some s2 →
    GInv fs s2 ∧ s2.out = s.out ∧ s2.next_level_dirs = [] ∧ s2.flag = s.flag := by
  intro ds
  induction ds with
  | nil =>
      intro s hG hemp _ _ s2 h2
      unfold deepen at h2
      rw [← Option.some.inj h2]
      exact ⟨hG, rfl, hemp, rfl⟩
  | cons d rest ih =>
      intro s hG hemp hds hnd s2 h2
      by_cases hdam : tko.dam s.polls = true
      · unfold deepen at h2
        rw [if_pos hdam] at h2
        exact Option.noConfusion h2
      · have hdo : d ∈ s.out := (hds d (List.mem_cons_self _ _)).1
        have hdch : (aget s.arena d).children = none :=
          (hds d (List.mem_cons_self _ _)).2
        set lc := load_children env opts fs s.arena d with hlcdef
        set prv := (if lc.2 = true then
            promote ((aget lc.1 d).depth + 1) lc.1 s.nb_lines_ok d
          else (lc.1, s.nb_lines_ok)) with hprdef
        have hstep : deepen env opts fs tko (d :: rest) s =
            deepen env opts fs tko rest
              { s with
                  polls := s.polls + 1,
                  arena := prv.1,
                  nb_lines_ok := prv.2,
                  open_dirs := s.open_dirs ++ [d] } := by
          conv_lhs => unfold deepen
          rw [if_neg hdam]
        rw [hstep] at h2
        obtain ⟨hAI, hnb2, hlen2, heqs, hchd⟩ :=
          ainv_load_promote env opts fs s.arena s.out d s.nb_lines_ok hG.ainv
            hdo hdch hG.nble lc hlcdef.symm prv hprdef
        have hGmid : GInv fs
            { s with
                polls := s.polls + 1,
                arena := prv.1,
                nb_lines_ok := prv.2,
                open_dirs := s.open_dirs ++ [d] } := by
          refine ⟨hAI, ?_, ?_, ?_, ?_, ?_, hnb2⟩
          · intro id hid
            rcases List.mem_append.mp hid with h1 | h1
            · exact hG.opensub id h1
            · rw [List.mem_singleton.mp h1]
              exact hdo
          · intro id hid
            dsimp only at hid
            rw [hemp] at hid
            exact absurd hid (List.not_mem_nil id)
          · dsimp only
            rw [hemp]
            exact List.nodup_nil
          · intro id hid
            dsimp only at hid
            rw [hemp] at hid
            exact absurd hid (List.not_mem_nil id)
          · intro id hid
            rcases List.mem_append.mp hid with h1 | h1
            · have hne : id ≠ d := by
                intro he
                exact (hG.openloaded id h1) (by rw [he]; exact hdch)
              have hlt : id < s.arena.length :=
                hG.ainv.outv id (hG.opensub id h1)
              have he2 := heqs id hlt hne
              rw [he2.2.2.2.2.2.1]
              exact hG.openloaded id h1
            · rw [List.mem_singleton.mp h1]
              exact hchd
        obtain ⟨hg2, ho2, hn2, hf2⟩ := ih _ hGmid hemp
          (by
            intro d2 hd2
            have h3 := hds d2 (List.mem_cons_of_mem _ hd2)
            refine ⟨h3.1, ?_⟩
            have hne : d2 ≠ d := by
              intro he
              rw [he] at hd2
              exact (List.nodup_cons.mp hnd).1 hd2
            have hlt : d2 < s.arena.length := hG.ainv.outv d2 h3.1
            have he2 := heqs d2 hlt hne
            rw [he2.2.2.2.2.2.1]
            exact h3.2)
          (List.nodup_cons.mp hnd).2 s2 h2
        exact ⟨hg2, ho2, hn2, hf2⟩

theorem ginv_loop (env : BuildEnv) (opts : TreeOptionsM) (fs : FSNode)
    (targeted optimal : Nat) (ts : Bool) (tko : TimeOracle) :
    ∀ (fuel : Nat) (s s2 : GatherState), GInv fs s →
    gatherLoop env opts fs targeted optimal ts tko fuel s = some (some s2) →
    GInv fs s2 ∧ (s2.flag = false → s.flag = false ∨
      targeted ≤ s2.nb_lines_ok ∨ optimal < s2.nb_lines_ok) := by
  intro fuel
  induction fuel with
  | zero =>
      intro s s2 _ h
      exact Option.noConfusion h
  | succ n ih =>
      intro s s2 hG h
      unfold gatherLoop at h
      by_cases hbrk : (!ts && (decide (s.nb_lines_ok > optimal)
          || (decide (s.nb_lines_ok ≥ targeted) && tko.not_long s.iter))) = true
      · rw [if_pos hbrk] at h
        have hs2 : s2 = { s with flag := false } :=
          (Option.some.inj (Option.some.inj h)).symm
        subst hs2
        refine ⟨⟨hG.ainv, hG.opensub, hG.nextsub, hG.nlnodup, hG.nlnone,
          hG.openloaded, hG.nble⟩, ?_⟩
        intro _
        right
        simp only [Bool.and_eq_true, Bool.or_eq_true, decide_eq_true_eq] at hbrk
        rcases hbrk.2 with h1 | h2
        · right; exact h1
        · left; exact h2.1
      · rw [if_neg hbrk] at h
        cases hod : s.open_dirs with
        | cons od odrest =>
            rw [hod] at h
            dsimp only at h
            have hodm : od ∈ s.open_dirs := by
              rw [hod]; exact List.mem_cons_self _ _
            cases hcsx : (aget s.arena od).children with
            | none => exact absurd hcsx (hG.openloaded od hodm)
            | some cs =>
                by_cases hidx : (aget s.arena od).next_child_idx < cs.length
                · have hnc := next_child_some s.arena od cs hcsx hidx
                  rw [hnc] at h
                  dsimp only at h
                  have hGs := ginv_emit_step fs s hG od odrest hod cs hcsx hidx
                  obtain ⟨hg2, hf2⟩ := ih _ s2 hGs h
                  refine ⟨hg2, ?_⟩
                  intro hff
                  rcases hf2 hff with h1 | h1
                  · left; exact h1
                  · right; exact h1
                · have hnc := next_child_none s.arena od cs hcsx hidx
                  rw [hnc] at h
                  dsimp only at h
                  have hGn : GInv fs
                      { s with
                          arena := s.arena,
                          open_dirs := odrest,
                          iter := s.iter + 1 } :=
                    ⟨hG.ainv,
                     fun id hid => hG.opensub id
                       (by rw [hod]; exact List.mem_cons_of_mem _ hid),
                     hG.nextsub, hG.nlnodup, hG.nlnone,
                     fun id hid => hG.openloaded id
                       (by rw [hod]; exact List.mem_cons_of_mem _ hid),
                     hG.nble⟩
                  obtain ⟨hg2, hf2⟩ := ih _ s2 hGn h
                  exact ⟨hg2, fun hff => hf2 hff⟩
        | nil =>
            rw [hod] at h
            dsimp only at h
            by_cases hss : opts.sort_some = true
            · rw [if_pos hss] at h
              have hs2 : s2 = s := (Option.some.inj (Option.some.inj h)).symm
              subst hs2
              exact ⟨hG, fun hff => Or.inl hff⟩
            · rw [if_neg hss] at h
              by_cases hemp : s.next_level_dirs.isEmpty = true
              · rw [if_pos hemp] at h
                have hs2 : s2 = s := (Option.some.inj (Option.some.inj h)).symm
                subst hs2
                exact ⟨hG, fun hff => Or.inl hff⟩
              · rw [if_neg hemp] at h
                by_cases hlim : tko.limit_hit s.iter = true
                · rw [if_pos hlim] at h
                  have hs2 : s2 = s := (Option.some.inj (Option.some.inj h)).symm
                  subst hs2
                  exact ⟨hG, fun hff => Or.inl hff⟩
                · rw [if_neg hlim] at h
                  cases hdp : deepen env opts fs tko s.next_level_dirs
                      { s with open_dirs := [], next_level_dirs := [] } with
                  | none =>
                      rw [hdp] at h
                      exact Option.noConfusion (Option.some.inj h)
                  | some s3 =>
                      rw [hdp] at h
                      have hGmid : GInv fs
                          { s with open_dirs := [], next_level_dirs := [] } :=
                        ⟨hG.ainv,
                         fun id hid => absurd hid (List.not_mem_nil id),
                         fun id hid => absurd hid (List.not_mem_nil id),
                         List.nodup_nil,
                         fun id hid => absurd hid (List.not_mem_nil id),
                         fun id hid => absurd hid (List.not_mem_nil id),
                         hG.nble⟩
                      obtain ⟨hg3, ho3, hn3, hf3⟩ :=
                        ginv_deepen env opts fs tko s.next_level_dirs _ hGmid rfl
                          (fun d hd => ⟨hG.nextsub d hd, hG.nlnone d hd⟩)
                          hG.nlnodup s3 hdp
                      have hG4 : GInv fs { s3 with iter := s3.iter + 1 } :=
                        ⟨hg3.ainv, hg3.opensub, hg3.nextsub, hg3.nlnodup,
                         hg3.nlnone, hg3.openloaded, hg3.nble⟩
                      obtain ⟨hg2, hf2⟩ := ih _ s2 hG4 h
                      refine ⟨hg2, ?_⟩
                      intro hff
                      rcases hf2 hff with h1 | h1
                      · left
                        rw [← hf3]
                        exact h1
                      · right; exact h1

theorem gather_inv (env : BuildEnv) (opts : TreeOptionsM) (fs : FSNode)
    (targeted : Nat) (ts : Bool) (tko : TimeOracle) (fuel : Nat) (s : GatherState)
    (h : gather_lines env opts fs targeted ts tko fuel = some (some s)) :
    GInv fs s ∧ (s.flag = false →
      targeted ≤ s.nb_lines_ok ∨ optimalSize env targeted < s.nb_lines_ok) := by
  unfold gather_lines at h
  dsimp only at h
  set lc := load_children env opts fs [rootBLine fs] 0 with hlcdef
  obtain ⟨hL1x, hL2x, hL3x, hL4x, hL5x, hL6x, csx, hcsx, hrest⟩ :=
    load_children_spec env opts fs [rootBLine fs] 0 (by simp) lc hlcdef.symm
  have hpr : ∀ pr : List BLine × Nat, pr = (if lc.2 = true then
      promote ((aget lc.1 0).depth + 1) lc.1 1 0 else (lc.1, 1)) →
      pr = (lc.1, 1) := by
    intro pr hp
    by_cases hb2 : lc.2 = true
    · rw [if_pos hb2] at hp
      have hd0 : (aget lc.1 0).depth = 0 := by
        rw [hL3x.2.2.1]
        rfl
      rw [hd0] at hp
      rw [promote_root_id 0 lc.1 1 0 (hL6x hb2) (by rw [hL3x.1]; rfl)] at hp
      exact hp
    · rw [if_neg hb2] at hp
      exact hp
  obtain ⟨hAI, hnb1, hlen1, heqs1, hchd1⟩ :=
    ainv_load_promote env opts fs [rootBLine fs] [0] 0 1 (ainv_init fs)
      (List.mem_singleton.mpr rfl) rfl (Nat.le_of_eq rfl) lc hlcdef.symm
      (if lc.2 = true then promote ((aget lc.1 0).depth + 1) lc.1 1 0
       else (lc.1, 1)) rfl
  have hpreq := hpr _ rfl
  rw [hpreq] at hAI hnb1 hchd1
  have hInit : GInv fs
      { arena := lc.1, out := [0], nb_lines_ok := 1, open_dirs := [0],
        next_level_dirs := [], flag := true, iter := 0, polls := 0 } := by
    refine ⟨hAI, ?_, ?_, List.nodup_nil, ?_, ?_, hnb1⟩
    · intro id hid
      exact hid
    · intro id hid
      exact absurd hid (List.not_mem_nil id)
    · intro id hid
      exact absurd hid (List.not_mem_nil id)
    · intro id hid
      rw [List.mem_singleton.mp hid]
      exact hchd1
  cases hloop : gatherLoop env opts fs targeted (optimalSize env targeted) ts tko
      fuel { arena := lc.1, out := [0], nb_lines_ok := 1, open_dirs := [0],
             next_level_dirs := [], flag := true, iter := 0, polls := 0 } with
  | none =>
      rw [hloop] at h
      exact Option.noConfusion h
  | some o =>
      cases o with
      | none =>
          rw [hloop] at h
          exact Option.noConfusion (Option.some.inj h)
      | some s1 =>
          rw [hloop] at h
          dsimp only at h
          obtain ⟨hG1, hflag1⟩ := ginv_loop env opts fs targeted
            (optimalSize env targeted) ts tko fuel _ s1 hInit hloop
          by_cases htr : (!trimRoot env opts) = true
          · rw [if_pos htr] at h
            have hs : s = drainRoot s1 :=
              (Option.some.inj (Option.some.inj h)).symm
            subst hs
            obtain ⟨hG2, hnb2, hflag2⟩ :=
              ginv_drain fs (((aget s1.arena 0).children.getD []).length) s1 hG1
            refine ⟨hG2, ?_⟩
            intro hff
            have hf1 : s1.flag = false := by
              rw [← hflag2]
              exact hff
            rcases hflag1 hf1 with h1 | h1
            · exact absurd h1 (by simp)
            · have hnbd : (drainRoot s1).nb_lines_ok = s1.nb_lines_ok := hnb2
              rw [hnbd]
              exact h1
          · rw [if_neg htr] at h
            have hs : s = s1 := (Option.some.inj (Option.some.inj h)).symm
            subst hs
            refine ⟨hG1, ?_⟩
            intro hff
            rcases hflag1 hff with h1 | h1
            · exact absurd h1 (by simp)
            · exact h1

/-! ## Helper lemmas: the trim phase -/

theorem eqStatic_refl (a : BLine) : eqStatic a a :=
  ⟨rfl, rfl, rfl, rfl, rfl, rfl, rfl, rfl, rfl, rfl⟩

theorem eqStatic_trans (a b c : BLine) (h1 : eqStatic a b) (h2 : eqStatic b c) :
    eqStatic a c := by
  obtain ⟨x1, x2, x3, x4, x5, x6, x7, x8, x9, x10⟩ := h1
  obtain ⟨y1, y2, y3, y4, y5, y6, y7, y8, y9, y10⟩ := h2
  exact ⟨x1.trans y1, x2.trans y2, x3.trans y3, x4.trans y4, x5.trans y5,
    x6.trans y6, x7.trans y7, x8.trans y8, x9.trans y9, x10.trans y10⟩

theorem eqStatic_upd (arena : List BLine) (j : Nat) (g : BLine → BLine)
    (h1 : ∀ b, (g b).parent_id = b.parent_id)
    (h2 : ∀ b, (g b).path = b.path)
    (h3 : ∀ b, (g b).depth = b.depth)
    (h4 : ∀ b, (g b).name = b.name)
    (h5 : ∀ b, (g b).ftype = b.ftype)
    (h6 : ∀ b, (g b).children = b.children)
    (h7 : ∀ b, (g b).has_error = b.has_error)
    (h8 : ∀ b, (g b).direct_match = b.direct_match)
    (h9 : ∀ b, (g b).score = b.score)
    (h10 : ∀ b, (g b).special_handling = b.special_handling) :
    ∀ i, eqStatic (aget (upd arena j g) i) (aget arena i) :=
  fun i => ⟨aget_upd_field arena j i g BLine.parent_id h1,
    aget_upd_field arena j i g BLine.path h2,
    aget_upd_field arena j i g BLine.depth h3,
    aget_upd_field arena j i g BLine.name h4,
    aget_upd_field arena j i g BLine.ftype h5,
    aget_upd_field arena j i g BLine.children h6,
    aget_upd_field arena j i g BLine.has_error h7,
    aget_upd_field arena j i g BLine.direct_match h8,
    aget_upd_field arena j i g BLine.score h9,
    aget_upd_field arena j i g BLine.special_handling h10⟩

theorem countP_congr_mem (l : List Nat) (f g : Nat → Bool)
    (h : ∀ x ∈ l, f x = g x) : l.countP f = l.countP g := by
  induction l with
  | nil => rfl
  | cons a t ih =>
      rw [List.countP_cons, List.countP_cons, h a (List.mem_cons_self _ _),
        ih (fun x hx => h x (List.mem_cons_of_mem _ hx))]

theorem countP_pos_of_mem (l : List Nat) (x : Nat) (hx : x ∈ l) (f : Nat → Bool)
    (hf : f x = true) : 0 < l.countP f := by
  obtain ⟨s, t, rfl⟩ := List.append_of_mem hx
  rw [List.countP_append, List.countP_cons, hf]
  simp

theorem countP_flip_once (l : List Nat) (hnd : l.Nodup) (x : Nat) (hx : x ∈ l)
    (f g : Nat → Bool) (hfx : f x = true) (hgx : g x = false)
    (hfg : ∀ y, y ≠ x → f y = g y) : l.countP g + 1 = l.countP f := by
  obtain ⟨s, t, rfl⟩ := List.append_of_mem hx
  have hnds := hnd
  rw [List.nodup_append] at hnds
  have hxns : x ∉ s := fun hxs => (hnds.2.2 hxs) (List.mem_cons_self _ _)
  have hxnt : x ∉ t := (List.nodup_cons.mp hnds.2.1).1
  rw [List.countP_append, List.countP_append, List.countP_cons, List.countP_cons,
    hfx, hgx]
  have hs : s.countP f = s.countP g :=
    countP_congr_mem s f g (fun y hy => hfg y (fun he => hxns (he ▸ hy)))
  have ht : t.countP f = t.countP g :=
    countP_congr_mem t f g (fun y hy => hfg y (fun he => hxnt (he ▸ hy)))
  rw [hs, ht]
  have hone : (if (true : Bool) = true then 1 else 0) = 1 := rfl
  have hzero : (if (false : Bool) = true then 1 else 0) = 0 := rfl
  rw [hone, hzero]
  omega

theorem out_head_zero (fs : FSNode) (arena0 : List BLine) (out : List Nat)
    (hA : AInv fs arena0 out) : out[0]? = some 0 := by
  have hz := hA.zeroout
  cases ho : out with
  | nil =>
      rw [ho] at hz
      exact absurd hz (List.not_mem_nil 0)
  | cons a t =>
      have h0 : out[0]? = some a := by
        rw [ho]
        exact List.getElem?_cons_zero
      cases hpq : (aget arena0 a).parent_id with
      | none =>
          have halt : a < arena0.length :=
            hA.outv a (by rw [ho]; exact List.mem_cons_self _ _)
          have ha0 := hA.parent_none a halt hpq
          rw [List.getElem?_cons_zero, ha0]
      | some p =>
          obtain ⟨i, hi, _⟩ := hA.pclosed 0 a h0 p hpq
          omega

theorem mem_drop_one (out : List Nat) (h0 : out[0]? = some 0) (x : Nat)
    (hx : x ∈ out) (hxne : x ≠ 0) : x ∈ out.drop 1 := by
  cases out with
  | nil => exact absurd hx (List.not_mem_nil x)
  | cons a t =>
      have ha : a = 0 := by
        rw [List.getElem?_cons_zero] at h0
        exact Option.some.inj h0
      rcases List.mem_cons.mp hx with h | h
      · exact absurd (h.trans ha) hxne
      · simpa using h

theorem nodup_all_eq (l : List Nat) (hnd : l.Nodup) (c : Nat)
    (h : ∀ x ∈ l, x = c) : l.length ≤ 1 := by
  cases l with
  | nil => simp
  | cons a t =>
      cases t with
      | nil => simp
      | cons b u =>
          have ha := h a (List.mem_cons_self _ _)
          have hb := h b (List.mem_cons_of_mem _ (List.mem_cons_self _ _))
          rw [List.nodup_cons] at hnd
          have hab : a = b := ha.trans hb.symm
          exact absurd (hab ▸ List.mem_cons_self b u) hnd.1

theorem matched_root_child (fs : FSNode) (arena0 : List BLine) (out : List Nat)
    (hA : AInv fs arena0 out) (arena : List BLine)
    (hpar : ∀ i, (aget arena i).parent_id = (aget arena0 i).parent_id)
    (hmc : ∀ i ∈ out, (aget arena i).has_match = true →
      ∀ p, (aget arena i).parent_id = some p → (aget arena p).has_match = true) :
    ∀ n x, (aget arena0 x).depth ≤ n → x ∈ out →
      (aget arena x).has_match = true → x ≠ 0 →
      ∃ a, a ∈ out ∧ a ≠ 0 ∧ (aget arena a).has_match = true ∧
        (aget arena a).parent_id = some 0 := by
  intro n
  induction n with
  | zero =>
      intro x hd hxo hxm hx0
      have hxlt := hA.outv x hxo
      cases hpq : (aget arena0 x).parent_id with
      | none => exact absurd (hA.parent_none x hxlt hpq) hx0
      | some p =>
          have := (hA.parent_wf x hxlt p hpq).2.1
          omega
  | succ n ih =>
      intro x hd hxo hxm hx0
      have hxlt := hA.outv x hxo
      cases hpq : (aget arena0 x).parent_id with
      | none => exact absurd (hA.parent_none x hxlt hpq) hx0
      | some p =>
          have hpx : (aget arena x).parent_id = some p := by
            rw [hpar]; exact hpq
          by_cases hp0 : p = 0
          · exact ⟨x, hxo, hx0, hxm, by rw [hpx, hp0]⟩
          · have hpm := hmc x hxo hxm p hpx
            obtain ⟨j, hj⟩ := List.mem_iff_getElem?.mp hxo
            obtain ⟨i, _, hival⟩ := hA.pclosed j x hj p hpq
            have hpo : p ∈ out := List.mem_iff_getElem?.mpr ⟨i, hival⟩
            have hdp := (hA.parent_wf x hxlt p hpq).2.1
            exact ih p (by omega) hpo hpm hp0

theorem popWorst_spec : ∀ (q : List (Nat × Int)) (m : Nat × Int)
    (rest : List (Nat × Int)), popWorst q = some (m, rest) →
    q.Perm (m :: rest) := by
  intro q
  induction q with
  | nil =>
      intro m rest h
      exact Option.noConfusion h
  | cons x xs ih =>
      intro m rest h
      unfold popWorst at h
      cases hp : popWorst xs with
      | none =>
          rw [hp] at h
          dsimp only at h
          injection h with h2
          injection h2 with hma hmr
          rw [← hma, ← hmr]
          cases hxs : xs with
          | nil =>
              exact List.Perm.refl _
          | cons y ys =>
              rw [hxs] at hp
              unfold popWorst at hp
              cases hw : popWorst ys with
              | none =>
                  rw [hw] at hp
                  exact Option.noConfusion hp
              | some pr3 =>
                  obtain ⟨m3, r3⟩ := pr3
                  rw [hw] at hp
                  dsimp only at hp
                  split at hp <;> exact Option.noConfusion hp
      | some pr2 =>
          obtain ⟨m2, rest2⟩ := pr2
          rw [hp] at h
          dsimp only at h
          by_cases hle : x.2 ≤ m2.2
          · rw [if_pos hle] at h
            injection h with h2
            injection h2 with hma hmr
            rw [← hma, ← hmr]
          · rw [if_neg hle] at h
            injection h with h2
            injection h2 with hma hmr
            rw [← hma, ← hmr]
            exact ((ih m2 rest2 hp).cons x).trans (List.Perm.swap m2 x rest2)

theorem trim_pass1_spec : ∀ (l : List Nat) (arena : List BLine) (n : Nat),
    (∀ id ∈ l, (aget arena id).has_match = true →
      ∃ p, (aget arena id).parent_id = some p ∧ p < arena.length) →
    (trim_pass1 arena l n).1.length = arena.length ∧
    (trim_pass1 arena l n).2 = n + l.countP (fun id => (aget arena id).has_match) ∧
    (∀ i, (aget (trim_pass1 arena l n).1 i).has_match = (aget arena i).has_match) ∧
    (∀ i, eqStatic (aget (trim_pass1 arena l n).1 i) (aget arena i)) ∧
    (∀ i, (aget (trim_pass1 arena l n).1 i).next_child_idx =
      (aget arena i).next_child_idx) ∧
    (∀ q, (aget (trim_pass1 arena l n).1 q).nb_kept_children =
      (aget arena q).nb_kept_children +
        l.countP (fun id => (aget arena id).has_match &&
          ((aget arena id).parent_id == some q))) := by
  intro l
  induction l with
  | nil =>
      intro arena n _
      refine ⟨rfl, rfl, fun i => rfl, fun i => eqStatic_refl _, fun i => rfl, ?_⟩
      intro q
      rfl
  | cons id rest ih =>
      intro arena n hpar
      by_cases hm : (aget arena id).has_match = true
      · obtain ⟨p, hp, hplt⟩ := hpar id (List.mem_cons_self _ _) hm
        have hstep : trim_pass1 arena (id :: rest) n =
            trim_pass1 (upd arena p (fun b => { b with nb_kept_children := b.nb_kept_children + 1 })) rest (n + 1) := by
          conv_lhs => unfold trim_pass1
          rw [if_pos hm, hp]
          rfl
        rw [hstep]
        set arena1 := upd arena p
          (fun b => { b with nb_kept_children := b.nb_kept_children + 1 }) with ha1
        have hst1 : ∀ i, eqStatic (aget arena1 i) (aget arena i) :=
          eqStatic_upd arena p
            (fun b => { b with nb_kept_children := b.nb_kept_children + 1 })
            (fun b => rfl) (fun b => rfl) (fun b => rfl)
            (fun b => rfl) (fun b => rfl) (fun b => rfl) (fun b => rfl)
            (fun b => rfl) (fun b => rfl) (fun b => rfl)
        have hm1 : ∀ i, (aget arena1 i).has_match = (aget arena i).has_match :=
          fun i => aget_upd_field arena p i _ BLine.has_match (fun b => rfl)
        have hpar1 : ∀ i, (aget arena1 i).parent_id = (aget arena i).parent_id :=
          fun i => aget_upd_field arena p i _ BLine.parent_id (fun b => rfl)
        have hidx1 : ∀ i, (aget arena1 i).next_child_idx = (aget arena i).next_child_idx :=
          fun i => aget_upd_field arena p i _ BLine.next_child_idx (fun b => rfl)
        have hlen1 : arena1.length = arena.length := upd_length _ _ _
        obtain ⟨ih1, ih2, ih3, ih4, ih5, ih6⟩ := ih arena1 (n + 1)
          (by
            intro id2 hid2 hm2
            rw [hm1] at hm2
            obtain ⟨p2, hp2, hp2lt⟩ := hpar id2 (List.mem_cons_of_mem _ hid2) hm2
            exact ⟨p2, by rw [hpar1]; exact hp2, by rw [hlen1]; exact hp2lt⟩)
        have hceq : rest.countP (fun id2 => (aget arena1 id2).has_match)
            = rest.countP (fun id2 => (aget arena id2).has_match) :=
          countP_congr_mem _ _ _ (fun x _ => by rw [hm1])
        have hceq2 : ∀ q, rest.countP (fun id2 => (aget arena1 id2).has_match
              && ((aget arena1 id2).parent_id == some q))
            = rest.countP (fun id2 => (aget arena id2).has_match
              && ((aget arena id2).parent_id == some q)) :=
          fun q => countP_congr_mem _ _ _ (fun x _ => by rw [hm1, hpar1])
        refine ⟨by rw [ih1, hlen1], ?_, ?_, ?_, ?_, ?_⟩
        · rw [ih2, hceq, List.countP_cons]
          simp only [hm, if_true]
          omega
        · intro i
          rw [ih3, hm1]
        · intro i
          exact eqStatic_trans _ _ _ (ih4 i) (hst1 i)
        · intro i
          rw [ih5, hidx1]
        · intro q
          rw [ih6 q, hceq2 q, List.countP_cons]
          by_cases hqp : q = p
          · subst hqp
            have hnbq : (aget arena1 q).nb_kept_children =
                (aget arena q).nb_kept_children + 1 := by
              rw [ha1, aget_upd_self _ _ _ hplt]
            rw [hnbq]
            have hpred : ((aget arena id).has_match
                && ((aget arena id).parent_id == some q)) = true := by
              rw [hm, hp]
              simp
            rw [hpred]
            simp only [if_true]
            omega
          · have hnbq : (aget arena1 q).nb_kept_children =
                (aget arena q).nb_kept_children := by
              rw [ha1, aget_upd_ne _ _ _ _ (fun he => hqp he)]
            have hpred : ((aget arena id).has_match
                && ((aget arena id).parent_id == some q)) = false := by
              rw [hp]
              simp only [Bool.and_eq_false_iff, beq_eq_false_iff_ne, ne_eq,
                Option.some.injEq]
              right
              exact fun he => hqp he.symm
            rw [hnbq, hpred]
            simp
      · have hstep : trim_pass1 arena (id :: rest) n = trim_pass1 arena rest n := by
          conv_lhs => unfold trim_pass1
          rw [if_neg hm]
        rw [hstep]
        obtain ⟨ih1, ih2, ih3, ih4, ih5, ih6⟩ := ih arena n
          (fun id2 hid2 => hpar id2 (List.mem_cons_of_mem _ hid2))
        have hmf : (aget arena id).has_match = false := Bool.eq_false_iff.mpr hm
        refine ⟨ih1, ?_, ih3, ih4, ih5, ?_⟩
        · rw [ih2, List.countP_cons, hmf]
          simp
        · intro q
          rw [ih6, List.countP_cons, hmf]
          simp

theorem trim_pass1_static : ∀ (l : List Nat) (arena : List BLine) (n : Nat),
    (trim_pass1 arena l n).1.length = arena.length ∧
    (∀ i, eqStatic (aget (trim_pass1 arena l n).1 i) (aget arena i)) := by
  intro l
  induction l with
  | nil => intro arena n; exact ⟨rfl, fun i => eqStatic_refl _⟩
  | cons id rest ih =>
      intro arena n
      by_cases hm : (aget arena id).has_match = true
      · have hstep : trim_pass1 arena (id :: rest) n =
            trim_pass1 (upd arena ((aget arena id).parent_id.getD 0) (fun b => { b with nb_kept_children := b.nb_kept_children + 1 })) rest (n + 1) := by
          conv_lhs => unfold trim_pass1
          rw [if_pos hm]
        rw [hstep]
        obtain ⟨ih1, ih2⟩ := ih (upd arena ((aget arena id).parent_id.getD 0)
          (fun b => { b with nb_kept_children := b.nb_kept_children + 1 })) (n + 1)
        refine ⟨by rw [ih1, upd_length], ?_⟩
        intro i
        refine eqStatic_trans _ _ _ (ih2 i) ?_
        exact eqStatic_upd arena ((aget arena id).parent_id.getD 0)
          (fun b => { b with nb_kept_children := b.nb_kept_children + 1 })
          (fun b => rfl) (fun b => rfl) (fun b => rfl)
          (fun b => rfl) (fun b => rfl) (fun b => rfl) (fun b => rfl)
          (fun b => rfl) (fun b => rfl) (fun b => rfl) i
      · have hstep : trim_pass1 arena (id :: rest) n = trim_pass1 arena rest n := by
          conv_lhs => unfold trim_pass1
          rw [if_neg hm]
        rw [hstep]
        exact ih arena n

theorem tinv_init (fs : FSNode) (arena0 : List BLine) (out : List Nat)
    (hA : AInv fs arena0 out) (tr : Bool) :
    TInv arena0 out (trim_pass1 arena0 (out.drop 1) 1).1
      (trim_pass1 arena0 (out.drop 1) 1).2
      (trim_seed (trim_pass1 arena0 (out.drop 1) 1).1 tr (out.drop 1)) := by
  have h0 := out_head_zero fs arena0 out hA
  obtain ⟨t, hout⟩ : ∃ t, out = 0 :: t := by
    cases ho : out with
    | nil =>
        rw [ho] at h0
        exact Option.noConfusion h0
    | cons a t2 =>
        rw [ho, List.getElem?_cons_zero] at h0
        exact ⟨t2, by rw [Option.some.inj h0]⟩
  have hdropt : out.drop 1 = t := by rw [hout]; simp
  have hmemdrop : ∀ id ∈ out.drop 1, id ∈ out := fun id hid =>
    (List.drop_sublist 1 out).subset hid
  have hparh : ∀ id ∈ out.drop 1, (aget arena0 id).has_match = true →
      ∃ p, (aget arena0 id).parent_id = some p ∧ p < arena0.length := by
    intro id hid _
    have hido : id ∈ out := hmemdrop id hid
    have hlt := hA.outv id hido
    cases hpq : (aget arena0 id).parent_id with
    | none =>
        exfalso
        have hid0 := hA.parent_none id hlt hpq
        subst hid0
        rw [hdropt] at hid
        have hnd := hA.nodup
        rw [hout, List.nodup_cons] at hnd
        exact hnd.1 hid
    | some p =>
        exact ⟨p, rfl, (hA.parent_wf id hlt p hpq).1⟩
  obtain ⟨hp1len, hp1cnt, hp1m, hp1st, hp1idx, hp1nb⟩ :=
    trim_pass1_spec (out.drop 1) arena0 1 hparh
  refine ⟨hp1len, hp1st, ?_, ?_, ?_, ?_, ?_, ?_, ?_⟩
  · intro i hi
    rw [hp1m i] at hi
    exact hi
  · intro i hio hm p hp
    rw [hp1m] at hm
    rw [(hp1st i).1] at hp
    rw [hp1m]
    exact hA.mc i (hA.outv i hio) hm p hp
  · rw [hp1cnt, countMatching_eq_countP]
    have hcm : out.countP
          (fun id => (aget (trim_pass1 arena0 (out.drop 1) 1).1 id).has_match)
        = out.countP (fun id => (aget arena0 id).has_match) :=
      countP_congr_mem _ _ _ (fun x _ => by rw [hp1m])
    rw [hcm, hdropt, hout, List.countP_cons]
    have hr : (aget arena0 0).has_match = true := hA.rootm
    rw [hr]
    have hone : (if (true : Bool) = true then 1 else 0) = 1 := rfl
    rw [hone]
    omega
  · intro p hplt
    have hcc : (out.drop 1).countP
          (fun id => (aget (trim_pass1 arena0 (out.drop 1) 1).1 id).has_match &&
            ((aget (trim_pass1 arena0 (out.drop 1) 1).1 id).parent_id == some p))
        = (out.drop 1).countP (fun id => (aget arena0 id).has_match &&
            ((aget arena0 id).parent_id == some p)) :=
      countP_congr_mem _ _ _ (fun x _ => by rw [hp1m, (hp1st x).1])
    rw [hp1nb p, hA.nb0 p (by rw [← hp1len]; exact hplt), hcc]
    omega
  · intro ql hql
    unfold trim_seed at hql
    obtain ⟨id, hidm, hfid⟩ := List.mem_filterMap.mp hql
    dsimp only at hfid
    by_cases hcond : ((aget (trim_pass1 arena0 (out.drop 1) 1).1 id).has_match &&
        decide ((aget (trim_pass1 arena0 (out.drop 1) 1).1 id).nb_kept_children = 0) &&
        (decide ((aget (trim_pass1 arena0 (out.drop 1) 1).1 id).depth > 1) || tr)) = true
    · rw [if_pos hcond] at hfid
      injection hfid with h2
      rw [← h2]
      simp only [Bool.and_eq_true, decide_eq_true_eq] at hcond
      exact ⟨hmemdrop id hidm, hcond.1.1, hcond.1.2⟩
    · rw [if_neg hcond] at hfid
      exact Option.noConfusion hfid
  · have hsub : ((trim_seed (trim_pass1 arena0 (out.drop 1) 1).1 tr
        (out.drop 1)).map Prod.fst).Sublist ((out.drop 1).map (fun x => x)) := by
      unfold trim_seed
      refine map_filterMap_sublist _ Prod.fst (fun x => x) ?_ _
      intro a b hab
      dsimp only at hab
      split at hab
      · injection hab with h2
        rw [← h2]
      · exact Option.noConfusion hab
    rw [show ((out.drop 1).map (fun x => x)) = out.drop 1 by simp] at hsub
    have hnd : (out.drop 1).Nodup := hA.nodup.sublist (List.drop_sublist 1 out)
    exact hnd.sublist hsub
  · intro i hlt hm0 hmF
    exfalso
    rw [hp1m i, hm0] at hmF
    exact Bool.noConfusion hmF

theorem tinv_step (fs : FSNode) (arena0 : List BLine) (out : List Nat)
    (hA : AInv fs arena0 out) (targeted : Nat) (htg : 1 ≤ targeted)
    (arena : List BLine) (count : Nat) (queue : List (Nat × Int))
    (hT : TInv arena0 out arena count queue) (hcount : targeted < count)
    (sli : Nat × Int) (q1 : List (Nat × Int))
    (hpop : popWorst queue = some (sli, q1)) :
    TInv arena0 out (trim_step arena sli q1).1 (count - 1)
      (trim_step arena sli q1).2 := by
  have h0 := out_head_zero fs arena0 out hA
  have hperm := popWorst_spec queue sli q1 hpop
  have hslim : sli ∈ queue := hperm.mem_iff.mpr (List.mem_cons_self _ _)
  obtain ⟨hxo, hxm, hxnb⟩ := hT.qmem sli hslim
  set x := sli.1 with hxdef
  have hxlt0 : x < arena0.length := hA.outv x hxo
  have hxlt : x < arena.length := by rw [hT.len]; exact hxlt0
  have hx0 : x ≠ 0 := by
    intro hxe
    have hacc := hT.acc x hxlt
    rw [hxnb] at hacc
    have hnomrc : ∀ a ∈ out, a ≠ 0 → (aget arena a).has_match = true →
        (aget arena a).parent_id = some 0 → False := by
      intro a hao ha0 ham hap
      have hadrop : a ∈ out.drop 1 := mem_drop_one out h0 a hao ha0
      have hpos := countP_pos_of_mem (out.drop 1) a hadrop
        (fun id => (aget arena id).has_match &&
          ((aget arena id).parent_id == some x))
        (by dsimp only; rw [ham, hap, hxe]; simp)
      omega
    have hallz : ∀ y ∈ out.filter (fun id => (aget arena id).has_match),
        y = 0 := by
      intro y hy
      rw [List.mem_filter] at hy
      by_contra hy0
      obtain ⟨a, hao, ha0, ham, hap⟩ := matched_root_child fs arena0 out hA arena
        (fun i => (hT.static i).1) hT.mcO
        ((aget arena0 y).depth) y (le_refl _) hy.1 hy.2 hy0
      exact hnomrc a hao ha0 ham hap
    have hlen1 : (out.filter (fun id => (aget arena id).has_match)).length ≤ 1 :=
      nodup_all_eq _ (hA.nodup.filter _) 0 hallz
    have hce := hT.count_eq
    unfold countMatching at hce
    omega
  cases hpq : (aget arena0 x).parent_id with
  | none => exact absurd (hA.parent_none x hxlt0 hpq) hx0
  | some p =>
  have hparx : (aget arena x).parent_id = some p := by
    rw [(hT.static x).1]
    exact hpq
  have hplt0 : p < arena0.length := (hA.parent_wf x hxlt0 p hpq).1
  have hplt : p < arena.length := by rw [hT.len]; exact hplt0
  have hpnex : p ≠ x := by
    intro he
    have hdd := (hA.parent_wf x hxlt0 p hpq).2.1
    rw [he] at hdd
    omega
  have hpm : (aget arena p).has_match = true := hT.mcO x hxo hxm p hparx
  have hpo : p ∈ out := by
    obtain ⟨j, hj⟩ := List.mem_iff_getElem?.mp hxo
    obtain ⟨i, _, hival⟩ := hA.pclosed j x hj p hpq
    exact List.mem_iff_getElem?.mpr ⟨i, hival⟩
  have hxdrop : x ∈ out.drop 1 := mem_drop_one out h0 x hxo hx0
  have hdropnd : (out.drop 1).Nodup := hA.nodup.sublist (List.drop_sublist 1 out)
  have hnbp : 1 ≤ (aget arena p).nb_kept_children := by
    rw [hT.acc p hplt]
    exact countP_pos_of_mem (out.drop 1) x hxdrop _
      (by rw [hxm, hparx]; simp)
  set arena1 := upd arena x (fun b => { b with has_match := false }) with ha1
  have hpar1x : (aget arena1 x).parent_id = some p := by
    rw [ha1, aget_upd_field arena x x (fun b => { b with has_match := false })
      BLine.parent_id (fun b => rfl)]
    exact hparx
  set arena2 := upd arena1 p (fun b => { b with nb_kept_children := b.nb_kept_children - 1, next_child_idx := b.next_child_idx - 1 }) with ha2
  have hts : trim_step arena sli q1 = (arena2,
      if (aget arena2 p).nb_kept_children = 0 then
        q1 ++ [(p, (aget arena2 p).score)] else q1) := by
    unfold trim_step
    dsimp only
    rw [← hxdef, ← ha1, hpar1x]
    rfl
  rw [hts]
  dsimp only
  have hlen2 : arena2.length = arena.length := by
    rw [ha2, ha1, upd_length, upd_length]
  have hpar2 : ∀ i, (aget arena2 i).parent_id = (aget arena i).parent_id := by
    intro i
    rw [ha2, aget_upd_field arena1 p i (fun b => { b with nb_kept_children := b.nb_kept_children - 1, next_child_idx := b.next_child_idx - 1 })
      BLine.parent_id (fun b => rfl), ha1,
      aget_upd_field arena x i (fun b => { b with has_match := false })
      BLine.parent_id (fun b => rfl)]
  have hst2 : ∀ i, eqStatic (aget arena2 i) (aget arena i) := by
    intro i
    refine eqStatic_trans _ (aget arena1 i) _ ?_ ?_
    · rw [ha2]
      exact eqStatic_upd arena1 p (fun b => { b with nb_kept_children := b.nb_kept_children - 1, next_child_idx := b.next_child_idx - 1 })
        (fun b => rfl) (fun b => rfl) (fun b => rfl) (fun b => rfl) (fun b => rfl)
        (fun b => rfl) (fun b => rfl) (fun b => rfl) (fun b => rfl) (fun b => rfl) i
    · rw [ha1]
      exact eqStatic_upd arena x (fun b => { b with has_match := false })
        (fun b => rfl) (fun b => rfl) (fun b => rfl) (fun b => rfl) (fun b => rfl)
        (fun b => rfl) (fun b => rfl) (fun b => rfl) (fun b => rfl) (fun b => rfl) i
  have hm2ne : ∀ i, i ≠ x → (aget arena2 i).has_match = (aget arena i).has_match := by
    intro i hne
    rw [ha2, aget_upd_field arena1 p i (fun b => { b with nb_kept_children := b.nb_kept_children - 1, next_child_idx := b.next_child_idx - 1 })
      BLine.has_match (fun b => rfl), ha1,
      aget_upd_ne arena x i (fun b => { b with has_match := false }) hne]
  have hm2x : (aget arena2 x).has_match = false := by
    rw [ha2, aget_upd_field arena1 p x (fun b => { b with nb_kept_children := b.nb_kept_children - 1, next_child_idx := b.next_child_idx - 1 })
      BLine.has_match (fun b => rfl), ha1,
      aget_upd_self arena x (fun b => { b with has_match := false }) hxlt]
  have hm2p : (aget arena2 p).has_match = true := by
    rw [hm2ne p hpnex]
    exact hpm
  have hnb2 : ∀ i, i ≠ p →
      (aget arena2 i).nb_kept_children = (aget arena i).nb_kept_children := by
    intro i hne
    rw [ha2, aget_upd_ne arena1 p i (fun b => { b with nb_kept_children := b.nb_kept_children - 1, next_child_idx := b.next_child_idx - 1 }) hne, ha1,
      aget_upd_field arena x i (fun b => { b with has_match := false })
      BLine.nb_kept_children (fun b => rfl)]
  have hnb2p : (aget arena2 p).nb_kept_children =
      (aget arena p).nb_kept_children - 1 := by
    have hplt1 : p < arena1.length := by rw [ha1, upd_length]; exact hplt
    rw [ha2, aget_upd_self arena1 p (fun b => { b with nb_kept_children := b.nb_kept_children - 1, next_child_idx := b.next_child_idx - 1 }) hplt1]
    dsimp only
    rw [ha1, aget_upd_field arena x p (fun b => { b with has_match := false })
      BLine.nb_kept_children (fun b => rfl)]
  have hq1sub : ∀ y ∈ q1, y ∈ queue := fun y hy =>
    hperm.mem_iff.mpr (List.mem_cons_of_mem _ hy)
  have hq1fst : x ∉ q1.map Prod.fst := by
    have hpermf := hperm.map Prod.fst
    have h2 : ((sli :: q1).map Prod.fst).Nodup := hpermf.nodup_iff.mp hT.qnodup
    rw [List.map_cons, List.nodup_cons] at h2
    exact h2.1
  have hndq1 : (q1.map Prod.fst).Nodup := by
    have hpermf := hperm.map Prod.fst
    have h2 : ((sli :: q1).map Prod.fst).Nodup := hpermf.nodup_iff.mp hT.qnodup
    rw [List.map_cons, List.nodup_cons] at h2
    exact h2.2
  have hmemq1 : ∀ y ∈ q1, y.1 ∈ out ∧ (aget arena2 y.1).has_match = true ∧
      (aget arena2 y.1).nb_kept_children = 0 := by
    intro y hy
    obtain ⟨hy1, hy2, hy3⟩ := hT.qmem y (hq1sub y hy)
    have hyx : y.1 ≠ x := by
      intro he
      exact hq1fst (he ▸ List.mem_map_of_mem Prod.fst hy)
    have hyp : y.1 ≠ p := by
      intro he
      rw [he] at hy3
      omega
    exact ⟨hy1, by rw [hm2ne y.1 hyx]; exact hy2,
      by rw [hnb2 y.1 hyp]; exact hy3⟩
  refine ⟨by rw [hlen2, hT.len], ?_, ?_, ?_, ?_, ?_, ?_, ?_, ?_⟩
  · intro i
    exact eqStatic_trans _ _ _ (hst2 i) (hT.static i)
  · intro i hm
    by_cases hix : i = x
    · rw [hix, hm2x] at hm
      exact Bool.noConfusion hm
    · rw [hm2ne i hix] at hm
      exact hT.mono i hm
  · intro i hio hm q hq
    have hix : i ≠ x := by
      intro he
      rw [he, hm2x] at hm
      exact Bool.noConfusion hm
    rw [hm2ne i hix] at hm
    rw [hpar2] at hq
    by_cases hqx : q = x
    · exfalso
      subst hqx
      have hi0 : i ≠ 0 := by
        intro he
        have h00 : (aget arena0 i).parent_id = none := by
          rw [he]
          exact hA.rootwf.1
        rw [(hT.static i).1, h00] at hq
        exact Option.noConfusion hq
      have hidrop : i ∈ out.drop 1 := mem_drop_one out h0 i hio hi0
      have hpos := countP_pos_of_mem (out.drop 1) i hidrop
        (fun id => (aget arena id).has_match &&
          ((aget arena id).parent_id == some x))
        (by dsimp only; rw [hm, hq]; simp)
      have hacc := hT.acc x hxlt
      rw [hxnb] at hacc
      omega
    · rw [hm2ne q hqx]
      exact hT.mcO i hio hm q hq
  · have hflip := countP_flip_once out hA.nodup x hxo
      (fun id => (aget arena id).has_match)
      (fun id => (aget arena2 id).has_match)
      hxm hm2x (fun y hy => (hm2ne y hy).symm)
    rw [countMatching_eq_countP]
    have hce := hT.count_eq
    rw [countMatching_eq_countP] at hce
    omega
  · intro q hqlt
    have hqlt2 : q < arena.length := by rw [← hlen2]; exact hqlt
    by_cases hqp : q = p
    · subst hqp
      rw [hnb2p, hT.acc q hqlt2]
      have hflip := countP_flip_once (out.drop 1) hdropnd x hxdrop
        (fun id => (aget arena id).has_match &&
          ((aget arena id).parent_id == some q))
        (fun id => (aget arena2 id).has_match &&
          ((aget arena2 id).parent_id == some q))
        (by dsimp only; rw [hxm, hparx]; simp)
        (by dsimp only; rw [hm2x]; simp)
        (fun y hy => by dsimp only; rw [hm2ne y hy, hpar2])
      omega
    · rw [hnb2 q hqp, hT.acc q hqlt2]
      refine countP_congr_mem _ _ _ ?_
      intro y hy
      by_cases hyx : y = x
      · dsimp only
        rw [hyx]
        have hL : ((aget arena x).has_match &&
            ((aget arena x).parent_id == some q)) = false := by
          rw [hparx]
          have hne : ((some p : Option Nat) == some q) = false := by
            simp only [beq_eq_false_iff_ne, ne_eq, Option.some.injEq]
            exact fun he => hqp he.symm
          rw [hne, Bool.and_false]
        have hR : ((aget arena2 x).has_match &&
            ((aget arena2 x).parent_id == some q)) = false := by
          rw [hm2x, Bool.false_and]
        rw [hL, hR]
      · dsimp only
        rw [hm2ne y hyx, hpar2]
  · intro ql hql
    by_cases hcp : (aget arena2 p).nb_kept_children = 0
    · rw [if_pos hcp] at hql
      rcases List.mem_append.mp hql with h1 | h1
      · exact hmemq1 ql h1
      · rw [List.mem_singleton.mp h1]
        exact ⟨hpo, hm2p, hcp⟩
    · rw [if_neg hcp] at hql
      exact hmemq1 ql hql
  · by_cases hcp : (aget arena2 p).nb_kept_children = 0
    · rw [if_pos hcp, List.map_append]
      have hmr : ([(p, (aget arena2 p).score)].map Prod.fst) = [p] := rfl
      rw [hmr]
      refine nodup_concat _ _ hndq1 ?_
      intro hmem
      obtain ⟨y, hy, hye⟩ := List.mem_map.mp hmem
      obtain ⟨_, _, hy3⟩ := hT.qmem y (hq1sub y hy)
      rw [hye] at hy3
      omega
    · rw [if_neg hcp]
      exact hndq1
  · intro i hilt hm0 hmF
    rw [hlen2, hT.len] at hilt
    by_cases hix : i = x
    · rw [hix, hnb2 x (fun he => hpnex he.symm)]
      exact hxnb
    · rw [hm2ne i hix] at hmF
      by_cases hip : i = p
      · rw [hip, hpm] at hmF
        exact Bool.noConfusion hmF
      · rw [hnb2 i hip]
        exact hT.rm0 i (by rw [hT.len]; exact hilt) hm0 hmF

theorem tinv_loop (fs : FSNode) (arena0 : List BLine) (out : List Nat)
    (hA : AInv fs arena0 out) (targeted : Nat) (htg : 1 ≤ targeted) :
    ∀ (fuel : Nat) (arena : List BLine) (count : Nat) (queue : List (Nat × Int)),
    TInv arena0 out arena count queue →
    ∃ c2 q2, TInv arena0 out (trim_loop targeted fuel arena count queue) c2 q2 := by
  intro fuel
  induction fuel with
  | zero =>
      intro arena count queue hT
      exact ⟨count, queue, hT⟩
  | succ n ih =>
      intro arena count queue hT
      by_cases hc : count > targeted
      · cases hpq : popWorst queue with
        | none =>
            have heq : trim_loop targeted (n + 1) arena count queue = arena := by
              conv_lhs => unfold trim_loop
              rw [if_pos hc, hpq]
            rw [heq]
            exact ⟨count, queue, hT⟩
        | some pr2 =>
            obtain ⟨sli, q1⟩ := pr2
            have heq : trim_loop targeted (n + 1) arena count queue =
                trim_loop targeted n (trim_step arena sli q1).1 (count - 1)
                  (trim_step arena sli q1).2 := by
              conv_lhs => unfold trim_loop
              rw [if_pos hc, hpq]
            rw [heq]
            exact ih _ _ _
              (tinv_step fs arena0 out hA targeted htg arena count queue hT hc
                sli q1 hpq)
      · have heq : trim_loop targeted (n + 1) arena count queue = arena := by
          conv_lhs => unfold trim_loop
          rw [if_neg hc]
        rw [heq]
        exact ⟨count, queue, hT⟩

theorem trim_excess_inv (fs : FSNode) (arena0 : List BLine) (out : List Nat)
    (hA : AInv fs arena0 out) (targeted : Nat) (htg : 1 ≤ targeted) (tr : Bool) :
    ∃ c2 q2, TInv arena0 out (trim_excess targeted tr arena0 out) c2 q2 := by
  unfold trim_excess
  dsimp only
  exact tinv_loop fs arena0 out hA targeted htg _ _ _ _
    (tinv_init fs arena0 out hA tr)

theorem trim_step_static (arena : List BLine) (sli : Nat × Int)
    (q1 : List (Nat × Int)) :
    (trim_step arena sli q1).1.length = arena.length ∧
    ∀ i, eqStatic (aget (trim_step arena sli q1).1 i) (aget arena i) := by
  unfold trim_step
  dsimp only
  constructor
  · rw [upd_length, upd_length]
  · intro i
    refine eqStatic_trans _
      (aget (upd arena sli.1 (fun b => { b with has_match := false })) i) _ ?_ ?_
    · exact eqStatic_upd _ _ (fun b => { b with nb_kept_children := b.nb_kept_children - 1, next_child_idx := b.next_child_idx - 1 })
        (fun b => rfl) (fun b => rfl) (fun b => rfl) (fun b => rfl) (fun b => rfl)
        (fun b => rfl) (fun b => rfl) (fun b => rfl) (fun b => rfl) (fun b => rfl) i
    · exact eqStatic_upd arena sli.1 (fun b => { b with has_match := false })
        (fun b => rfl) (fun b => rfl) (fun b => rfl) (fun b => rfl) (fun b => rfl)
        (fun b => rfl) (fun b => rfl) (fun b => rfl) (fun b => rfl) (fun b => rfl) i

theorem trim_loop_static (targeted : Nat) : ∀ (fuel : Nat) (arena : List BLine)
    (count : Nat) (queue : List (Nat × Int)),
    (trim_loop targeted fuel arena count queue).length = arena.length ∧
    ∀ i, eqStatic (aget (trim_loop targeted fuel arena count queue) i)
      (aget arena i) := by
  intro fuel
  induction fuel with
  | zero =>
      intro arena count queue
      exact ⟨rfl, fun i => eqStatic_refl _⟩
  | succ n ih =>
      intro arena count queue
      by_cases hc : count > targeted
      · cases hpq : popWorst queue with
        | none =>
            have heq : trim_loop targeted (n + 1) arena count queue = arena := by
              conv_lhs => unfold trim_loop
              rw [if_pos hc, hpq]
            rw [heq]
            exact ⟨rfl, fun i => eqStatic_refl _⟩
        | some pr2 =>
            obtain ⟨sli, q1⟩ := pr2
            have heq : trim_loop targeted (n + 1) arena count queue =
                trim_loop targeted n (trim_step arena sli q1).1 (count - 1)
                  (trim_step arena sli q1).2 := by
              conv_lhs => unfold trim_loop
              rw [if_pos hc, hpq]
            rw [heq]
            obtain ⟨ih1, ih2⟩ := ih (trim_step arena sli q1).1 (count - 1)
              (trim_step arena sli q1).2
            obtain ⟨hs1, hs2⟩ := trim_step_static arena sli q1
            exact ⟨by rw [ih1, hs1], fun i =>
              eqStatic_trans _ _ _ (ih2 i) (hs2 i)⟩
      · have heq : trim_loop targeted (n + 1) arena count queue = arena := by
          conv_lhs => unfold trim_loop
          rw [if_neg hc]
        rw [heq]
        exact ⟨rfl, fun i => eqStatic_refl _⟩

theorem trim_excess_static (targeted : Nat) (tr : Bool) (arena : List BLine)
    (out : List Nat) :
    (trim_excess targeted tr arena out).length = arena.length ∧
    ∀ i, eqStatic (aget (trim_excess targeted tr arena out) i) (aget arena i) := by
  unfold trim_excess
  dsimp only
  obtain ⟨hp1, hp2⟩ := trim_pass1_static (out.drop 1) arena 1
  obtain ⟨hl1, hl2⟩ := trim_loop_static targeted
    ((trim_pass1 arena (out.drop 1) 1).2 + 1) (trim_pass1 arena (out.drop 1) 1).1
    (trim_pass1 arena (out.drop 1) 1).2
    (trim_seed (trim_pass1 arena (out.drop 1) 1).1 tr (out.drop 1))
  exact ⟨by rw [hl1, hp1], fun i => eqStatic_trans _ _ _ (hl2 i) (hp2 i)⟩

/-! ## Helper lemmas: positions in a filterMap -/

theorem fm_pos_get {α β : Type} (F : α → Option β) :
    ∀ (l : List α) (n : Nat) (x : α) (y : β), l[n]? = some x → F x = some y →
    (l.filterMap F)[posIdx F l n]? = some y := by
  intro l
  induction l with
  | nil =>
      intro n x y h _
      rw [List.getElem?_nil] at h
      exact Option.noConfusion h
  | cons z rest ih =>
      intro n x y hn hF
      cases n with
      | zero =>
          rw [List.getElem?_cons_zero] at hn
          have hzx : z = x := Option.some.inj hn
          subst hzx
          rw [List.filterMap_cons_some hF]
          have h0 : posIdx F (z :: rest) 0 = 0 := rfl
          rw [h0]
          exact List.getElem?_cons_zero
      | succ m =>
          rw [List.getElem?_cons_succ] at hn
          cases hFz : F z with
          | none =>
              rw [List.filterMap_cons_none hFz]
              have hp : posIdx F (z :: rest) (m + 1) = posIdx F rest m := by
                unfold posIdx
                rw [List.take_succ_cons, List.filterMap_cons_none hFz]
              rw [hp]
              exact ih m x y hn hF
          | some w =>
              rw [List.filterMap_cons_some hFz]
              have hp : posIdx F (z :: rest) (m + 1) = posIdx F rest m + 1 := by
                unfold posIdx
                rw [List.take_succ_cons, List.filterMap_cons_some hFz]
                rfl
              rw [hp, List.getElem?_cons_succ]
              exact ih m x y hn hF

theorem fm_pos_inv {α β : Type} (F : α → Option β) :
    ∀ (l : List α) (j : Nat) (y : β), (l.filterMap F)[j]? = some y →
    ∃ n x, l[n]? = some x ∧ F x = some y ∧ j = posIdx F l n := by
  intro l
  induction l with
  | nil =>
      intro j y h
      rw [List.filterMap_nil, List.getElem?_nil] at h
      exact Option.noConfusion h
  | cons z rest ih =>
      intro j y h
      cases hFz : F z with
      | none =>
          rw [List.filterMap_cons_none hFz] at h
          obtain ⟨n, x, h1, h2, h3⟩ := ih j y h
          refine ⟨n + 1, x, ?_, h2, ?_⟩
          · rw [List.getElem?_cons_succ]
            exact h1
          · unfold posIdx
            rw [List.take_succ_cons, List.filterMap_cons_none hFz]
            exact h3
      | some w =>
          rw [List.filterMap_cons_some hFz] at h
          cases j with
          | zero =>
              rw [List.getElem?_cons_zero] at h
              have hwy : w = y := Option.some.inj h
              subst hwy
              exact ⟨0, z, List.getElem?_cons_zero, hFz, rfl⟩
          | succ j2 =>
              rw [List.getElem?_cons_succ] at h
              obtain ⟨n, x, h1, h2, h3⟩ := ih j2 y h
              refine ⟨n + 1, x, ?_, h2, ?_⟩
              · rw [List.getElem?_cons_succ]
                exact h1
              · unfold posIdx
                rw [List.take_succ_cons, List.filterMap_cons_some hFz,
                  List.length_cons]
                unfold posIdx at h3
                omega

theorem posIdx_mono {α β : Type} (F : α → Option β) (l : List α) (n m : Nat)
    (h : n ≤ m) : posIdx F l n ≤ posIdx F l m := by
  unfold posIdx
  have hsplit : l.take m = l.take n ++ (l.drop n).take (m - n) := by
    rw [show m = n + (m - n) by omega, List.take_add]
    have hmn : n + (m - n) - n = m - n := by omega
    rw [hmn]
  rw [hsplit, List.filterMap_append, List.length_append]
  omega

theorem posIdx_succ_of_some {α β : Type} (F : α → Option β) (l : List α) (n : Nat)
    (x : α) (y : β) (hx : l[n]? = some x) (hy : F x = some y) :
    posIdx F l (n + 1) = posIdx F l n + 1 := by
  unfold posIdx
  rw [List.take_succ, hx]
  rw [List.filterMap_append, List.length_append]
  have h1 : ((some x).toList.filterMap F).length = 1 := by
    have h2 : (some x).toList = [x] := rfl
    rw [h2, List.filterMap_cons_some hy, List.filterMap_nil]
    rfl
  rw [h1]

theorem posIdx_strict {α β : Type} (F : α → Option β) (l : List α) (n m : Nat)
    (x : α) (y : β) (h : n < m) (hx : l[n]? = some x) (hy : F x = some y) :
    posIdx F l n < posIdx F l m := by
  have h1 := posIdx_succ_of_some F l n x y hx hy
  have h2 := posIdx_mono F l (n + 1) m h
  omega

theorem filter_eq_filterMap {α : Type} (pred : α → Bool) (l : List α) :
    l.filter pred = l.filterMap (fun x => if pred x then some x else none) := by
  induction l with
  | nil => rfl
  | cons a t ih =>
      by_cases hp : pred a = true
      · simp [List.filter_cons, List.filterMap_cons, hp, ih]
      · simp [List.filter_cons, List.filterMap_cons, hp, ih]

/-! ## Helper lemmas: browser state -/

theorem idxOfPath_getD (p : List String) (l : List LineM) (i : Nat)
    (h : idxOfPath p l = some i) : (l.getD i default).path = p := by
  induction l generalizing i with
  | nil => simp [idxOfPath] at h
  | cons x rest ih =>
      by_cases hx : x.path = p
      · simp [idxOfPath, hx] at h
        subst h
        simpa using hx
      · simp only [idxOfPath, hx, if_false] at h
        cases hr : idxOfPath p rest with
        | none => rw [hr] at h; simp at h
        | some j =>
            rw [hr] at h
            simp at h
            subst h
            simpa using ih j hr

theorem try_select_path_found (t : TreeM) (p : List String)
    (h : (t.try_select_path p).2 = true) :
    ((t.try_select_path p).1.selected_line.path = p) ∧
    (t.try_select_path p).1.lines = t.lines ∧
    (t.try_select_path p).1.scroll = t.scroll := by
  unfold TreeM.try_select_path at h ⊢
  cases hf : idxOfPath p t.lines with
  | none => simp [hf] at h
  | some i => exact ⟨idxOfPath_getD p t.lines i hf, rfl, rfl⟩

theorem try_select_path_not_found (t : TreeM) (p : List String)
    (h : (t.try_select_path p).2 = false) : (t.try_select_path p).1 = t := by
  unfold TreeM.try_select_path at h ⊢
  cases hf : idxOfPath p t.lines with
  | none => rfl
  | some i => simp [hf] at h

theorem make_selection_visible_lines (t : TreeM) (ph : Int) :
    (t.make_selection_visible ph).lines = t.lines ∧
    (t.make_selection_visible ph).selection = t.selection := by
  unfold TreeM.make_selection_visible
  split
  · exact ⟨rfl, rfl⟩
  · split
    · exact ⟨rfl, rfl⟩
    · exact ⟨rfl, rfl⟩

/-! ## C6: on_pattern -/

/-- C6: for every pattern submission, `on_pattern` clears the overlay exactly
when the submitted pattern is empty (a non-empty pattern leaves the overlay
untouched), stores the pattern as the pending pattern in every case, returns
`Keep`, and leaves the base tree untouched (no tree is built synchronously),
so the overlay is already cleared before any background tick runs. -/
theorem on_pattern_spec (s : BrowserStateM) (pat : Option String) :
    ((on_pattern s pat).1.pending_pattern = pat) ∧
    ((on_pattern s pat).2 = CmdResultM.keep) ∧
    (pat = none → (on_pattern s pat).1.filtered_tree = none) ∧
    (∀ p, pat = some p → (on_pattern s pat).1.filtered_tree = s.filtered_tree) ∧
    ((on_pattern s pat).1.tree = s.tree) := by
  unfold on_pattern
  cases pat <;> simp

/-- Witness for C6 at concrete states: an empty submission clears the overlay
of `stateA`, a non-empty one preserves it. -/
theorem on_pattern_spec_witness :
    (on_pattern stateA none).1.filtered_tree = none ∧
    (on_pattern stateA (some "x")).1.filtered_tree = stateA.filtered_tree :=
  ⟨(on_pattern_spec stateA none).2.2.1 rfl,
   (on_pattern_spec stateA (some "x")).2.2.2.1 "x" rfl⟩

/-! ## C7: back intent -/

/-- C7: the back intent is a three-way case split. With an overlay: the
overlay's selected path is re-selected in the base tree when present there
(and made visible by the bounded scroll adjustment), the base tree is
untouched when the path is absent, the overlay is dropped, and the result is
`Keep`. Without an overlay and selection > 0: the selection moves to 0 with
result `Keep`. Otherwise: `PopState`. -/
theorem on_back_spec (s : BrowserStateM) (ph : Int) :
    (∀ ft, s.filtered_tree = some ft →
      (on_back s ph).2 = CmdResultM.keep ∧
      (on_back s ph).1.filtered_tree = none ∧
      ((s.tree.try_select_path ft.selected_line.path).2 = true →
        (on_back s ph).1.tree =
          (s.tree.try_select_path ft.selected_line.path).1.make_selection_visible ph ∧
        (on_back s ph).1.tree.selected_line.path = ft.selected_line.path) ∧
      ((s.tree.try_select_path ft.selected_line.path).2 = false →
        (on_back s ph).1.tree = s.tree)) ∧
    (s.filtered_tree = none → s.tree.selection > 0 →
      on_back s ph = ({ s with tree := { s.tree with selection := 0 } }, CmdResultM.keep)) ∧
    (s.filtered_tree = none → s.tree.selection = 0 →
      on_back s ph = (s, CmdResultM.popState)) := by
  refine ⟨?_, ?_, ?_⟩
  · intro ft hft
    have hob : on_back s ph =
        ({ s with
            tree := (if (s.tree.try_select_path ft.selected_line.path).2 then
                (s.tree.try_select_path ft.selected_line.path).1.make_selection_visible ph
              else (s.tree.try_select_path ft.selected_line.path).1),
            filtered_tree := none }, CmdResultM.keep) := by
      unfold on_back
      rw [hft]
    refine ⟨by rw [hob], by rw [hob], ?_, ?_⟩
    · intro hfound
      rw [hob]
      simp only [hfound, if_true]
      refine ⟨trivial, ?_⟩
      have h1 := try_select_path_found s.tree ft.selected_line.path hfound
      have h2 := make_selection_visible_lines
        (s.tree.try_select_path ft.selected_line.path).1 ph
      simp only [TreeM.selected_line] at h1 h2 ⊢
      rw [h2.1, h2.2]
      exact h1.1
    · intro hnot
      rw [hob]
      simp only [hnot, Bool.false_eq_true, if_false]
      exact try_select_path_not_found s.tree ft.selected_line.path hnot
  · intro hnone hsel
    unfold on_back
    rw [hnone, if_pos hsel]
  · intro hnone hsel
    unfold on_back
    rw [hnone, if_neg (by omega)]

/-- Witness for C7 at concrete states: with `stateA` the overlay path
`sub/c.txt` is re-selected in the base tree and the overlay dropped; with
`stateB` the selection returns to 0; with `stateC` the state pops. -/
theorem on_back_spec_witness :
    ((on_back stateA 10).1.filtered_tree = none ∧
      (on_back stateA 10).1.tree.selected_line.path = ["sub", "c.txt"]) ∧
    on_back stateB 10 = ({ stateB with tree := { stateB.tree with selection := 0 } },
      CmdResultM.keep) ∧
    on_back stateC 10 = (stateC, CmdResultM.popState) := by
  refine ⟨⟨((on_back_spec stateA 10).1 treeB rfl).2.1, ?_⟩, ?_, ?_⟩
  · have h := ((on_back_spec stateA 10).1 treeB rfl).2.2.1 (by decide)
    exact h.2.trans (by decide)
  · exact (on_back_spec stateB 10).2.1 rfl (by decide)
  · exact (on_back_spec stateC 10).2.2 rfl (by decide)

/-! ## C8: total_search intent -/

/-- C8: the total_search intent yields an error unless an overlay exists whose
previous search was bounded; in the valid case it re-submits the overlay's
pattern as the pending pattern, sets `total_search_required`, and returns
`Keep` with both trees untouched (no synchronous build). -/
theorem on_total_search_spec (s : BrowserStateM) :
    (s.filtered_tree = none →
      on_total_search s = (s, CmdResultM.error "this verb can be used only after a search")) ∧
    (∀ ft, s.filtered_tree = some ft → ft.total_search = true →
      (on_total_search s).1 = s ∧
      (on_total_search s).2 =
        CmdResultM.error "search was already total - all children have been rated") ∧
    (∀ ft, s.filtered_tree = some ft → ft.total_search = false →
      on_total_search s =
        ({ s with pending_pattern := ft.pattern, total_search_required := true },
          CmdResultM.keep)) := by
  refine ⟨?_, ?_, ?_⟩
  · intro h; unfold on_total_search; rw [h]
  · intro ft hft htot; unfold on_total_search; rw [hft]; simp [htot]
  · intro ft hft htot; unfold on_total_search; rw [hft]; simp [htot]

/-- Witness for C8 at concrete states: `stateC` (no overlay) errors; `stateA`
(bounded overlay with pattern "c") re-submits the pattern with the flag set. -/
theorem on_total_search_spec_witness :
    on_total_search stateC = (stateC, CmdResultM.error "this verb can be used only after a search") ∧
    on_total_search stateA =
      ({ stateA with pending_pattern := some "c", total_search_required := true },
        CmdResultM.keep) :=
  ⟨(on_total_search_spec stateC).1 rfl,
   ((on_total_search_spec stateA).2.2 treeB rfl rfl).trans (by decide)⟩

/-! ## C2: cancelled build (corrected) -/

/-- Counterexample to C2 as stated: at the concrete pre-state `stateD` (a
pending pattern "ab" with `total_search_required` set), a cancelled build
(dam fired, `buildResult = none`) does not leave the pending pattern nor the
`total_search_required` flag at their pre-build values: the pattern is
consumed and the flag is cleared. -/
theorem do_pending_task_cancel_cex :
    ¬((do_pending_task stateD 10 true none GStatus.notAsked id).pending_pattern
        = stateD.pending_pattern ∧
      (do_pending_task stateD 10 true none GStatus.notAsked id).total_search_required
        = stateD.total_search_required) := by
  decide

/-- C2 amended: when `do_pending_task` runs with a pending pattern and the
build is cancelled by the dam, the base tree, the filtered overlay (and hence
the displayed selection and scroll) are unchanged, but the pending pattern is
consumed (it was taken before the build) and `total_search_required` is
cleared. -/
theorem do_pending_task_cancel_amended (s : BrowserStateM) (ph : Int) (g : GStatus)
    (f : TreeM → TreeM) (h : s.pending_pattern.isSome = true) :
    do_pending_task s ph true none g f =
      { s with pending_pattern := none, total_search_required := false } := by
  unfold do_pending_task
  simp [h]

/-- Witness for the amended C2 at the concrete pre-state `stateD`. -/
theorem do_pending_task_cancel_amended_witness :
    do_pending_task stateD 10 true none GStatus.notAsked id =
      { stateD with pending_pattern := none, total_search_required := false } :=
  do_pending_task_cancel_amended stateD 10 GStatus.notAsked id (by decide)

/-! ## C1: total-search honesty (code bug) -/

/-- C1, failing input: on the fixture `r/{a/{b.txt}}` with `BrootSearchLimit`
exceeded at the first deepening, the completed (non-cancelled) build returns a
tree whose `total_search` flag is `true` although `b.txt` was never visited —
the same build without the limit does reach `b.txt` (with `total_search` again
true, this time honestly). The `BrootSearchLimit` break of `gather_lines` does
not clear `total_search`, contradicting the claim and the field's own comment
("we'll set it to false if we don't look at all children"). -/
theorem limit_break_keeps_total_search :
    ((build buildEnvA buildOptsA fsA 10 none false tkoLimit 30).map (fun o =>
      o.map (fun t => (t.total_search, t.lines.map (fun l => l.path)))))
      = some (some (true, [[], ["a"]])) ∧
    ((build buildEnvA buildOptsA fsA 10 none false tkoFree 30).map (fun o =>
      o.map (fun t => (t.total_search, t.lines.map (fun l => l.path)))))
      = some (some (true, [[], ["a"], ["a", "b.txt"]])) := by
  constructor
  · decide
  · decide

/-! ## C3: parent re-push during trimming (corrected) -/

/-- Counterexample to C3 as stated: on the fixture `fsB` (empty pattern,
`filter_by_git_status` on, `targeted_size = 1`, `trim_root = false`), the
gathered line with id 1 — path `A`, depth 1, matching after the gather — is
removed by `trim_excess` although `trim_root` is false, so lines at depth ≤ 1
are not protected from trimming: the parent re-push of `trim_excess` does not
re-check the seeding condition. -/
theorem trim_removes_depth_one_cex :
    trimRoot buildEnvB buildOptsB = false ∧
    ((gather_lines buildEnvB buildOptsB fsB 1 false tkoFree 40).map (fun o =>
      o.map (fun s =>
        ((aget s.arena 1).path, (aget s.arena 1).depth, (aget s.arena 1).has_match,
         (aget (trim_excess 1 (trimRoot buildEnvB buildOptsB) s.arena s.out) 1).has_match,
         s.out.contains 1))))
      = some (some (["A"], 1, true, false, true)) := by
  constructor
  · decide
  · decide

/-- C3 amended: during trimming, a parent whose `nb_kept_children` drops to
zero is pushed onto the removal queue unconditionally — the push checks only
the counter, never the seeding condition (depth > 1 unless `trim_root`);
consequently even depth-1 lines can be removed when `trim_root` is false, as
the second conjunct exhibits on a concrete build (line id 2, path `B`,
depth 1). -/
theorem trim_parent_push_spec :
    (∀ (arena : List BLine) (sli : Nat × Int) (q1 : List (Nat × Int)) (pid : Nat),
      (aget arena sli.1).parent_id = some pid →
      (((aget (trim_step arena sli q1).1 pid).nb_kept_children = 0 →
          (trim_step arena sli q1).2 =
            q1 ++ [(pid, (aget (trim_step arena sli q1).1 pid).score)]) ∧
        ((aget (trim_step arena sli q1).1 pid).nb_kept_children ≠ 0 →
          (trim_step arena sli q1).2 = q1))) ∧
    ((gather_lines buildEnvB buildOptsB fsB 1 false tkoFree 40).map (fun o =>
      o.map (fun s =>
        ((aget s.arena 2).path, (aget s.arena 2).depth, (aget s.arena 2).has_match,
         (aget (trim_excess 1 (trimRoot buildEnvB buildOptsB) s.arena s.out) 2).has_match))))
      = some (some (["B"], 1, true, false)) := by
  constructor
  · intro arena sli q1 pid hpar
    have hlt : sli.1 < arena.length := by
      by_contra hge
      rw [aget_oob arena sli.1 (Nat.le_of_not_lt hge)] at hpar
      exact Option.noConfusion hpar
    have h1 : aget (upd arena sli.1 (fun b => { b with has_match := false })) sli.1
        = { aget arena sli.1 with has_match := false } :=
      aget_upd_self arena sli.1 _ hlt
    constructor
    · intro hz
      simp only [trim_step, h1, hpar, Option.getD_some] at hz ⊢
      simp [hz]
    · intro hz
      simp only [trim_step, h1, hpar, Option.getD_some] at hz ⊢
      simp [hz]
  · decide

/-- Witness for the amended C3 on the concrete arena `trimArenaW`: removing
the only kept child of the root pushes the root itself (depth 0, not a
seedable line) onto the queue. -/
theorem trim_parent_push_spec_witness :
    (trim_step trimArenaW (1, 10009) []).2 =
      [] ++ [(0, (aget (trim_step trimArenaW (1, 10009) []).1 0).score)] :=
  (trim_parent_push_spec.1 trimArenaW (1, 10009) [] 0 (by decide)).1 (by decide)

/-! ## C10: content pattern scoring -/

/-- C10: `ContentExactPattern::score_of` returns `none` for every candidate
that is not a regular file; whenever it returns a score the score is exactly
1 (and the candidate was a regular file whose content search succeeded); and
search errors or unsuitable files yield `none` rather than an error. -/
theorem content_score_of_spec (search : List String → ContentSearchResultM)
    (c : CandidateM) :
    (c.regular_file = false → contentScoreOf search c = none) ∧
    (∀ v, contentScoreOf search c = some v →
      v = 1 ∧ c.regular_file = true ∧ search c.path = ContentSearchResultM.found) ∧
    (search c.path = ContentSearchResultM.err → contentScoreOf search c = none) ∧
    (search c.path = ContentSearchResultM.notSuitable → contentScoreOf search c = none) := by
  unfold contentScoreOf
  cases hc : c.regular_file <;> cases hs : search c.path <;> simp

/-- Witness for C10: a directory candidate is refused; a regular file found by
the search scores exactly 1; an erroring search yields `none`. -/
theorem content_score_of_spec_witness :
    contentScoreOf (fun _ => ContentSearchResultM.found) ⟨["d"], false⟩ = none ∧
    (1 : Int) = 1 ∧
    contentScoreOf (fun _ => ContentSearchResultM.err) ⟨["f"], true⟩ = none :=
  ⟨(content_score_of_spec (fun _ => ContentSearchResultM.found) ⟨["d"], false⟩).1 rfl,
   ((content_score_of_spec (fun _ => ContentSearchResultM.found) ⟨["f"], true⟩).2.1
      1 (by decide)).1,
   (content_score_of_spec (fun _ => ContentSearchResultM.err) ⟨["f"], true⟩).2.2.1 rfl⟩

/-! ## C4: parent closure of the produced tree -/

/-- C4: every non-root line of a built tree has its parent directory as an
earlier line, and the trim phase removes only lines that end with no kept
children: a gathered line unmatched by trimming has `nb_kept_children = 0` in
the trimmed arena, and a line still matched there has its parent matched. -/
theorem build_parent_closure (env : BuildEnv) (opts : TreeOptionsM) (fs : FSNode)
    (targeted : Nat) (pattern : Option String) (ts : Bool) (tko : TimeOracle)
    (fuel : Nat) (t : TreeM) (htg : 1 ≤ targeted)
    (hb : build env opts fs targeted pattern ts tko fuel = some (some t)) :
    (∀ (j : Nat) (lj : LineM), t.lines[j]? = some lj → lj.path ≠ [] →
      ∃ (i : Nat) (li : LineM), i < j ∧ t.lines[i]? = some li ∧
        li.path = lj.path.dropLast) ∧
    (∀ s, gather_lines env opts fs targeted ts tko fuel = some (some s) →
      ∀ a2, a2 = trim_excess targeted (trimRoot env opts) s.arena s.out →
      (∀ id ∈ s.out, (aget s.arena id).has_match = true →
        (aget a2 id).has_match = false → (aget a2 id).nb_kept_children = 0) ∧
      (∀ id ∈ s.out, (aget a2 id).has_match = true →
        ∀ p, (aget a2 id).parent_id = some p → (aget a2 p).has_match = true)) := by
  unfold build at hb
  cases hg : gather_lines env opts fs targeted ts tko fuel with
  | none =>
      rw [hg] at hb
      exact Option.noConfusion hb
  | some o =>
      cases o with
      | none =>
          rw [hg] at hb
          dsimp only at hb
          exact Option.noConfusion (Option.some.inj hb)
      | some s =>
          rw [hg] at hb
          dsimp only at hb
          have ht : t = take_tree env pattern
              (trim_excess targeted (trimRoot env opts) s.arena s.out) s.out
              s.flag :=
            (Option.some.inj (Option.some.inj hb)).symm
          obtain ⟨hG, hdum⟩ := gather_inv env opts fs targeted ts tko fuel s hg
          have hA := hG.ainv
          obtain ⟨c2, q2, hT⟩ :=
            trim_excess_inv fs s.arena s.out hA targeted htg (trimRoot env opts)
          set A2 := trim_excess targeted (trimRoot env opts) s.arena s.out
            with hA2def
          constructor
          · intro j lj hjl hpne
            rw [ht] at hjl ⊢
            unfold take_tree at hjl ⊢
            dsimp only at hjl ⊢
            obtain ⟨n, a, hna, hFa, hjpos⟩ := fm_pos_inv _ s.out j lj hjl
            have hFa2 : (if (aget A2 a).has_match = true
                then some (to_tree_line (aget A2 a)) else none) = some lj := hFa
            by_cases hma : (aget A2 a).has_match = true
            · rw [if_pos hma] at hFa2
              have hlj : lj = to_tree_line (aget A2 a) :=
                (Option.some.inj hFa2).symm
              have hao : a ∈ s.out := List.mem_iff_getElem?.mpr ⟨n, hna⟩
              have halt : a < s.arena.length := hA.outv a hao
              have ha0 : a ≠ 0 := by
                intro he
                apply hpne
                rw [hlj]
                show (aget A2 a).path = []
                rw [(hT.static a).2.1, he]
                exact hA.rootwf.2.1
              cases hpq : (aget s.arena a).parent_id with
              | none => exact absurd (hA.parent_none a halt hpq) ha0
              | some p =>
                  have hplt := (hA.parent_wf a halt p hpq).1
                  have hpa2 : (aget A2 a).parent_id = some p := by
                    rw [(hT.static a).1]
                    exact hpq
                  have hpm : (aget A2 p).has_match = true :=
                    hT.mcO a hao hma p hpa2
                  obtain ⟨i0, hi0lt, hi0⟩ := hA.pclosed n a hna p hpq
                  have hFp : (fun id => if (aget A2 id).has_match = true
                      then some (to_tree_line (aget A2 id)) else none) p
                      = some (to_tree_line (aget A2 p)) := by
                    dsimp only
                    rw [if_pos hpm]
                  have hpget := fm_pos_get (fun id =>
                    if (aget A2 id).has_match = true
                    then some (to_tree_line (aget A2 id)) else none)
                    s.out i0 p _ hi0 hFp
                  refine ⟨posIdx (fun id => if (aget A2 id).has_match = true
                      then some (to_tree_line (aget A2 id)) else none) s.out i0,
                    to_tree_line (aget A2 p), ?_, ?_, ?_⟩
                  · rw [hjpos]
                    exact posIdx_strict _ s.out i0 n p _ hi0lt hi0 hFp
                  · exact hpget
                  · rw [hlj]
                    show (aget A2 p).path = (aget A2 a).path.dropLast
                    rw [(hT.static p).2.1, (hT.static a).2.1,
                      (hA.parent_wf a halt p hpq).2.2]
                    exact List.dropLast_concat.symm
            · rw [if_neg hma] at hFa2
              exact Option.noConfusion hFa2
          · intro s2 hg2 a2 ha2
            have hs2 : s = s2 := Option.some.inj (Option.some.inj hg2)
            subst hs2
            subst ha2
            constructor
            · intro id hid hm1 hm2
              refine hT.rm0 id ?_ hm1 hm2
              rw [hT.len]
              exact hA.outv id hid
            · intro id hid hm p hp
              exact hT.mcO id hid hm p hp

/-- Witness for C4: in the unlimited build on `r/{a/{b.txt}}`, the line
`a/b.txt` (index 2) has its parent `a` as an earlier line. -/
theorem build_parent_closure_witness :
    (1 ≤ 10) ∧ ∃ i li, i < 2 ∧ treeC4.lines[i]? = some li ∧
      li.path = ljC4.path.dropLast :=
  ⟨by omega,
   (build_parent_closure buildEnvA buildOptsA fsA 10 none false tkoFree 30
      treeC4 (by omega) rfl).1 2 ljC4 rfl (by decide)⟩

/-! ## Helper lemmas: well-formed fixture filesystems -/

theorem fswf_leaf (n : String) (t : FType) : FSWF (FSNode.node n t []) :=
  FSWF.mk n t [] (by simp) (fun c hc => absurd hc (List.not_mem_nil c))

theorem fswf_single (n : String) (t : FType) (c : FSNode) (hc : FSWF c) :
    FSWF (FSNode.node n t [c]) :=
  FSWF.mk n t [c] (by simp)
    (fun d hd => by rw [List.mem_singleton.mp hd]; exact hc)

theorem fswf_fsB : FSWF fsB := by
  refine FSWF.mk "r" FType.dir _ (by decide) ?_
  intro c hc
  simp only [List.mem_cons, List.mem_singleton, List.not_mem_nil, or_false] at hc
  rcases hc with rfl | rfl
  · exact fswf_single _ _ _ (fswf_single _ _ _ (fswf_leaf _ _))
  · exact fswf_single _ _ _ (fswf_single _ _ _ (fswf_leaf _ _))

/-! ## C9: sibling ordering -/

/-- C9: in a built tree over a well-formed filesystem, two lines that are
siblings (same parent path) appear in case-insensitive lexicographic order of
their names: the earlier line's lowercased name is `≤` the later one's. -/
theorem build_sibling_order (env : BuildEnv) (opts : TreeOptionsM) (fs : FSNode)
    (targeted : Nat) (pattern : Option String) (ts : Bool) (tko : TimeOracle)
    (fuel : Nat) (t : TreeM) (hwf : FSWF fs)
    (hb : build env opts fs targeted pattern ts tko fuel = some (some t)) :
    ∀ (i j : Nat) (li lj : LineM), i < j → t.lines[i]? = some li →
      t.lines[j]? = some lj → li.path ≠ [] → lj.path ≠ [] →
      li.path.dropLast = lj.path.dropLast →
      charListLe (lowerKey li.name) (lowerKey lj.name) = true := by
  unfold build at hb
  cases hg : gather_lines env opts fs targeted ts tko fuel with
  | none =>
      rw [hg] at hb
      exact Option.noConfusion hb
  | some o =>
      cases o with
      | none =>
          rw [hg] at hb
          dsimp only at hb
          exact Option.noConfusion (Option.some.inj hb)
      | some s =>
          rw [hg] at hb
          dsimp only at hb
          have ht : t = take_tree env pattern
              (trim_excess targeted (trimRoot env opts) s.arena s.out) s.out
              s.flag :=
            (Option.some.inj (Option.some.inj hb)).symm
          obtain ⟨hG, hdum⟩ := gather_inv env opts fs targeted ts tko fuel s hg
          have hA := hG.ainv
          obtain ⟨hstlen, hstat⟩ :=
            trim_excess_static targeted (trimRoot env opts) s.arena s.out
          set A2 := trim_excess targeted (trimRoot env opts) s.arena s.out
            with hA2def
          intro i j li lj hij hi hj hlip hljp hdrop
          rw [ht] at hi hj
          unfold take_tree at hi hj
          dsimp only at hi hj
          obtain ⟨ni, a, hna, hFa, hipos⟩ := fm_pos_inv _ s.out i li hi
          obtain ⟨nj, b, hnb, hFb, hjpos⟩ := fm_pos_inv _ s.out j lj hj
          have hFa2 : (if (aget A2 a).has_match = true
              then some (to_tree_line (aget A2 a)) else none) = some li := hFa
          have hFb2 : (if (aget A2 b).has_match = true
              then some (to_tree_line (aget A2 b)) else none) = some lj := hFb
          by_cases hma : (aget A2 a).has_match = true
          case neg =>
            rw [if_neg hma] at hFa2
            exact Option.noConfusion hFa2
          by_cases hmb : (aget A2 b).has_match = true
          case neg =>
            rw [if_neg hmb] at hFb2
            exact Option.noConfusion hFb2
          rw [if_pos hma] at hFa2
          rw [if_pos hmb] at hFb2
          have hli : li = to_tree_line (aget A2 a) := (Option.some.inj hFa2).symm
          have hlj2 : lj = to_tree_line (aget A2 b) := (Option.some.inj hFb2).symm
          have hao : a ∈ s.out := List.mem_iff_getElem?.mpr ⟨ni, hna⟩
          have hbo : b ∈ s.out := List.mem_iff_getElem?.mpr ⟨nj, hnb⟩
          have halt : a < s.arena.length := hA.outv a hao
          have hblt : b < s.arena.length := hA.outv b hbo
          have hninj : ni < nj := by
            by_contra hge
            push_neg at hge
            have hmono := posIdx_mono (fun id => if (aget A2 id).has_match = true
              then some (to_tree_line (aget A2 id)) else none) s.out nj ni hge
            omega
          have ha0 : a ≠ 0 := by
            intro he
            apply hlip
            rw [hli]
            show (aget A2 a).path = []
            rw [(hstat a).2.1, he]
            exact hA.rootwf.2.1
          have hb0 : b ≠ 0 := by
            intro he
            apply hljp
            rw [hlj2]
            show (aget A2 b).path = []
            rw [(hstat b).2.1, he]
            exact hA.rootwf.2.1
          cases hpa : (aget s.arena a).parent_id with
          | none => exact absurd (hA.parent_none a halt hpa) ha0
          | some pa =>
          cases hpb : (aget s.arena b).parent_id with
          | none => exact absurd (hA.parent_none b hblt hpb) hb0
          | some pb =>
          have hpalt := (hA.parent_wf a halt pa hpa).1
          have hpblt := (hA.parent_wf b hblt pb hpb).1
          have hdropa : (aget s.arena a).path.dropLast = (aget s.arena pa).path := by
            rw [(hA.parent_wf a halt pa hpa).2.2]
            exact List.dropLast_concat
          have hdropb : (aget s.arena b).path.dropLast = (aget s.arena pb).path := by
            rw [(hA.parent_wf b hblt pb hpb).2.2]
            exact List.dropLast_concat
          have hlipath : li.path = (aget s.arena a).path := by
            rw [hli]
            show (aget A2 a).path = _
            exact (hstat a).2.1
          have hljpath : lj.path = (aget s.arena b).path := by
            rw [hlj2]
            show (aget A2 b).path = _
            exact (hstat b).2.1
          have hpp : pa = pb := by
            apply hA.pathinj hwf pa pb hpalt hpblt
            rw [← hdropa, ← hdropb, ← hlipath, ← hljpath]
            exact hdrop
          rw [← hpp] at hpb hpblt hdropb
          obtain ⟨csa, hcsa, hacs⟩ := hA.conv a halt pa hpa
          obtain ⟨csb, hcsb, hbcs⟩ := hA.conv b hblt pa hpb
          have hcseq : csa = csb :=
            Option.some.inj (hcsa.symm.trans hcsb)
          subst hcseq
          obtain ⟨hkle, hfil⟩ := hA.fp pa hpalt csa hcsa
          rw [filter_eq_filterMap] at hfil
          have hF2a : (fun x => if ((aget s.arena x).parent_id == some pa) = true
              then some x else none) a = some a := by
            dsimp only
            rw [hpa]
            simp
          have hF2b : (fun x => if ((aget s.arena x).parent_id == some pa) = true
              then some x else none) b = some b := by
            dsimp only
            rw [hpb]
            simp
          have hga := fm_pos_get (fun x =>
            if ((aget s.arena x).parent_id == some pa) = true
            then some x else none) s.out ni a a hna hF2a
          have hgb := fm_pos_get (fun x =>
            if ((aget s.arena x).parent_id == some pa) = true
            then some x else none) s.out nj b b hnb hF2b
          rw [hfil] at hga hgb
          have hqlt : posIdx (fun x => if ((aget s.arena x).parent_id == some pa) = true
              then some x else none) s.out ni <
              posIdx (fun x => if ((aget s.arena x).parent_id == some pa) = true
              then some x else none) s.out nj :=
            posIdx_strict _ s.out ni nj a a hninj hna hF2a
          have hsorted := hA.sorted pa hpalt csa hcsa
          have hsortedTake : List.Pairwise (fun x y => nameLe s.arena x y = true)
              (csa.take (aget s.arena pa).next_child_idx) :=
            List.Pairwise.sublist
              (List.take_sublist (aget s.arena pa).next_child_idx csa) hsorted
          obtain ⟨hlta, hgeta⟩ := List.getElem?_eq_some.mp hga
          obtain ⟨hltb, hgetb⟩ := List.getElem?_eq_some.mp hgb
          have hR := List.pairwise_iff_getElem.mp hsortedTake _ _ hlta hltb hqlt
          rw [hgeta, hgetb] at hR
          unfold nameLe at hR
          have hlin : li.name = (aget s.arena a).name := by
            rw [hli]
            show (aget A2 a).name = _
            exact (hstat a).2.2.2.1
          have hljn : lj.name = (aget s.arena b).name := by
            rw [hlj2]
            show (aget A2 b).name = _
            exact (hstat b).2.2.2.1
          rw [hlin, hljn]
          exact hR

/-- Witness for C9: in the unlimited build on `r/{A/{P/{fp}}, B/{S/{fs1}}}`,
the sibling lines A (index 1) and B (index 2) appear in name order. -/
theorem build_sibling_order_witness :
    (1 : Nat) < 2 ∧ charListLe (lowerKey liC9.name) (lowerKey ljC9.name) = true :=
  ⟨by omega,
   build_sibling_order buildEnvA buildOptsA fsB 10 none false tkoFree 40 treeC9
     fswf_fsB rfl 1 2 liC9 ljC9 (by omega) rfl rfl (by decide) (by decide)
     (by decide)⟩

/-! ## C5: the early-exit floor of a bounded search -/

/-- C5: in a non-total (bounded) search, an early exit (`flag = false` on the
returned state) only happens when `nb_lines_ok` exceeded `optimal_size` or
reached `targeted_size` (with the 900 ms deadline passed); since
`optimal_size` is `targeted_size` or ten times it, the deadline never stops a
build with fewer than `targeted_size` matching lines: the returned state has
`targeted_size ≤ nb_lines_ok`, and at least that many gathered lines match. -/
theorem gather_early_exit_floor (env : BuildEnv) (opts : TreeOptionsM)
    (fs : FSNode) (targeted : Nat) (tko : TimeOracle) (fuel : Nat)
    (s : GatherState)
    (hg : gather_lines env opts fs targeted false tko fuel = some (some s))
    (hf : s.flag = false) :
    (targeted ≤ s.nb_lines_ok ∨ optimalSize env targeted < s.nb_lines_ok) ∧
    targeted ≤ s.nb_lines_ok ∧ targeted ≤ countMatching s.arena s.out := by
  obtain ⟨hG, hfl⟩ := gather_inv env opts fs targeted false tko fuel s hg
  have hd := hfl hf
  have hopt : targeted ≤ optimalSize env targeted := by
    unfold optimalSize
    split
    · omega
    · omega
  have hnb : targeted ≤ s.nb_lines_ok := by
    rcases hd with h1 | h1
    · exact h1
    · omega
  exact ⟨hd, hnb, le_trans hnb hG.nble⟩

/-- Witness for C5: a bounded search for one line on `r/{a/{b.txt}}` with the
900 ms deadline always passed exits early with one ok line — not zero. -/
theorem gather_early_exit_floor_witness :
    (1 ≤ gsC5.nb_lines_ok ∨ optimalSize buildEnvA 1 < gsC5.nb_lines_ok) ∧
    1 ≤ gsC5.nb_lines_ok ∧ 1 ≤ countMatching gsC5.arena gsC5.out :=
  gather_early_exit_floor buildEnvA buildOptsA fsA 1 tko900 30 gsC5 rfl rfl

end Broot
